import Mathlib

/-!
The lab0-c queue: a shallow embedding of `queue.c`.

The queue of `queue.c` is an intrusive circular doubly-linked list.  The
embedding keeps the pointer structure: a `Heap` maps the address of every
`struct list_head` to its `next` and `prev` fields, and the address of the link
embedded in an `element_t` to the bytes of the element's `value` buffer.
Address `0` is `NULL`.  Every C function becomes a function on heaps; a loop
becomes a recursion on an explicit fuel argument and returns `none` when the
fuel runs out.
-/

namespace Queue

/-! ## Memory -/

/-- The part of memory `queue.c` works on.  `next a` and `prev a` are the two
fields of the `struct list_head` at address `a`; `value a` holds the bytes of
the buffer `list_entry(a, element_t, list)->value` (the string ends at the
first `0` byte, or at the end of the list); `freed` records, latest first, the
elements handed to `q_release_element`. -/
structure Heap where
  next : Nat → Nat
  prev : Nat → Nat
  value : Nat → List Nat
  freed : List Nat

/-- Assignment `a->next = v`. -/
def Heap.setNext (h : Heap) (a v : Nat) : Heap :=
  { h with next := fun x => if x = a then v else h.next x }

/-- Assignment `a->prev = v`. -/
def Heap.setPrev (h : Heap) (a v : Nat) : Heap :=
  { h with prev := fun x => if x = a then v else h.prev x }

/-- Assignment of a whole string buffer to `list_entry(a, element_t, list)->value`. -/
def Heap.setValue (h : Heap) (a : Nat) (s : List Nat) : Heap :=
  { h with value := fun x => if x = a then s else h.value x }

/-! ## Strings -/

/-- The C string held in a buffer: the bytes before the first `0`. -/
def cstr (s : List Nat) : List Nat := s.takeWhile (fun b => b != 0)

/-- Library function `strlen`, as a `size_t`. -/
def strlen (s : List Nat) : Nat := (cstr s).length % 2 ^ 64

/-- Library function `strcmp`: the difference of the first pair of bytes that
differ, reading a buffer's end as the terminating `0`; `0` when both strings end
together. -/
def strcmp : List Nat → List Nat → Int
  | [], [] => 0
  | [], b :: _ => 0 - (b : Int)
  | a :: _, [] => (a : Int)
  | a :: as, b :: bs =>
    if a ≠ b then (a : Int) - (b : Int)
    else if a = 0 then 0
    else strcmp as bs

/-! ## list.h -/

/-- Modelled from the spec: `list.h` is not among the sources; `init(sentinel)`
sets `next = prev = sentinel`. -/
def INIT_LIST_HEAD (h : Heap) (head : Nat) : Heap :=
  (h.setNext head head).setPrev head head

/-- Modelled from the spec: `list.h` is not among the sources; `link_after(node,
anchor)` splices a detached node right after `anchor`. -/
def list_add (h : Heap) (node head : Nat) : Heap :=
  let next := h.next head
  let h := h.setPrev next node
  let h := h.setNext node next
  let h := h.setPrev node head
  h.setNext head node

/-- Modelled from the spec: `list.h` is not among the sources; `link_before(node,
anchor)` splices a detached node right before `anchor`. -/
def list_add_tail (h : Heap) (node head : Nat) : Heap :=
  let prev := h.prev head
  let h := h.setNext prev node
  let h := h.setNext node head
  let h := h.setPrev node prev
  h.setPrev head node

/-- Modelled from the spec: `list.h` is not among the sources; `unlink(node)`
removes `node` from its chain, its neighbours re-point to each other. -/
def list_del (h : Heap) (node : Nat) : Heap :=
  let next := h.next node
  let prev := h.prev node
  let h := h.setPrev next prev
  h.setNext prev next

/-- Modelled from the spec: `list.h` is not among the sources; "unlink and
reset": `unlink(node)` followed by `init(node)`. -/
def list_del_init (h : Heap) (node : Nat) : Heap :=
  INIT_LIST_HEAD (list_del h node) node

/-- Modelled from the spec: `list.h` is not among the sources;
`relocate(node, newPosition)` is unlink then link (here: before `head`). -/
def list_move_tail (h : Heap) (node head : Nat) : Heap :=
  list_add_tail (list_del h node) node head

/-- Modelled from the spec: `list.h` is not among the sources;
`is_empty(sentinel)` is true iff `sentinel.next == sentinel`. -/
def list_empty (h : Heap) (head : Nat) : Bool :=
  h.next head == head

/-- Modelled from the spec: `list.h` is not among the sources;
`is_singular(sentinel)` is true iff there is exactly one node besides the
sentinel. -/
def list_is_singular (h : Heap) (head : Nat) : Bool :=
  !list_empty h head && h.prev head == h.next head

/-! ## queue.c -/

/-- Function `q_release_element`: frees the string and the element. -/
def q_release_element (h : Heap) (e : Nat) : Heap :=
  { h with freed := e :: h.freed }

/-- Function `q_new`; `head` is what `malloc` returned (`0` on failure). -/
def q_new (h : Heap) (head : Nat) : Heap × Nat :=
  if head ≠ 0 then (INIT_LIST_HEAD h head, head) else (h, head)

/-- Function `q_free`, the loop: `list_for_each_entry_safe (elem, safe, l, list)`
releasing every element. -/
def q_free_loop : Nat → Heap → Nat → Nat → Nat → Option Heap
  | 0, _, _, _, _ => none
  | fuel + 1, h, l, elem, safe =>
    if elem ≠ l then
      let h := q_release_element h elem
      q_free_loop fuel h l safe (h.next safe)
    else some h

/-- Function `q_free`; the sentinel is recorded as freed last. -/
def q_free (fuel : Nat) (h : Heap) (l : Nat) : Option Heap :=
  if l = 0 then some h
  else
    match q_free_loop fuel h l (h.next l) (h.next (h.next l)) with
    | none => none
    | some h => some { h with freed := l :: h.freed }

/-- The buffer `malloc(strlen(s) + 1)` after `memcpy(.., s, strlen(s))` and the
write of the terminating `0`. -/
def copyString (s : List Nat) : List Nat :=
  s.take (strlen s) ++ [0]

/-- Function `q_insert_head`; `elem` is what `malloc(sizeof *elem)` returned
(`0` on failure) and `buf` whether the `malloc` of the string succeeded. -/
def q_insert_head (h : Heap) (head : Nat) (s : List Nat) (elem : Nat) (buf : Bool) :
    Heap × Bool :=
  if head = 0 then (h, false)
  else if elem = 0 then (h, false)
  else if !buf then (h, false)
  else (list_add (h.setValue elem (copyString s)) elem head, true)

/-- Function `q_insert_tail`; `elem` and `buf` as for `q_insert_head`. -/
def q_insert_tail (h : Heap) (head : Nat) (s : List Nat) (elem : Nat) (buf : Bool) :
    Heap × Bool :=
  if head = 0 then (h, false)
  else if elem = 0 then (h, false)
  else if !buf then (h, false)
  else (list_add_tail (h.setValue elem (copyString s)) elem head, true)

/-- The value of `-(cond)` seen as a `w`-bit pattern: all ones or zero. -/
def negMask (w : Nat) (cond : Bool) : Nat :=
  if cond then 2 ^ w - 1 else 0

/-- Conversion of an `int`, given by its 32-bit pattern, to `size_t`. -/
def toSizeT (i : Nat) : Nat :=
  if i < 2 ^ 31 then i else i + (2 ^ 64 - 2 ^ 32)

/-- The signed value of an `int` given by its 32-bit pattern. -/
def toInt (i : Nat) : Int :=
  if i < 2 ^ 31 then (i : Int) else (i : Int) - 2 ^ 32

/-- The byte `*(psp + off)`; a read outside the buffer yields `0`. -/
def readByte (psp : List Nat) (off : Int) : Nat :=
  if 0 ≤ off then psp.getD off.toNat 0 else 0

/-- The value of `bufsize - 1` in `size_t` arithmetic. -/
def bufsizeMinusOne (bufsize : Nat) : Nat :=
  (bufsize + 2 ^ 64 - 1) % 2 ^ 64

/-- The initialiser of `len` in `q_remove_head` and `q_remove_tail`:
`(bufsize - 1) ^ (((bufsize - 1) ^ strlen(value)) & -(strlen(value) < (bufsize - 1)))`. -/
def copyLen (bufsize : Nat) (value : List Nat) : Nat :=
  bufsizeMinusOne bufsize ^^^
    ((bufsizeMinusOne bufsize ^^^ strlen value) &&&
      negMask 64 (decide (strlen value < bufsizeMinusOne bufsize)))

/-- The loop `for (int i = 0; i < bufsize - 1; ++i)
sp[i ^ ((i ^ len) & -(i > len))] = *(psp + (i & -(i < len)));` of `q_remove_head`
and `q_remove_tail`.  The counter `i` is an `int`, kept as its 32-bit pattern,
and `i` is converted to `size_t` where it meets `len` or `bufsize - 1`.  The
increment of `INT_MAX`, which C leaves undefined, is taken to wrap, as the code
built without optimisation does; the loop as written in C is only described
while the counter stays at or below `INT_MAX`, that is with `sp` null or
`bufsize` from `1` to `2 ^ 31`. -/
def copyLoop : Nat → Nat → Nat → Nat → List Nat → (Nat → Nat) → Option (Nat → Nat)
  | 0, _, _, _, _, _ => none
  | fuel + 1, i, bufsize, len, psp, sp =>
    if toSizeT i < bufsizeMinusOne bufsize then
      let w := toSizeT i ^^^ ((toSizeT i ^^^ len) &&& negMask 64 (decide (toSizeT i > len)))
      let r := i &&& negMask 32 (decide (toSizeT i < len))
      copyLoop fuel ((i + 1) % 2 ^ 32) bufsize len psp
        (fun x => if x = w then readByte psp (toInt r) else sp x)
    else some sp

/-- The block `if (sp != NULL) { ... }` shared by `q_remove_head` and
`q_remove_tail`: `sp` is `none` for `NULL`, otherwise the bytes at `sp[0]`,
`sp[1]`, ... -/
def copyOut (fuel : Nat) (value : List Nat) (sp : Option (Nat → Nat)) (bufsize : Nat) :
    Option (Option (Nat → Nat)) :=
  match sp with
  | none => some none
  | some buf =>
    let len := copyLen bufsize value
    match copyLoop fuel 0 bufsize len value buf with
    | none => none
    | some buf => some (some (fun x => if x = len then 0 else buf x))

/-- Function `q_remove_head`: the heap, the returned element (`0` for `NULL`)
and the output buffer. -/
def q_remove_head (fuel : Nat) (h : Heap) (head : Nat) (sp : Option (Nat → Nat))
    (bufsize : Nat) : Option (Heap × Nat × Option (Nat → Nat)) :=
  if head = 0 || list_empty h head then some (h, 0, sp)
  else
    let node := h.next head
    let h := list_del_init h node
    match copyOut fuel (h.value node) sp bufsize with
    | none => none
    | some sp => some (h, node, sp)

/-- Function `q_remove_tail`. -/
def q_remove_tail (fuel : Nat) (h : Heap) (head : Nat) (sp : Option (Nat → Nat))
    (bufsize : Nat) : Option (Heap × Nat × Option (Nat → Nat)) :=
  if head = 0 || list_empty h head then some (h, 0, sp)
  else
    let node := h.prev head
    let h := list_del_init h node
    match copyOut fuel (h.value node) sp bufsize with
    | none => none
    | some sp => some (h, node, sp)

/-- Function `q_size`, the loop `list_for_each (node, head) ++size;` with `size`
an `int` kept as its 32-bit pattern. -/
def q_size_loop : Nat → Heap → Nat → Nat → Nat → Option Nat
  | 0, _, _, _, _ => none
  | fuel + 1, h, head, node, size =>
    if node ≠ head then q_size_loop fuel h head (h.next node) ((size + 1) % 2 ^ 32)
    else some size

/-- Function `q_size`. -/
def q_size (fuel : Nat) (h : Heap) (head : Nat) : Option Int :=
  if head = 0 || list_empty h head then some 0
  else (q_size_loop fuel h head (h.next head) 0).map toInt

/-- Function `q_delete_mid`, the two-pointer walk; yields the final `forward`. -/
def q_delete_mid_loop : Nat → Heap → Nat → Nat → Option Nat
  | 0, _, _, _ => none
  | fuel + 1, h, forward, backward =>
    if forward ≠ backward then
      let forward := h.next forward
      if forward = backward then some forward
      else q_delete_mid_loop fuel h forward (h.prev backward)
    else some forward

/-- Function `q_delete_mid`. -/
def q_delete_mid (fuel : Nat) (h : Heap) (head : Nat) : Option (Heap × Bool) :=
  if head = 0 || list_empty h head then some (h, false)
  else
    match q_delete_mid_loop fuel h (h.next head) (h.prev head) with
    | none => none
    | some forward => some (q_release_element (list_del_init h forward) forward, true)

/-- Function `q_delete_dup`, the loop `list_for_each_entry_safe (elem, safe, head,
list)`.  An element pointer is the address of its embedded link; `last` is
`none` for `NULL`.  Yields the heap, `elem` and `last` at loop exit. -/
def q_delete_dup_loop : Nat → Heap → Nat → Nat → Nat → Option Nat →
    Option (Heap × Nat × Option Nat)
  | 0, _, _, _, _, _ => none
  | fuel + 1, h, head, elem, safe, last =>
    if elem ≠ head then
      if safe = head then some (h, elem, last)
      else if strcmp (h.value elem) (h.value safe) = 0 then
        let h := q_release_element (list_del_init h elem) elem
        q_delete_dup_loop fuel h head safe (h.next safe) (some safe)
      else if last = some elem then
        let h := q_release_element (list_del_init h elem) elem
        q_delete_dup_loop fuel h head safe (h.next safe) last
      else q_delete_dup_loop fuel h head safe (h.next safe) last
    else some (h, elem, last)

/-- Function `q_delete_dup`. -/
def q_delete_dup (fuel : Nat) (h : Heap) (head : Nat) : Option (Heap × Bool) :=
  if head = 0 then some (h, false)
  else
    match q_delete_dup_loop fuel h head (h.next head) (h.next (h.next head)) none with
    | none => none
    | some (h, elem, last) =>
      if last = some (h.prev head) then
        some (q_release_element (list_del_init h elem) elem, true)
      else some (h, true)

/-- The six assignments of `q_swap` under `if (phase)`. -/
def q_swap_step (h : Heap) (node safe : Nat) : Heap :=
  let swap := h.prev node
  let h := h.setNext (h.prev swap) node
  let h := h.setNext (h.prev node) safe
  let h := h.setNext node swap
  let h := h.setPrev safe swap
  let h := h.setPrev node (h.prev swap)
  h.setPrev swap node

/-- Function `q_swap`, the loop `list_for_each_safe (node, safe, head)`. -/
def q_swap_loop : Nat → Heap → Nat → Nat → Nat → Nat → Option Heap
  | 0, _, _, _, _, _ => none
  | fuel + 1, h, head, node, safe, phase =>
    if node ≠ head then
      let h := if phase ≠ 0 then q_swap_step h node safe else h
      q_swap_loop fuel h head safe (h.next safe) (phase ^^^ 1)
    else some h

/-- Function `q_swap`. -/
def q_swap (fuel : Nat) (h : Heap) (head : Nat) : Option Heap :=
  q_swap_loop fuel h head (h.next head) (h.next (h.next head)) 0

/-- Function `q_reverse`, the loop `list_for_each_safe (node, safe, head)`. -/
def q_reverse_loop : Nat → Heap → Nat → Nat → Nat → Option Heap
  | 0, _, _, _, _ => none
  | fuel + 1, h, head, node, safe =>
    if node ≠ head then
      let h := list_add (list_del h node) node head
      q_reverse_loop fuel h head safe (h.next safe)
    else some h

/-- Function `q_reverse`. -/
def q_reverse (fuel : Nat) (h : Heap) (head : Nat) : Option Heap :=
  if head = 0 || list_empty h head then some h
  else q_reverse_loop fuel h head (h.next head) (h.next (h.next head))

/-- The assignment `*tail = v` of `merge`, where `tail` is `none` for `&head`
(the local variable) and `some a` for `&a->next`; yields the heap and `head`. -/
def storeTail (h : Heap) (head : Nat) (tail : Option Nat) (v : Nat) : Heap × Nat :=
  match tail with
  | none => (h, v)
  | some t => (h.setNext t v, head)

/-- Function `merge`, the loop `for (;;)`; yields the heap and the local `head`. -/
def merge_loop : Nat → Heap → Nat → Option Nat → Nat → Nat → Option (Heap × Nat)
  | 0, _, _, _, _, _ => none
  | fuel + 1, h, head, tail, a, b =>
    if strcmp (h.value a) (h.value b) ≤ 0 then
      let (h, head) := storeTail h head tail a
      let tail := some a
      let a := h.next a
      if a = 0 then some (storeTail h head tail b)
      else merge_loop fuel h head tail a b
    else
      let (h, head) := storeTail h head tail b
      let tail := some b
      let b := h.next b
      if b = 0 then some (storeTail h head tail a)
      else merge_loop fuel h head tail a b

/-- Function `merge`. -/
def merge (fuel : Nat) (h : Heap) (a b : Nat) : Option (Heap × Nat) :=
  merge_loop fuel h 0 none a b

/-- Function `merge_sort`, the loop `while (right && right->next)`; yields the
final `left`. -/
def merge_sort_split : Nat → Heap → Nat → Nat → Option Nat
  | 0, _, _, _ => none
  | fuel + 1, h, left, right =>
    if right ≠ 0 && h.next right ≠ 0 then
      merge_sort_split fuel h (h.next left) (h.next (h.next right))
    else some left

/-- Function `merge_sort`. -/
def merge_sort : Nat → Heap → Nat → Option (Heap × Nat)
  | 0, _, _ => none
  | fuel + 1, h, head =>
    if head = 0 || h.next head = 0 then some (h, head)
    else
      match merge_sort_split fuel h head (h.next head) with
      | none => none
      | some left =>
        let right := h.next left
        let h := h.setNext left 0
        match merge_sort fuel h head with
        | none => none
        | some (h, left) =>
          match merge_sort fuel h right with
          | none => none
          | some (h, right) => merge fuel h left right

/-- Function `q_sort`, the loop `for (; temp->next != NULL; temp = temp->next)`
together with the two assignments that close the ring. -/
def q_sort_relink : Nat → Heap → Nat → Nat → Option Heap
  | 0, _, _, _ => none
  | fuel + 1, h, head, temp =>
    if h.next temp ≠ 0 then
      q_sort_relink fuel (h.setPrev (h.next temp) temp) head (h.next temp)
    else some ((h.setPrev head temp).setNext temp head)

/-- Function `q_sort`. -/
def q_sort (fuel : Nat) (h : Heap) (head : Nat) : Option Heap :=
  if head = 0 || list_empty h head || list_is_singular h head then some h
  else
    let start := h.next head
    let final := h.prev head
    let h := h.setNext final 0
    let h := h.setPrev start 0
    let h := INIT_LIST_HEAD h head
    match merge_sort fuel h start with
    | none => none
    | some (h, sorted) =>
      let h := h.setNext head sorted
      let h := h.setPrev (h.next head) head
      q_sort_relink fuel h head (h.next head)

/-- One pass of the `while (size > 0)` loop of `q_shuffle`: the walk
`for (int i = 0; i < roll; ++i) node = node->next;`. -/
def q_shuffle_walk (h : Heap) : Nat → Nat → Nat
  | 0, node => node
  | roll + 1, node => q_shuffle_walk h roll (h.next node)

/-- Function `q_shuffle`, the loop `while (size > 0)`; `rands` are the values
`rand()` returns, in order. -/
def q_shuffle_loop (head : Nat) : List Nat → Heap → Nat → Nat → Option Heap
  | [], h, size, _ => if size > 0 then none else some h
  | r :: rands, h, size, e =>
    if size > 0 then
      let node := h.next head
      let roll := r % size
      let node := q_shuffle_walk h roll node
      let h := list_move_tail h (h.prev e) node
      let h := list_move_tail h node e
      q_shuffle_loop head rands h (size - 1) (h.prev e)
    else some h

/-- Function `q_shuffle`; `fuel` bounds the loop of `q_size`. -/
def q_shuffle (fuel : Nat) (rands : List Nat) (h : Heap) (head : Nat) : Option Heap :=
  match q_size fuel h head with
  | none => none
  | some size => q_shuffle_loop head rands h size.toNat head

/-! ## Reading a queue back -/

/-- The links met walking `next` from `node` until `head`. -/
def walk (h : Heap) (head : Nat) : Nat → Nat → List Nat
  | 0, _ => []
  | fuel + 1, node => if node = head then [] else node :: walk h head fuel (h.next node)

/-- A heap with nothing in it. -/
def emptyHeap : Heap := ⟨fun _ => 0, fun _ => 0, fun _ => [], []⟩

/-- The queue with sentinel `head` holding the given elements (address of the
link, string), built by `q_new` and `q_insert_tail`. -/
def buildQueue (head : Nat) (es : List (Nat × List Nat)) : Heap :=
  es.foldl (fun h e => (q_insert_tail h head e.2 e.1 true).1) (q_new emptyHeap head).1

/-! ## Well-formed queues -/

/-- Two links are neighbours: `a->next == b` and `b->prev == a`. -/
def Link (h : Heap) (a b : Nat) : Prop :=
  h.next a = b ∧ h.prev b = a

instance Link.instDecidable (h : Heap) (a b : Nat) : Decidable (Link h a b) :=
  inferInstanceAs (Decidable (h.next a = b ∧ h.prev b = a))

/-- Every link of the sequence is the neighbour of the one after it. -/
def Linked (h : Heap) : List Nat → Prop
  | a :: b :: rest => Link h a b ∧ Linked h (b :: rest)
  | _ => True

instance Linked.instDecidable (h : Heap) : (c : List Nat) → Decidable (Linked h c)
  | [] => isTrue trivial
  | [_] => isTrue trivial
  | a :: b :: rest =>
    have := Linked.instDecidable h (b :: rest)
    inferInstanceAs (Decidable (Link h a b ∧ Linked h (b :: rest)))

/-- The sentinel `head` and the links `l`, in this order, form a circular
doubly-linked list in `h`: a non-null sentinel, pairwise distinct non-null
links, and every link of the ring `head, l, head` is the neighbour of the
next one. -/
structure IsQueue (h : Heap) (head : Nat) (l : List Nat) : Prop where
  linked : Linked h (head :: (l ++ [head]))
  nodup : (head :: l).Nodup
  nonnull : 0 ∉ head :: l

instance IsQueue.instDecidable (h : Heap) (head : Nat) (l : List Nat) :
    Decidable (IsQueue h head l) :=
  decidable_of_iff
    (Linked h (head :: (l ++ [head])) ∧ (head :: l).Nodup ∧ 0 ∉ head :: l)
    ⟨fun ⟨a, b, c⟩ => ⟨a, b, c⟩, fun ⟨a, b, c⟩ => ⟨a, b, c⟩⟩

/-- The payload of the element whose link is at `a`. -/
def payload (h : Heap) (a : Nat) : List Nat := cstr (h.value a)

/-! ## Invariants, specifications and example queues -/

/-- The sequence `q_swap` is to produce: the elements exchanged two by two, an
unpaired last element left in place. -/
def swapPairs : List Nat → List Nat
  | a :: b :: rest => b :: a :: swapPairs rest
  | l => l

/-- The payloads of the elements at `a` and `b` differ. -/
def differs (val : Nat → List Nat) (a b : Nat) : Bool :=
  cstr (val a) != cstr (val b)

/-- The elements of a sequence whose payload differs from the payload of both
neighbours, in their order; `p` is the neighbour before the sequence, if any. -/
def loneElements (val : Nat → List Nat) : Option Nat → List Nat → List Nat
  | _, [] => []
  | p, x :: rest =>
    (if p.all (fun q => differs val q x) && rest.head?.all (fun y => differs val x y)
      then [x] else []) ++ loneElements val (some x) rest

/-- The comparison `strcmp(a->value, b->value) <= 0` of `merge`. -/
def le (val : Nat → List Nat) (a b : Nat) : Bool :=
  decide (strcmp (val a) (val b) ≤ 0)

/-- Following `next` from `s` visits exactly the links `l` and then arrives at `t`. -/
def IsSeg (h : Heap) : Nat → List Nat → Nat → Prop
  | s, [], t => s = t
  | s, x :: rest, t => s = x ∧ IsSeg h (h.next x) rest t

/-- The state of `merge` between two passes of its loop: whatever is stored
through `tail` next, the links `out` already merged lead from `head` to it, and
the store touches no `next` field outside `out`. -/
structure TailInv (h : Heap) (hv : Nat) (tail : Option Nat) (out : List Nat) : Prop where
  seg : ∀ v, IsSeg (storeTail h hv tail v).1 (storeTail h hv tail v).2 out v
  next : ∀ v a, a ∉ out → (storeTail h hv tail v).1.next a = h.next a

/-- The queue holding the single payload `hello`, with sentinel `1` and link `2`. -/
def helloQueue : Heap := buildQueue 1 [(2, [104, 101, 108, 108, 111])]

/-- The queue `c, a, b, a` with sentinel `1` and links `2, 3, 4, 5`. -/
def sampleQueue : Heap := buildQueue 1 [(2, [99]), (3, [97]), (4, [98]), (5, [97])]

/-- The sorted queue `a, a, b` with sentinel `1` and links `2, 3, 4`. -/
def sortedQueue : Heap := buildQueue 1 [(2, [97]), (3, [97]), (4, [98])]

/-- The queue `A, B, C, D, E, F` with sentinel `1` and links `2, ..., 7`. -/
def sixQueue : Heap :=
  buildQueue 1 [(2, [65]), (3, [66]), (4, [67]), (5, [68]), (6, [69]), (7, [70])]

/-- The queue `1, 2, 3, 4, 5` with sentinel `1` and links `2, ..., 6`. -/
def fiveQueue : Heap :=
  buildQueue 1 [(2, [49]), (3, [50]), (4, [51]), (5, [52]), (6, [53])]

/-- A string of `2 ^ 31 + 1` letters `a`. -/
def longPayload : List Nat := List.replicate (2 ^ 31 + 1) 97

/-- The queue holding the single payload `longPayload`, with sentinel `1` and
link `2`. -/
def longQueue : Heap := buildQueue 1 [(2, longPayload)]

/-- One call of `q_insert_head` (`atHead`) or `q_insert_tail`: the string, what
`malloc(sizeof *elem)` returned and whether the `malloc` of the buffer
succeeded. -/
structure InsertCall where
  atHead : Bool
  s : List Nat
  elem : Nat
  buf : Bool

/-- The call `c` on the queue `head`. -/
def q_insert (h : Heap) (head : Nat) (c : InsertCall) : Heap × Bool :=
  if c.atHead then q_insert_head h head c.s c.elem c.buf
  else q_insert_tail h head c.s c.elem c.buf

/-- A sequence of insert calls that all succeed, one after the other; `none`
as soon as one of them returns false. -/
def insertAll (head : Nat) : Heap → List InsertCall → Option Heap
  | h, [] => some h
  | h, c :: cs =>
    if (q_insert h head c).2 then insertAll head (q_insert h head c).1 cs else none

/-- The calls `q_insert_tail(head, "")` whose elements are allocated at `2`, `3`,
..., `2 ^ 31 + 1`. -/
def bigCalls : List InsertCall :=
  (List.range (2 ^ 31)).map (fun i => ⟨false, [], i + 2, true⟩)

/-- Three insert calls, at the tail, at the head and at the tail. -/
def threeCalls : List InsertCall :=
  [⟨false, [98], 2, true⟩, ⟨true, [97], 3, true⟩, ⟨false, [99], 4, true⟩]

/-- The heap after the three calls of `threeCalls` on a new queue with sentinel `1`. -/
def threeInserted : Heap :=
  threeCalls.foldl (fun h c => (q_insert h 1 c).1) (q_new emptyHeap 1).1

/-- The accesses of the copy loop of `q_remove_head` and `q_remove_tail`, in order:
for each pass the index written in `sp` and the offset read from `psp`.  The
loop is the one of `copyLoop`, with the same `int` counter. -/
def copyLoopAccesses : Nat → Nat → Nat → Nat → Option (List (Nat × Int))
  | 0, _, _, _ => none
  | fuel + 1, i, bufsize, len =>
    if toSizeT i < bufsizeMinusOne bufsize then
      let w := toSizeT i ^^^ ((toSizeT i ^^^ len) &&& negMask 64 (decide (toSizeT i > len)))
      let r := i &&& negMask 32 (decide (toSizeT i < len))
      (copyLoopAccesses fuel ((i + 1) % 2 ^ 32) bufsize len).map (fun acc => (w, toInt r) :: acc)
    else some []

instance IsSeg.instDecidable (h : Heap) :
    (s : Nat) → (l : List Nat) → (t : Nat) → Decidable (IsSeg h s l t)
  | s, [], t => inferInstanceAs (Decidable (s = t))
  | s, x :: rest, t =>
    have := IsSeg.instDecidable h (h.next x) rest t
    inferInstanceAs (Decidable (s = x ∧ IsSeg h (h.next x) rest t))

/-- One pass of the loop of `q_shuffle` seen on the sequence `U` of the links not
yet settled: the link at index `roll` is replaced by the last one, and the last
place is given up. -/
def shuffleStep (U : List Nat) (roll : Nat) : List Nat :=
  (U.set roll (U.getLastD 0)).dropLast

/-- The order `q_shuffle` is to produce: `size` passes over the links `U` not yet
settled, each pass putting the link at index `rand() % size` in front of the
settled links `S`; `none` when the random values run out. -/
def shuffleList : List Nat → Nat → List Nat → List Nat → Option (List Nat)
  | _, 0, U, S => some (U ++ S)
  | [], _ + 1, _, _ => none
  | r :: rands, size + 1, U, S =>
    shuffleList rands size (shuffleStep U (r % (size + 1))) (U.getD (r % (size + 1)) 0 :: S)

/-- The rolls `r_n, ..., r_1` of a shuffle of `n` links: `r_k` is below `k`. -/
def ValidRolls : Nat → List Nat → Prop
  | 0, [] => True
  | n + 1, r :: rolls => r < n + 1 ∧ ValidRolls n rolls
  | _, _ => False

instance ValidRolls.instDecidable : (n : Nat) → (rolls : List Nat) → Decidable (ValidRolls n rolls)
  | 0, [] => isTrue trivial
  | 0, _ :: _ => isFalse (fun h => h)
  | _ + 1, [] => isFalse (fun h => h)
  | n + 1, r :: rolls =>
    have := ValidRolls.instDecidable n rolls
    inferInstanceAs (Decidable (r < n + 1 ∧ ValidRolls n rolls))

/-- All sequences of rolls for a shuffle of `n` links. -/
def allRolls : Nat → List (List Nat)
  | 0 => [[]]
  | n + 1 => (List.range (n + 1)).flatMap (fun r => (allRolls n).map (fun rolls => r :: rolls))

/-- Forward traversal `for (node = head->next; node != head; node = node->next)`:
the links visited, once the sentinel is reached again. -/
def traverseNext (h : Heap) (head : Nat) : Nat → Nat → Option (List Nat)
  | 0, _ => none
  | fuel + 1, node =>
    if node = head then some []
    else (traverseNext h head fuel (h.next node)).map (fun rest => node :: rest)

/-- Backward traversal `for (node = head->prev; node != head; node = node->prev)`:
the links visited, once the sentinel is reached again. -/
def traversePrev (h : Heap) (head : Nat) : Nat → Nat → Option (List Nat)
  | 0, _ => none
  | fuel + 1, node =>
    if node = head then some []
    else (traversePrev h head fuel (h.prev node)).map (fun rest => node :: rest)

/-! # Theorems -/

/-! ## Heap updates -/

@[simp] theorem setNext_next (h : Heap) (a v x : Nat) :
    (h.setNext a v).next x = if x = a then v else h.next x := rfl
@[simp] theorem setNext_prev (h : Heap) (a v : Nat) : (h.setNext a v).prev = h.prev := rfl
@[simp] theorem setNext_value (h : Heap) (a v : Nat) : (h.setNext a v).value = h.value := rfl
@[simp] theorem setNext_freed (h : Heap) (a v : Nat) : (h.setNext a v).freed = h.freed := rfl
@[simp] theorem setPrev_prev (h : Heap) (a v x : Nat) :
    (h.setPrev a v).prev x = if x = a then v else h.prev x := rfl
@[simp] theorem setPrev_next (h : Heap) (a v : Nat) : (h.setPrev a v).next = h.next := rfl
@[simp] theorem setPrev_value (h : Heap) (a v : Nat) : (h.setPrev a v).value = h.value := rfl
@[simp] theorem setPrev_freed (h : Heap) (a v : Nat) : (h.setPrev a v).freed = h.freed := rfl
@[simp] theorem release_next (h : Heap) (e : Nat) : (q_release_element h e).next = h.next := rfl
@[simp] theorem release_prev (h : Heap) (e : Nat) : (q_release_element h e).prev = h.prev := rfl
@[simp] theorem release_value (h : Heap) (e : Nat) :
    (q_release_element h e).value = h.value := rfl
@[simp] theorem release_freed (h : Heap) (e : Nat) :
    (q_release_element h e).freed = e :: h.freed := rfl

/-! ## Chains of neighbours -/

theorem linked_iff_chain' (h : Heap) : ∀ c : List Nat, Linked h c ↔ c.Chain' (Link h)
  | [] => by simp [Linked]
  | [_] => by simp [Linked]
  | a :: b :: rest => by
    simp only [Linked, List.chain'_cons, linked_iff_chain' h (b :: rest)]

/-- A chain survives a change of the heap that leaves alone the `next` field of
all its links but the last and the `prev` field of all its links but the first. -/
theorem chain_frame {h h' : Heap} : ∀ {c : List Nat}, c.Chain' (Link h) →
    (∀ a ∈ c.dropLast, h'.next a = h.next a) → (∀ b ∈ c.tail, h'.prev b = h.prev b) →
    c.Chain' (Link h')
  | [], _, _, _ => List.chain'_nil
  | [_], _, _, _ => List.chain'_singleton _
  | a :: b :: rest, hc, hn, hp => by
    rw [List.chain'_cons] at hc ⊢
    refine ⟨⟨?_, ?_⟩, chain_frame hc.2 ?_ ?_⟩
    · rw [hn a (by simp), hc.1.1]
    · rw [hp b (by simp), hc.1.2]
    · intro x hx
      exact hn x (by simp [List.dropLast] at hx ⊢; right; exact hx)
    · intro x hx
      exact hp x (by simp at hx ⊢; right; exact hx)

/-! ## Ends of a list -/

theorem eq_nil_or_snoc (l : List Nat) : l = [] ∨ ∃ l' p, l = l' ++ [p] := by
  rcases List.eq_nil_or_concat l with rfl | ⟨l', p, rfl⟩
  · exact Or.inl rfl
  · exact Or.inr ⟨l', p, by simp⟩

theorem getLastD_mem_cons (head : Nat) (l : List Nat) : l.getLastD head ∈ head :: l := by
  rcases eq_nil_or_snoc l with rfl | ⟨l', p, rfl⟩ <;> simp

theorem headD_mem_concat (head : Nat) (l : List Nat) : l.headD head ∈ l ++ [head] := by
  cases l <;> simp

theorem getLastD_not_mem_dropLast {head : Nat} {l : List Nat} (hn : (head :: l).Nodup) :
    l.getLastD head ∉ (head :: l).dropLast := by
  rcases eq_nil_or_snoc l with rfl | ⟨l', p, rfl⟩
  · simp
  · have : (head :: (l' ++ [p])).dropLast = head :: l' := by
      rw [← List.cons_append, List.dropLast_concat]
    rw [this]
    simp only [List.getLastD_concat]
    rw [← List.cons_append] at hn
    have := (List.nodup_append.1 hn).2.2
    intro hp
    exact this hp (by simp) 

theorem headD_not_mem_tail {head : Nat} {l : List Nat} (hn : (l ++ [head]).Nodup) :
    l.headD head ∉ (l ++ [head]).tail := by
  cases l with
  | nil => simp
  | cons a l => simpa using (List.nodup_cons.1 hn).1

theorem getLast?_cons_eq (head : Nat) (l : List Nat) :
    (head :: l).getLast? = some (l.getLastD head) := by
  rcases eq_nil_or_snoc l with rfl | ⟨l', p, rfl⟩
  · simp
  · rw [← List.cons_append, List.getLast?_concat]; simp

theorem head?_concat_eq (head : Nat) (l : List Nat) :
    (l ++ [head]).head? = some (l.headD head) := by
  cases l <;> simp

/-! ## Reading the fields of a well-formed queue -/

theorem IsQueue.chain {h : Heap} {head : Nat} {l : List Nat} (q : IsQueue h head l) :
    (head :: (l ++ [head])).Chain' (Link h) :=
  (linked_iff_chain' h _).1 q.linked

theorem IsQueue.head_ne_zero {h : Heap} {head : Nat} {l : List Nat} (q : IsQueue h head l) :
    head ≠ 0 := by
  have := q.nonnull
  simp at this
  omega

theorem IsQueue.link_mid {h : Heap} {head x : Nat} {l1 l2 : List Nat}
    (q : IsQueue h head (l1 ++ x :: l2)) :
    Link h (l1.getLastD head) x ∧ Link h x (l2.headD head) := by
  have hc := q.chain
  have e : head :: (l1 ++ x :: l2 ++ [head]) = (head :: l1) ++ x :: (l2 ++ [head]) := by simp
  rw [e, List.chain'_split] at hc
  constructor
  · have := (List.chain'_append.1 hc.1).2.2 (l1.getLastD head) 
      (by rw [getLast?_cons_eq]; simp) x (by simp)
    exact this
  · exact (List.chain'_cons'.1 hc.2).1 _ (by rw [head?_concat_eq]; simp)

theorem IsQueue.next_mid {h : Heap} {head x : Nat} {l1 l2 : List Nat}
    (q : IsQueue h head (l1 ++ x :: l2)) : h.next x = l2.headD head :=
  q.link_mid.2.1

theorem IsQueue.prev_mid {h : Heap} {head x : Nat} {l1 l2 : List Nat}
    (q : IsQueue h head (l1 ++ x :: l2)) : h.prev x = l1.getLastD head :=
  q.link_mid.1.2

theorem IsQueue.next_head {h : Heap} {head : Nat} {l : List Nat} (q : IsQueue h head l) :
    h.next head = l.headD head :=
  ((List.chain'_cons'.1 q.chain).1 _ (by rw [head?_concat_eq]; simp)).1

theorem IsQueue.prev_head {h : Heap} {head : Nat} {l : List Nat} (q : IsQueue h head l) :
    h.prev head = l.getLastD head := by
  have hc := q.chain
  rw [← List.cons_append] at hc
  exact ((List.chain'_append.1 hc).2.2 (l.getLastD head)
    (by rw [getLast?_cons_eq]; simp) head (by simp)).2

/-- A ring is well formed as soon as its two arcs `head, l1` and `l2, head` are
chains and the link that ends the first is the neighbour of the link that
starts the second. -/
theorem IsQueue.of_arcs {h : Heap} {head : Nat} {l1 l2 : List Nat}
    (h1 : (head :: l1).Chain' (Link h)) (h2 : (l2 ++ [head]).Chain' (Link h))
    (hj : Link h (l1.getLastD head) (l2.headD head))
    (hn : (head :: (l1 ++ l2)).Nodup) (h0 : 0 ∉ head :: (l1 ++ l2)) :
    IsQueue h head (l1 ++ l2) := by
  refine ⟨(linked_iff_chain' h _).2 ?_, hn, h0⟩
  have e : head :: (l1 ++ l2 ++ [head]) = (head :: l1) ++ (l2 ++ [head]) := by simp
  rw [e, List.chain'_append]
  refine ⟨h1, h2, ?_⟩
  intro a ha b hb
  rw [getLast?_cons_eq] at ha
  rw [head?_concat_eq] at hb
  simp only [Option.mem_def, Option.some.injEq] at ha hb
  subst ha hb
  exact hj

theorem IsQueue.arc_left {h : Heap} {head : Nat} {l1 l2 : List Nat}
    (q : IsQueue h head (l1 ++ l2)) : (head :: l1).Chain' (Link h) := by
  have hc := q.chain
  have e : head :: (l1 ++ l2 ++ [head]) = (head :: l1) ++ (l2 ++ [head]) := by simp
  rw [e] at hc
  exact hc.left_of_append

theorem IsQueue.arc_right {h : Heap} {head : Nat} {l1 l2 : List Nat}
    (q : IsQueue h head (l1 ++ l2)) : (l2 ++ [head]).Chain' (Link h) := by
  have hc := q.chain
  have e : head :: (l1 ++ l2 ++ [head]) = (head :: l1) ++ (l2 ++ [head]) := by simp
  rw [e] at hc
  exact hc.right_of_append

/-! ## The primitives of list.h on a well-formed queue -/

theorem list_del_eq {h : Heap} {head x : Nat} {l1 l2 : List Nat}
    (q : IsQueue h head (l1 ++ x :: l2)) :
    list_del h x = (h.setPrev (l2.headD head) (l1.getLastD head)).setNext
      (l1.getLastD head) (l2.headD head) := by
  simp only [list_del, q.next_mid, q.prev_mid]

/-- Unlinking a link of the queue removes it from the sequence. -/
theorem IsQueue.list_del {h : Heap} {head x : Nat} {l1 l2 : List Nat}
    (q : IsQueue h head (l1 ++ x :: l2)) : IsQueue (list_del h x) head (l1 ++ l2) := by
  rw [list_del_eq q]
  have hn := q.nodup
  have h0 := q.nonnull
  have hn1 : (head :: l1).Nodup := by
    rw [← List.cons_append] at hn; exact (List.nodup_append.1 hn).1
  have hn2 : (l2 ++ [head]).Nodup := by
    simp only [List.nodup_cons, List.nodup_append, List.mem_append, List.mem_cons] at hn
    simp only [List.nodup_append, List.nodup_cons, List.not_mem_nil, not_false_eq_true,
      List.nodup_nil, and_self, List.Disjoint, List.mem_singleton, true_and]
    refine ⟨hn.2.2.1.2, ?_⟩
    intro a ha hah
    subst hah
    exact hn.1 (Or.inr (Or.inr ha))
  have hp := getLastD_mem_cons head l1
  have hnx := headD_mem_concat head l2
  have hdis : ∀ a ∈ head :: l1, ∀ b ∈ l2, a ≠ b := by
    intro a ha b hb hab
    subst hab
    simp only [List.nodup_cons, List.nodup_append, List.mem_append, List.mem_cons] at hn
    rcases List.mem_cons.1 ha with rfl | ha
    · exact hn.1 (Or.inr (Or.inr hb))
    · exact hn.2.2.2 ha (List.mem_cons_of_mem _ hb)
  have hdis' : ∀ a ∈ l1, ∀ b ∈ l2 ++ [head], a ≠ b := by
    intro a ha b hb hab
    subst hab
    rcases List.mem_append.1 hb with hb | hb
    · exact hdis a (List.mem_cons_of_mem _ ha) a hb rfl
    · simp only [List.mem_singleton] at hb
      subst hb
      exact (List.nodup_cons.1 hn1).1 ha
  refine IsQueue.of_arcs ?_ ?_ ?_ ?_ ?_
  · refine chain_frame (q.arc_left) ?_ ?_
    · intro a ha
      have : a ≠ l1.getLastD head := fun e => getLastD_not_mem_dropLast hn1 (e ▸ ha)
      simp only [setNext_next, setPrev_next, if_neg this]
    · intro b hb
      have : b ≠ l2.headD head := hdis' b hb _ hnx
      simp only [setNext_prev, setPrev_prev, if_neg this]
  · have q' : IsQueue h head ((l1 ++ [x]) ++ l2) := by simpa using q
    refine chain_frame (q'.arc_right) ?_ ?_
    · intro a ha
      rw [List.dropLast_concat] at ha
      have : a ≠ l1.getLastD head := fun e => hdis _ hp a ha e.symm
      simp only [setNext_next, setPrev_next, if_neg this]
    · intro b hb
      have : b ≠ l2.headD head := fun e => headD_not_mem_tail hn2 (e ▸ hb)
      simp only [setNext_prev, setPrev_prev, if_neg this]
  · constructor <;> simp
  · refine hn.sublist ?_
    simp
  · intro hm
    apply h0
    simp only [List.mem_cons, List.mem_append] at hm ⊢
    tauto

theorem ring_nodup_facts {head : Nat} {l1 l2 : List Nat} (hn : (head :: (l1 ++ l2)).Nodup) :
    (head :: l1).Nodup ∧ (l2 ++ [head]).Nodup ∧ (∀ a ∈ head :: l1, ∀ b ∈ l2, a ≠ b) ∧
      (∀ a ∈ l1, ∀ b ∈ l2 ++ [head], a ≠ b) := by
  have hn1 : (head :: l1).Nodup := by
    rw [← List.cons_append] at hn; exact (List.nodup_append.1 hn).1
  simp only [List.nodup_cons, List.nodup_append, List.mem_append] at hn
  have hdis : ∀ a ∈ head :: l1, ∀ b ∈ l2, a ≠ b := by
    intro a ha b hb hab
    subst hab
    rcases List.mem_cons.1 ha with rfl | ha
    · exact hn.1 (Or.inr hb)
    · exact hn.2.2.2 ha hb
  refine ⟨hn1, ?_, hdis, ?_⟩
  · simp only [List.nodup_append, List.nodup_cons, List.not_mem_nil, not_false_eq_true,
      List.nodup_nil, and_self, List.Disjoint, List.mem_singleton, true_and]
    refine ⟨hn.2.2.1, ?_⟩
    intro a ha hah
    subst hah
    exact hn.1 (Or.inr ha)
  · intro a ha b hb hab
    subst hab
    rcases List.mem_append.1 hb with hb | hb
    · exact hdis a (List.mem_cons_of_mem _ ha) a hb rfl
    · simp only [List.mem_singleton] at hb
      subst hb
      exact (List.nodup_cons.1 hn1).1 ha

/-- Relinking lemma.  Let the arcs `head, l1` and `l2, head` be chains in `h`, and
let `h'` differ from `h` only in the `next` field of the end `p` of the first arc
and of the links `mid`, and in the `prev` field of the links `mid` and of the
start `n` of the second arc.  If `p, mid, n` is a chain in `h'`, then `h'` holds
the queue `l1, mid, l2`. -/
theorem IsQueue.relink {h h' : Heap} {head : Nat} {l1 l2 mid : List Nat}
    (h1 : (head :: l1).Chain' (Link h)) (h2 : (l2 ++ [head]).Chain' (Link h))
    (hnext : ∀ a, a ≠ l1.getLastD head → a ∉ mid → h'.next a = h.next a)
    (hprev : ∀ b, b ≠ l2.headD head → b ∉ mid → h'.prev b = h.prev b)
    (hm : (l1.getLastD head :: (mid ++ [l2.headD head])).Chain' (Link h'))
    (hn : (head :: (l1 ++ mid ++ l2)).Nodup) (h0 : 0 ∉ head :: (l1 ++ mid ++ l2)) :
    IsQueue h' head (l1 ++ mid ++ l2) := by
  refine ⟨(linked_iff_chain' h' _).2 ?_, hn, h0⟩
  have hn' : (head :: (l1 ++ l2)).Nodup := by
    refine hn.sublist ?_
    simp
  obtain ⟨hn1, hn2, hdis, hdis'⟩ := ring_nodup_facts hn'
  have hmid1 : ∀ a ∈ head :: l1, a ∉ mid := by
    intro a ha hma
    simp only [List.nodup_cons, List.nodup_append, List.mem_append, List.append_assoc] at hn
    rcases List.mem_cons.1 ha with rfl | ha
    · exact hn.1 (Or.inr (Or.inl hma))
    · exact hn.2.2.2 ha (List.mem_append_left _ hma)
  have hmid2 : ∀ a ∈ l2 ++ [head], a ∉ mid := by
    intro a ha hma
    simp only [List.nodup_cons, List.nodup_append, List.mem_append, List.append_assoc] at hn
    rcases List.mem_append.1 ha with ha | ha
    · exact hn.2.2.1.2.2 hma ha
    · simp only [List.mem_singleton] at ha
      subst ha
      exact hn.1 (Or.inr (Or.inl hma))
  have hp := getLastD_mem_cons head l1
  have hnx := headD_mem_concat head l2
  have c1 : (head :: l1).Chain' (Link h') := by
    refine chain_frame h1 ?_ ?_
    · intro a ha
      exact hnext a (fun e => getLastD_not_mem_dropLast hn1 (e ▸ ha))
        (hmid1 a (List.dropLast_subset _ ha))
    · intro b hb
      exact hprev b (hdis' b hb _ hnx) (hmid1 b (List.mem_cons_of_mem _ hb))
  have c2 : (l2 ++ [head]).Chain' (Link h') := by
    refine chain_frame h2 ?_ ?_
    · intro a ha
      rw [List.dropLast_concat] at ha
      exact hnext a (fun e => hdis _ hp a ha e.symm) (hmid2 a (List.mem_append_left _ ha))
    · intro b hb
      exact hprev b (fun e => headD_not_mem_tail hn2 (e ▸ hb))
        (hmid2 b (List.mem_of_mem_tail hb))
  have e : head :: (l1 ++ mid ++ l2 ++ [head]) = (head :: l1) ++ (mid ++ (l2 ++ [head])) := by
    simp
  rw [e, List.chain'_append]
  refine ⟨c1, ?_, ?_⟩
  · rw [List.chain'_append]
    refine ⟨?_, c2, ?_⟩
    · have := (List.chain'_cons'.1 hm).2
      exact this.left_of_append
    · intro a ha b hb
      rw [head?_concat_eq] at hb
      simp only [Option.mem_def, Option.some.injEq] at hb
      subst hb
      have e2 : l1.getLastD head :: (mid ++ [l2.headD head])
          = (l1.getLastD head :: mid) ++ [l2.headD head] := by simp
      rw [e2] at hm
      refine (List.chain'_append.1 hm).2.2 a ?_ _ (by simp)
      rcases eq_nil_or_snoc mid with rfl | ⟨m', y, rfl⟩
      · simp at ha
      · rw [List.getLast?_concat] at ha
        rw [← List.cons_append, List.getLast?_concat]
        exact ha
  · intro a ha b hb
    rw [getLast?_cons_eq] at ha
    simp only [Option.mem_def, Option.some.injEq] at ha
    subst ha
    cases mid with
    | nil =>
      simp only [List.nil_append] at hb hm ⊢
      rw [head?_concat_eq] at hb
      simp only [Option.mem_def, Option.some.injEq] at hb
      subst hb
      exact List.chain'_pair.1 hm
    | cons y m' =>
      simp only [List.cons_append, List.head?_cons, Option.mem_def, Option.some.injEq] at hb
      subst hb
      exact (List.chain'_cons.1 hm).1

theorem IsQueue.prev_headD {h : Heap} {head : Nat} {l1 l2 : List Nat}
    (q : IsQueue h head (l1 ++ l2)) : h.prev (l2.headD head) = l1.getLastD head := by
  cases l2 with
  | nil => simpa using q.prev_head
  | cons y l2 => simpa using q.prev_mid

theorem IsQueue.next_getLastD {h : Heap} {head : Nat} {l1 l2 : List Nat}
    (q : IsQueue h head (l1 ++ l2)) : h.next (l1.getLastD head) = l2.headD head := by
  rcases eq_nil_or_snoc l1 with rfl | ⟨l', p, rfl⟩
  · simpa using q.next_head
  · have q' : IsQueue h head (l' ++ p :: l2) := by simpa using q
    simpa using q'.next_mid

/-- A queue is untouched by a change of the heap outside its links. -/
theorem IsQueue.frame {h h' : Heap} {head : Nat} {l : List Nat} (q : IsQueue h head l)
    (hnext : ∀ a ∈ head :: l, h'.next a = h.next a)
    (hprev : ∀ a ∈ head :: l, h'.prev a = h.prev a) : IsQueue h' head l := by
  refine ⟨(linked_iff_chain' h' _).2 (chain_frame q.chain ?_ ?_), q.nodup, q.nonnull⟩
  · intro a ha
    rw [← List.cons_append, List.dropLast_concat] at ha
    exact hnext a ha
  · intro a ha
    simp only [List.tail_cons, List.mem_append, List.mem_singleton] at ha
    rcases ha with ha | rfl
    · exact hprev a (List.mem_cons_of_mem _ ha)
    · exact hprev a (List.mem_cons_self _ _)

theorem ring_nodup_insert {head x : Nat} {l1 l2 : List Nat} (hn : (head :: (l1 ++ l2)).Nodup)
    (hx : x ∉ head :: (l1 ++ l2)) : (head :: (l1 ++ [x] ++ l2)).Nodup := by
  simp only [List.nodup_cons, List.nodup_append, List.mem_append, List.mem_cons,
    List.append_assoc, List.singleton_append, List.mem_singleton, List.not_mem_nil,
    List.nodup_nil, List.Disjoint] at hn hx ⊢
  refine ⟨?_, hn.2.1, ⟨?_, hn.2.2.1⟩, ?_⟩
  · rintro (h1 | h1 | h1)
    · exact hn.1 (Or.inl h1)
    · exact hx (Or.inl h1.symm)
    · exact hn.1 (Or.inr h1)
  · intro h1; exact hx (Or.inr (Or.inr h1))
  · intro a ha hb
    rcases hb with hb | hb
    · subst hb; exact hx (Or.inr (Or.inl ha))
    · exact hn.2.2.2 ha hb

theorem ring_nonnull_insert {head x : Nat} {l1 l2 : List Nat} (h0 : 0 ∉ head :: (l1 ++ l2))
    (hx0 : x ≠ 0) : 0 ∉ head :: (l1 ++ [x] ++ l2) := by
  simp only [List.mem_cons, List.mem_append, List.append_assoc, List.singleton_append] at h0 ⊢
  rintro (h1 | h1 | h1 | h1)
  · exact h0 (Or.inl h1)
  · exact h0 (Or.inr (Or.inl h1))
  · exact hx0 h1.symm
  · exact h0 (Or.inr (Or.inr h1))

theorem ne_ends_of_not_mem {head x : Nat} {l1 l2 : List Nat} (hx : x ∉ head :: (l1 ++ l2)) :
    x ≠ l1.getLastD head ∧ l2.headD head ≠ x := by
  have hp := getLastD_mem_cons head l1
  have hnx := headD_mem_concat head l2
  constructor
  · intro e; apply hx; rw [e]
    simp only [List.mem_cons, List.mem_append] at hp ⊢; tauto
  · intro e; apply hx; rw [← e]
    simp only [List.mem_cons, List.mem_append, List.mem_singleton] at hnx ⊢; tauto

/-- A detached link `x` spliced in after the end of the arc `head, l1`. -/
theorem IsQueue.list_add {h : Heap} {head x : Nat} {l1 l2 : List Nat}
    (q : IsQueue h head (l1 ++ l2)) (hx : x ∉ head :: (l1 ++ l2)) (hx0 : x ≠ 0) :
    IsQueue (list_add h x (l1.getLastD head)) head (l1 ++ x :: l2) := by
  obtain ⟨hxp, hxn⟩ := ne_ends_of_not_mem hx
  have e : l1 ++ x :: l2 = l1 ++ [x] ++ l2 := by simp
  rw [e]
  refine IsQueue.relink q.arc_left q.arc_right ?_ ?_ ?_ (ring_nodup_insert q.nodup hx)
    (ring_nonnull_insert q.nonnull hx0)
  · intro a ha1 ha2
    simp only [List.mem_singleton] at ha2
    simp only [Queue.list_add, setNext_next, setPrev_next, if_neg ha1, if_neg ha2]
  · intro b hb1 hb2
    simp only [List.mem_singleton] at hb2
    simp only [Queue.list_add, q.next_getLastD, setNext_prev, setPrev_prev, if_neg hb1,
      if_neg hb2]
  · simp only [List.singleton_append, List.chain'_cons, List.chain'_singleton, and_true, Link,
      Queue.list_add, q.next_getLastD, setNext_next, setPrev_next, setNext_prev, setPrev_prev,
      if_true, if_neg hxp, if_neg hxn, and_self]

/-- A detached link `x` spliced in before the start of the arc `l2, head`. -/
theorem IsQueue.list_add_tail {h : Heap} {head x : Nat} {l1 l2 : List Nat}
    (q : IsQueue h head (l1 ++ l2)) (hx : x ∉ head :: (l1 ++ l2)) (hx0 : x ≠ 0) :
    IsQueue (list_add_tail h x (l2.headD head)) head (l1 ++ x :: l2) := by
  obtain ⟨hxp, hxn⟩ := ne_ends_of_not_mem hx
  have e : l1 ++ x :: l2 = l1 ++ [x] ++ l2 := by simp
  rw [e]
  refine IsQueue.relink q.arc_left q.arc_right ?_ ?_ ?_ (ring_nodup_insert q.nodup hx)
    (ring_nonnull_insert q.nonnull hx0)
  · intro a ha1 ha2
    simp only [List.mem_singleton] at ha2
    simp only [Queue.list_add_tail, q.prev_headD, setNext_next, setPrev_next, if_neg ha1,
      if_neg ha2]
  · intro b hb1 hb2
    simp only [List.mem_singleton] at hb2
    simp only [Queue.list_add_tail, setNext_prev, setPrev_prev, if_neg hb1, if_neg hb2]
  · simp only [List.singleton_append, List.chain'_cons, List.chain'_singleton, and_true, Link,
      Queue.list_add_tail, q.prev_headD, setNext_next, setPrev_next, setNext_prev, setPrev_prev,
      if_true, if_neg hxp, if_neg hxn, if_neg hxp.symm, if_neg hxn.symm, and_self]

/-- Resetting a link that is not in the queue leaves the queue alone. -/
theorem IsQueue.init_outside {h : Heap} {head x : Nat} {l : List Nat} (q : IsQueue h head l)
    (hx : x ∉ head :: l) : IsQueue (INIT_LIST_HEAD h x) head l := by
  refine q.frame ?_ ?_
  · intro a ha
    have : a ≠ x := fun e => hx (e ▸ ha)
    simp only [INIT_LIST_HEAD, setPrev_next, setNext_next, if_neg this]
  · intro a ha
    have : a ≠ x := fun e => hx (e ▸ ha)
    simp only [INIT_LIST_HEAD, setPrev_prev, setNext_prev, if_neg this]

theorem not_mem_of_nodup_mid {head x : Nat} {l1 l2 : List Nat}
    (hn : (head :: (l1 ++ x :: l2)).Nodup) : x ∉ head :: (l1 ++ l2) := by
  simp only [List.nodup_cons, List.nodup_append, List.mem_append, List.mem_cons,
    List.Disjoint] at hn ⊢
  rintro (h1 | h1 | h1)
  · exact hn.1 (Or.inr (Or.inl h1.symm))
  · exact hn.2.2.2 h1 (Or.inl rfl)
  · exact hn.2.2.1.1 h1

/-- Unlink and reset of a link of the queue. -/
theorem IsQueue.list_del_init {h : Heap} {head x : Nat} {l1 l2 : List Nat}
    (q : IsQueue h head (l1 ++ x :: l2)) : IsQueue (list_del_init h x) head (l1 ++ l2) :=
  q.list_del.init_outside (not_mem_of_nodup_mid q.nodup)

@[simp] theorem INIT_LIST_HEAD_value (h : Heap) (x : Nat) :
    (INIT_LIST_HEAD h x).value = h.value := rfl
@[simp] theorem INIT_LIST_HEAD_freed (h : Heap) (x : Nat) :
    (INIT_LIST_HEAD h x).freed = h.freed := rfl
@[simp] theorem list_del_value (h : Heap) (x : Nat) : (list_del h x).value = h.value := rfl
@[simp] theorem list_del_freed (h : Heap) (x : Nat) : (list_del h x).freed = h.freed := rfl
@[simp] theorem list_del_init_value (h : Heap) (x : Nat) :
    (list_del_init h x).value = h.value := rfl
@[simp] theorem list_del_init_freed (h : Heap) (x : Nat) :
    (list_del_init h x).freed = h.freed := rfl
@[simp] theorem list_add_value (h : Heap) (x y : Nat) : (list_add h x y).value = h.value := rfl
@[simp] theorem list_add_freed (h : Heap) (x y : Nat) : (list_add h x y).freed = h.freed := rfl
@[simp] theorem list_add_tail_value (h : Heap) (x y : Nat) :
    (list_add_tail h x y).value = h.value := rfl
@[simp] theorem list_add_tail_freed (h : Heap) (x y : Nat) :
    (list_add_tail h x y).freed = h.freed := rfl

theorem IsQueue.ne_head_of_mem {h : Heap} {head x : Nat} {l : List Nat} (q : IsQueue h head l)
    (hx : x ∈ l) : x ≠ head := by
  intro e
  subst e
  exact (List.nodup_cons.1 q.nodup).1 hx

theorem IsQueue.list_empty_eq {h : Heap} {head : Nat} {l : List Nat} (q : IsQueue h head l) :
    list_empty h head = decide (l = []) := by
  cases l with
  | nil => simp [list_empty, q.next_head]
  | cons x l =>
    have := q.ne_head_of_mem (List.mem_cons_self x l)
    simp [list_empty, q.next_head, this]

/-! ## q_reverse -/

theorem q_reverse_loop_spec {head : Nat} : ∀ (l2 l1 : List Nat) (h : Heap) (fuel : Nat),
    IsQueue h head (l1.reverse ++ l2) → l2.length < fuel →
    ∃ h', q_reverse_loop fuel h head (l2.headD head) (h.next (l2.headD head)) = some h' ∧
      IsQueue h' head (l1 ++ l2).reverse ∧ h'.value = h.value ∧ h'.freed = h.freed
  | [], l1, h, fuel, q, hf => by
    obtain ⟨f, rfl⟩ := Nat.exists_eq_succ_of_ne_zero (Nat.ne_of_gt hf)
    refine ⟨h, ?_, by simpa using q, rfl, rfl⟩
    simp [q_reverse_loop]
  | x :: rest, l1, h, fuel, q, hf => by
    obtain ⟨f, rfl⟩ := Nat.exists_eq_succ_of_ne_zero (Nat.ne_of_gt (Nat.zero_lt_of_lt hf))
    have hxh : x ≠ head := q.ne_head_of_mem (by simp)
    have q1 := q.list_del
    have q2 : IsQueue (list_add (list_del h x) x head) head ((l1 ++ [x]).reverse ++ rest) := by
      have := @IsQueue.list_add (list_del h x) head x [] (l1.reverse ++ rest)
        (by simpa using q1) (by simpa using not_mem_of_nodup_mid q.nodup)
        (by
          intro e
          apply q.nonnull
          simp [e])
      simpa using this
    obtain ⟨h', e, q', hv, hfr⟩ := q_reverse_loop_spec rest (l1 ++ [x]) _ f q2
      (by simpa using hf)
    refine ⟨h', ?_, by simpa using q', by simpa using hv, by simpa using hfr⟩
    simp only [q_reverse_loop, List.headD_cons, ne_eq, hxh, not_false_eq_true, if_true,
      q.next_mid]
    exact e

theorem q_reverse_spec {h : Heap} {head : Nat} {l : List Nat} (q : IsQueue h head l)
    {fuel : Nat} (hf : l.length < fuel) :
    ∃ h', q_reverse fuel h head = some h' ∧ IsQueue h' head l.reverse ∧
      h'.value = h.value ∧ h'.freed = h.freed := by
  unfold q_reverse
  rw [q.list_empty_eq]
  by_cases hl : l = []
  · subst hl
    exact ⟨h, by simp, by simpa using q, rfl, rfl⟩
  · obtain ⟨h', e, q', hv, hfr⟩ := q_reverse_loop_spec l [] h fuel (by simpa using q) hf
    refine ⟨h', ?_, by simpa using q', hv, hfr⟩
    simp only [q.head_ne_zero, hl, decide_False, Bool.or_self, Bool.false_eq_true, if_false,
      q.next_head]
    exact e

/-! ## q_swap -/

@[simp] theorem q_swap_step_value (h : Heap) (x y : Nat) :
    (q_swap_step h x y).value = h.value := rfl
@[simp] theorem q_swap_step_freed (h : Heap) (x y : Nat) :
    (q_swap_step h x y).freed = h.freed := rfl

theorem IsQueue.q_swap_step {h : Heap} {head s x : Nat} {l1 l2 : List Nat}
    (q : IsQueue h head (l1 ++ s :: x :: l2)) :
    IsQueue (q_swap_step h x (l2.headD head)) head (l1 ++ x :: s :: l2) := by
  have hn := q.nodup
  have q' : IsQueue h head ((l1 ++ [s]) ++ x :: l2) := by simpa using q
  have hpx : h.prev x = s := by simpa using q'.prev_mid
  have hps : h.prev s = l1.getLastD head := q.prev_mid
  have hp := getLastD_mem_cons head l1
  have hf := headD_mem_concat head l2
  obtain ⟨-, hn2, hdis, -⟩ := @ring_nodup_facts head l1 (s :: x :: l2) hn
  have hn3 : (s :: x :: (l2 ++ [head])).Nodup := by simpa using hn2
  have hs3 := (List.nodup_cons.1 hn3).1
  have hx3 := (List.nodup_cons.1 (List.nodup_cons.1 hn3).2).1
  have hsx : s ≠ x := fun e => hs3 (e ▸ List.mem_cons_self _ _)
  have hxs : x ≠ s := fun e => hsx e.symm
  have hps' : l1.getLastD head ≠ s := hdis _ hp s (by simp)
  have hpx' : l1.getLastD head ≠ x := hdis _ hp x (by simp)
  have hfs : l2.headD head ≠ s := fun e => hs3 (List.mem_cons_of_mem _ (e ▸ hf))
  have hfx : l2.headD head ≠ x := fun e => hx3 (e ▸ hf)
  have e : l1 ++ x :: s :: l2 = l1 ++ [x, s] ++ l2 := by simp
  rw [e]
  have q1 : IsQueue h head (l1 ++ (s :: x :: l2)) := q
  have q2 : IsQueue h head ((l1 ++ [s, x]) ++ l2) := by simpa using q
  refine IsQueue.relink q1.arc_left q2.arc_right ?_ ?_ ?_ ?_ ?_
  · intro a ha1 ha2
    simp only [List.mem_cons, List.mem_singleton, List.not_mem_nil, or_false, not_or] at ha2
    simp only [Queue.q_swap_step, hpx, hps, setNext_next, setPrev_next, setNext_prev,
      if_neg ha1, if_neg ha2.1, if_neg ha2.2]
  · intro b hb1 hb2
    simp only [List.mem_cons, List.mem_singleton, List.not_mem_nil, or_false, not_or] at hb2
    simp only [Queue.q_swap_step, hpx, hps, setNext_next, setPrev_next, setNext_prev,
      setPrev_prev, if_neg hb1, if_neg hb2.1, if_neg hb2.2]
  · simp only [List.cons_append, List.nil_append, List.chain'_cons, List.chain'_singleton,
      and_true, Link, Queue.q_swap_step, hpx, hps, setNext_next, setPrev_next, setNext_prev,
      setPrev_prev, if_true, if_neg hsx, if_neg hxs, if_neg hps', if_neg hpx', if_neg hfs,
      if_neg hfx, if_neg hps'.symm, if_neg hpx'.symm, if_neg hfs.symm, if_neg hfx.symm,
      and_self]
  · refine (List.Perm.nodup_iff ?_).1 hn
    refine List.Perm.cons _ ?_
    simp only [List.append_assoc, List.cons_append, List.nil_append]
    exact List.Perm.append_left _ (List.Perm.swap _ _ _)
  · have h0 := q.nonnull
    simp only [List.mem_cons, List.mem_append, List.append_assoc, List.cons_append,
      List.nil_append] at h0 ⊢
    tauto

theorem q_swap_loop_spec {head : Nat} : ∀ (l2 l1 : List Nat) (h : Heap) (fuel : Nat),
    IsQueue h head (l1 ++ l2) → l2.length < fuel →
    ∃ h', q_swap_loop fuel h head (l2.headD head) (h.next (l2.headD head)) 0 = some h' ∧
      IsQueue h' head (l1 ++ swapPairs l2) ∧ h'.value = h.value ∧ h'.freed = h.freed
  | [], l1, h, fuel, q, hf => by
    obtain ⟨f, rfl⟩ := Nat.exists_eq_succ_of_ne_zero (Nat.ne_of_gt hf)
    exact ⟨h, by simp [q_swap_loop], by simpa [swapPairs] using q, rfl, rfl⟩
  | [s], l1, h, fuel, q, hf => by
    obtain ⟨f, rfl⟩ := Nat.exists_eq_succ_of_ne_zero (Nat.ne_of_gt (Nat.zero_lt_of_lt hf))
    obtain ⟨f, rfl⟩ : ∃ g, f = g + 1 := ⟨f - 1, by simp at hf; omega⟩
    have hsh : s ≠ head := q.ne_head_of_mem (by simp)
    refine ⟨h, ?_, by simpa [swapPairs] using q, rfl, rfl⟩
    simp [q_swap_loop, hsh, q.next_mid]
  | s :: x :: rest, l1, h, fuel, q, hf => by
    obtain ⟨f, rfl⟩ : ∃ g, fuel = g + 2 := ⟨fuel - 2, by simp at hf; omega⟩
    have hsh : s ≠ head := q.ne_head_of_mem (by simp)
    have hxh : x ≠ head := q.ne_head_of_mem (by simp)
    have q' : IsQueue h head ((l1 ++ [s]) ++ x :: rest) := by simpa using q
    have hns : h.next s = x := by simpa using q.next_mid
    have hnx : h.next x = rest.headD head := q'.next_mid
    have q2 : IsQueue (q_swap_step h x (rest.headD head)) head ((l1 ++ [x, s]) ++ rest) := by
      simpa using q.q_swap_step
    obtain ⟨h', e, qr, hv, hfr⟩ := q_swap_loop_spec rest (l1 ++ [x, s]) _ f q2
      (by simp at hf; omega)
    refine ⟨h', ?_, by simpa [swapPairs] using qr, by simpa using hv, by simpa using hfr⟩
    simp only [q_swap_loop, List.headD_cons, ne_eq, hsh, hxh, not_false_eq_true, if_true,
      hns, hnx, not_true_eq_false, if_false]
    exact e

theorem q_swap_spec {h : Heap} {head : Nat} {l : List Nat} (q : IsQueue h head l)
    {fuel : Nat} (hf : l.length < fuel) :
    ∃ h', q_swap fuel h head = some h' ∧ IsQueue h' head (swapPairs l) ∧
      h'.value = h.value ∧ h'.freed = h.freed := by
  obtain ⟨h', e, q', hv, hfr⟩ := q_swap_loop_spec l [] h fuel (by simpa using q) hf
  refine ⟨h', ?_, by simpa using q', hv, hfr⟩
  simp only [q_swap, q.next_head]
  exact e

theorem swapPairs_length : ∀ l : List Nat, (swapPairs l).length = l.length
  | [] => rfl
  | [_] => rfl
  | a :: b :: rest => by simp [swapPairs, swapPairs_length rest]

theorem swapPairs_perm : ∀ l : List Nat, (swapPairs l).Perm l
  | [] => List.Perm.refl _
  | [_] => List.Perm.refl _
  | a :: b :: rest =>
    (List.Perm.swap a b _).trans (((swapPairs_perm rest).cons b).cons a)

theorem swapPairs_pair : ∀ (l : List Nat) (k : Nat), 2 * k + 1 < l.length →
    (swapPairs l)[2 * k]? = l[2 * k + 1]? ∧ (swapPairs l)[2 * k + 1]? = l[2 * k]?
  | [], k, hk => by simp at hk
  | [_], k, hk => by simp at hk
  | a :: b :: rest, 0, _ => by simp [swapPairs]
  | a :: b :: rest, k + 1, hk => by
    have := swapPairs_pair rest k (by simp at hk; omega)
    have e1 : 2 * (k + 1) = (2 * k) + 1 + 1 := by ring
    have e2 : 2 * (k + 1) + 1 = (2 * k + 1) + 1 + 1 := by ring
    simp only [swapPairs, e1, List.getElem?_cons_succ]
    exact this

theorem swapPairs_last : ∀ (l : List Nat), l.length % 2 = 1 →
    (swapPairs l)[l.length - 1]? = l[l.length - 1]?
  | [], hk => by simp at hk
  | [_], _ => rfl
  | a :: b :: rest, hk => by
    have hr : rest.length % 2 = 1 := by simp at hk; omega
    have := swapPairs_last rest hr
    have hpos : 0 < rest.length := by omega
    have e : (a :: b :: rest).length - 1 = (rest.length - 1) + 1 + 1 := by simp; omega
    simp only [swapPairs, e, List.getElem?_cons_succ]
    exact this

/-! ## Links by position -/

theorem split_at_index (l : List Nat) (head : Nat) {i : Nat} (hi : i < l.length) :
    l = l.take i ++ l.getD i head :: l.drop (i + 1) := by
  have : l.getD i head = l[i] := by
    rw [List.getD_eq_getElem?_getD, List.getElem?_eq_getElem hi]; rfl
  rw [this]
  exact (List.take_append_drop i l).symm.trans (by rw [List.drop_eq_getElem_cons hi])

theorem headD_drop (l : List Nat) (head : Nat) (i : Nat) :
    (l.drop i).headD head = l.getD i head := by
  induction l generalizing i with
  | nil => simp
  | cons a l ih =>
    cases i with
    | zero => simp
    | succ i => simp

theorem getLastD_take (l : List Nat) (head : Nat) {i : Nat} (hi : i < l.length) :
    (l.take (i + 1)).getLastD head = l.getD i head := by
  have e : l.take (i + 1) = l.take i ++ [l[i]] := by
    rw [List.take_succ, List.getElem?_eq_getElem hi]; rfl
  rw [e, List.getLastD_concat, List.getD_eq_getElem?_getD, List.getElem?_eq_getElem hi]
  rfl

theorem IsQueue.next_getD {h : Heap} {head : Nat} {l : List Nat} (q : IsQueue h head l)
    {i : Nat} (hi : i < l.length) : h.next (l.getD i head) = l.getD (i + 1) head := by
  have e := split_at_index l head hi
  have q' := q
  rw [e] at q'
  rw [q'.next_mid, headD_drop]

theorem IsQueue.prev_getD {h : Heap} {head : Nat} {l : List Nat} (q : IsQueue h head l)
    {i : Nat} (hi : i + 1 < l.length) : h.prev (l.getD (i + 1) head) = l.getD i head := by
  have e := split_at_index l head hi
  have q' := q
  rw [e] at q'
  rw [q'.prev_mid, getLastD_take l head (Nat.lt_of_succ_lt hi)]

theorem IsQueue.getD_inj {h : Heap} {head : Nat} {l : List Nat} (q : IsQueue h head l)
    {i j : Nat} (hi : i < l.length) (hj : j < l.length)
    (e : l.getD i head = l.getD j head) : i = j := by
  have hn := (List.nodup_cons.1 q.nodup).2
  have ei : l.getD i head = l[i] := by
    rw [List.getD_eq_getElem?_getD, List.getElem?_eq_getElem hi]; rfl
  have ej : l.getD j head = l[j] := by
    rw [List.getD_eq_getElem?_getD, List.getElem?_eq_getElem hj]; rfl
  rw [ei, ej] at e
  exact (List.Nodup.getElem_inj_iff hn).1 e

/-! ## q_delete_mid -/

theorem q_delete_mid_loop_spec {h : Heap} {head : Nat} {l : List Nat} (q : IsQueue h head l) :
    ∀ (d k j fuel : Nat), j = k + d → k + j + 1 = l.length → d < fuel →
      q_delete_mid_loop fuel h (l.getD k head) (l.getD j head) = some (l.getD (l.length / 2) head)
  | 0, k, j, fuel, hj, hl, hf => by
    obtain ⟨f, rfl⟩ := Nat.exists_eq_succ_of_ne_zero (Nat.ne_of_gt hf)
    have : j = k := by omega
    subst this
    have : l.length / 2 = j := by omega
    simp [q_delete_mid_loop, this]
  | 1, k, j, fuel, hj, hl, hf => by
    obtain ⟨f, rfl⟩ := Nat.exists_eq_succ_of_ne_zero (Nat.ne_of_gt (Nat.zero_lt_of_lt hf))
    have hk : k < l.length := by omega
    have hjl : j < l.length := by omega
    have hne : l.getD k head ≠ l.getD j head := fun e => by
      have := q.getD_inj hk hjl e
      omega
    subst hj
    have : l.length / 2 = k + 1 := by omega
    simp only [q_delete_mid_loop, ne_eq, hne, not_false_eq_true, if_true, q.next_getD hk, this]
  | d + 2, k, j, fuel, hj, hl, hf => by
    obtain ⟨f, rfl⟩ := Nat.exists_eq_succ_of_ne_zero (Nat.ne_of_gt (Nat.zero_lt_of_lt hf))
    have hk : k < l.length := by omega
    have hjl : j < l.length := by omega
    have hne : l.getD k head ≠ l.getD j head := fun e => by
      have := q.getD_inj hk hjl e
      omega
    have hne2 : l.getD (k + 1) head ≠ l.getD j head := fun e => by
      have := q.getD_inj (by omega) hjl e
      omega
    obtain ⟨j', rfl⟩ : ∃ j', j = j' + 1 := ⟨j - 1, by omega⟩
    have ih := q_delete_mid_loop_spec q d (k + 1) j' f (by omega) (by omega) (by omega)
    simp only [q_delete_mid_loop, ne_eq, hne, not_false_eq_true, if_true, q.next_getD hk,
      hne2, if_false, q.prev_getD hjl]
    exact ih

theorem q_delete_mid_spec {h : Heap} {head : Nat} {l : List Nat} (q : IsQueue h head l)
    (hl : l ≠ []) {fuel : Nat} (hf : l.length < fuel) :
    ∃ h', q_delete_mid fuel h head = some (h', true) ∧
      IsQueue h' head (l.eraseIdx (l.length / 2)) ∧ h'.value = h.value ∧
      h'.freed = l.getD (l.length / 2) head :: h.freed := by
  have hpos : 0 < l.length := List.length_pos.2 hl
  have hm : l.length / 2 < l.length := Nat.div_lt_self hpos (by decide)
  have e0 : h.next head = l.getD 0 head := by
    rw [q.next_head]; cases l <;> simp
  have e1 : h.prev head = l.getD (l.length - 1) head := by
    rw [q.prev_head]
    rcases eq_nil_or_snoc l with rfl | ⟨l', p, rfl⟩
    · exact absurd rfl hl
    · simp [List.getD_eq_getElem?_getD]
  have hloop := q_delete_mid_loop_spec q (l.length - 1) 0 (l.length - 1) fuel (by omega)
    (by omega) (by omega)
  have q' := q
  rw [split_at_index l head hm] at q'
  refine ⟨q_release_element (list_del_init h (l.getD (l.length / 2) head))
    (l.getD (l.length / 2) head), ?_, ?_, rfl, rfl⟩
  · simp only [q_delete_mid, q.list_empty_eq, q.head_ne_zero, hl, decide_False, Bool.or_self,
      Bool.false_eq_true, if_false, e0, e1, hloop]
  · rw [List.eraseIdx_eq_take_drop_succ]
    exact q'.list_del_init.frame (fun _ _ => rfl) (fun _ _ => rfl)

theorem q_delete_mid_empty {h : Heap} {head : Nat} (q : IsQueue h head []) (fuel : Nat) :
    q_delete_mid fuel h head = some (h, false) := by
  simp [q_delete_mid, q.list_empty_eq]

theorem q_delete_mid_null (h : Heap) (fuel : Nat) : q_delete_mid fuel h 0 = some (h, false) := by
  simp [q_delete_mid]

/-! ## strcmp and payloads -/

theorem cstr_nil : cstr [] = [] := rfl

theorem cstr_cons (a : Nat) (as : List Nat) :
    cstr (a :: as) = if a = 0 then [] else a :: cstr as := by
  by_cases h : a = 0 <;> simp [cstr, List.takeWhile_cons, h]

/-- Result `0` of `strcmp` means equal strings. -/
theorem strcmp_eq_zero_iff : ∀ a b : List Nat, strcmp a b = 0 ↔ cstr a = cstr b
  | [], [] => by simp [strcmp]
  | [], b :: bs => by
    rw [cstr_nil, cstr_cons]
    by_cases h : b = 0 <;> simp [strcmp, h]
  | a :: as, [] => by
    rw [cstr_nil, cstr_cons]
    by_cases h : a = 0 <;> simp [strcmp, h]
  | a :: as, b :: bs => by
    rw [cstr_cons, cstr_cons]
    by_cases hab : a = b
    · subst hab
      by_cases h : a = 0
      · simp [strcmp, h]
      · simp [strcmp, h, strcmp_eq_zero_iff as bs]
    · by_cases ha : a = 0
      · have hb : b ≠ 0 := fun e => hab (ha.trans e.symm)
        simp only [strcmp, ne_eq, hab, not_false_eq_true, if_true, ha, hb, if_false]
        constructor
        · intro e; omega
        · intro e; simp at e
      · by_cases hb : b = 0
        · simp only [strcmp, ne_eq, hab, not_false_eq_true, if_true, ha, hb, if_false]
          constructor
          · intro e; omega
          · intro e; simp at e
        · simp only [strcmp, ne_eq, hab, not_false_eq_true, if_true, ha, hb, if_false,
            List.cons.injEq, false_and, iff_false]
          omega

/-! ## q_delete_dup -/

theorem IsQueue.release {h : Heap} {head : Nat} {l : List Nat} (q : IsQueue h head l)
    (e : Nat) : IsQueue (q_release_element h e) head l :=
  q.frame (fun _ _ => rfl) (fun _ _ => rfl)

theorem strcmp_eq_zero_iff_differs (val : Nat → List Nat) (a b : Nat) :
    strcmp (val a) (val b) = 0 ↔ differs val a b = false := by
  rw [strcmp_eq_zero_iff]; simp [differs]

theorem q_delete_dup_loop_spec {head : Nat} {val : Nat → List Nat} :
    ∀ (rest : List Nat) (elem : Nat) (kept : List Nat) (h : Heap) (last p : Option Nat)
      (fuel : Nat),
    IsQueue h head (kept ++ elem :: rest) → h.value = val →
    (p.all (fun q => differs val q elem) = false → last = some elem) →
    (p.all (fun q => differs val q elem) = true → ∀ z ∈ elem :: rest, last ≠ some z) →
    rest.length < fuel →
    ∃ h' elem' last',
      q_delete_dup_loop fuel h head elem (h.next elem) last = some (h', elem', last') ∧
      h'.value = val ∧
      ((last' = some (h'.prev head) ∧
          IsQueue (list_del_init h' elem') head (kept ++ loneElements val p (elem :: rest))) ∨
        (last' ≠ some (h'.prev head) ∧
          IsQueue h' head (kept ++ loneElements val p (elem :: rest))))
  | [], elem, kept, h, last, p, fuel, q, hv, hl1, hl2, hf => by
    obtain ⟨f, rfl⟩ := Nat.exists_eq_succ_of_ne_zero (Nat.ne_of_gt hf)
    have heh : elem ≠ head := q.ne_head_of_mem (by simp)
    have hnx : h.next elem = head := by simpa using q.next_mid
    have hpv : h.prev head = elem := by simpa using q.prev_head
    refine ⟨h, elem, last, ?_, hv, ?_⟩
    · simp only [q_delete_dup_loop, ne_eq, heh, not_false_eq_true, if_true, hnx]
    · rw [hpv]
      cases hp : p.all (fun q => differs val q elem)
      · left
        refine ⟨hl1 hp, ?_⟩
        have := q.list_del_init
        simpa [loneElements, hp] using this
      · right
        refine ⟨hl2 hp elem (by simp), ?_⟩
        simpa [loneElements, hp] using q
  | y :: rest, elem, kept, h, last, p, fuel, q, hv, hl1, hl2, hf => by
    obtain ⟨f, rfl⟩ := Nat.exists_eq_succ_of_ne_zero (Nat.ne_of_gt (Nat.zero_lt_of_lt hf))
    have hf' : rest.length < f := by simpa using hf
    have heh : elem ≠ head := q.ne_head_of_mem (by simp)
    have hyh : y ≠ head := q.ne_head_of_mem (by simp)
    have hnx : h.next elem = y := by simpa using q.next_mid
    have hey : ∀ z ∈ y :: rest, elem ≠ z := by
      intro z hz e
      subst e
      have := q.nodup
      simp only [List.nodup_cons, List.nodup_append, List.mem_append, List.mem_cons] at this
      exact this.2.2.1.1 (List.mem_cons.1 hz)
    have q1 : IsQueue (q_release_element (list_del_init h elem) elem) head
        (kept ++ y :: rest) := q.list_del_init.release elem
    by_cases hd : differs val elem y = false
    · have hs : strcmp (h.value elem) (h.value y) = 0 := by
        rw [hv]; exact (strcmp_eq_zero_iff_differs val elem y).2 hd
      obtain ⟨h', elem', last', e, hv', hr⟩ := q_delete_dup_loop_spec rest y kept _ (some y)
        (some elem) f q1 (by simpa using hv) (fun _ => rfl)
        (fun hc => by simp [hd] at hc) hf'
      refine ⟨h', elem', last', ?_, hv', ?_⟩
      · simp only [q_delete_dup_loop, ne_eq, heh, not_false_eq_true, if_true, hnx, hyh,
          if_false, hs]
        exact e
      · have : loneElements val p (elem :: y :: rest) = loneElements val (some elem) (y :: rest) := by
          rw [loneElements]
          simp [hd]
        rw [this]
        exact hr
    · have hd' : differs val elem y = true := by simpa using hd
      have hs : strcmp (h.value elem) (h.value y) ≠ 0 := by
        rw [hv]; exact fun e => hd ((strcmp_eq_zero_iff_differs val elem y).1 e)
      by_cases hle : last = some elem
      · have hp : p.all (fun q => differs val q elem) = false := by
          cases hp : p.all (fun q => differs val q elem)
          · rfl
          · exact absurd hle (hl2 hp elem (by simp))
        obtain ⟨h', elem', last', e, hv', hr⟩ := q_delete_dup_loop_spec rest y kept _ last
          (some elem) f q1 (by simpa using hv) (fun hc => by simp [hd'] at hc)
          (fun _ z hz => by rw [hle]; intro e; exact hey z hz (Option.some.inj e)) hf'
        refine ⟨h', elem', last', ?_, hv', ?_⟩
        · simp only [q_delete_dup_loop, ne_eq, heh, not_false_eq_true, if_true, hnx, hyh,
            if_false, hs, hle]
          rw [hle] at e
          exact e
        · have : loneElements val p (elem :: y :: rest)
              = loneElements val (some elem) (y :: rest) := by
            rw [loneElements]
            simp [hp]
          rw [this]
          exact hr
      · have hp : p.all (fun q => differs val q elem) = true := by
          cases hp : p.all (fun q => differs val q elem)
          · exact absurd (hl1 hp) hle
          · rfl
        have q2 : IsQueue h head ((kept ++ [elem]) ++ y :: rest) := by simpa using q
        obtain ⟨h', elem', last', e, hv', hr⟩ := q_delete_dup_loop_spec rest y (kept ++ [elem])
          h last (some elem) f q2 hv (fun hc => by simp [hd'] at hc)
          (fun _ z hz => hl2 hp z (List.mem_cons_of_mem _ hz)) hf'
        refine ⟨h', elem', last', ?_, hv', ?_⟩
        · simp only [q_delete_dup_loop, ne_eq, heh, not_false_eq_true, if_true, hnx, hyh,
            if_false, hs, hle]
          exact e
        · have : kept ++ loneElements val p (elem :: y :: rest)
              = (kept ++ [elem]) ++ loneElements val (some elem) (y :: rest) := by
            rw [loneElements]
            simp [hp, hd']
          rw [this]
          exact hr

theorem q_delete_dup_spec {h : Heap} {head : Nat} {l : List Nat} (q : IsQueue h head l)
    {fuel : Nat} (hf : l.length < fuel) :
    ∃ h', q_delete_dup fuel h head = some (h', true) ∧
      IsQueue h' head (loneElements h.value none l) ∧ h'.value = h.value := by
  cases l with
  | nil =>
    obtain ⟨f, rfl⟩ := Nat.exists_eq_succ_of_ne_zero (Nat.ne_of_gt hf)
    have hnx : h.next head = head := by simpa using q.next_head
    have hpv : h.prev head = head := by simpa using q.prev_head
    refine ⟨h, ?_, by simpa [loneElements] using q, rfl⟩
    simp [q_delete_dup, q.head_ne_zero, hnx, q_delete_dup_loop, hpv]
  | cons x rest =>
    have hnx : h.next head = x := by simpa using q.next_head
    obtain ⟨h', elem', last', e, hv', hr⟩ := q_delete_dup_loop_spec rest x [] h none none fuel
      (by simpa using q) rfl (fun hc => by simp at hc) (fun _ z _ => by simp)
      (by simpa using Nat.lt_of_succ_lt hf)
    rcases hr with ⟨hl, qr⟩ | ⟨hl, qr⟩
    · refine ⟨q_release_element (list_del_init h' elem') elem', ?_, ?_, hv'⟩
      · simp only [q_delete_dup, q.head_ne_zero, if_false, hnx, e, hl, if_true]
      · simpa using qr.release elem'
    · refine ⟨h', ?_, by simpa using qr, hv'⟩
      simp only [q_delete_dup, q.head_ne_zero, if_false, hnx, e, hl]

theorem q_delete_dup_null (h : Heap) (fuel : Nat) : q_delete_dup fuel h 0 = some (h, false) := by
  simp [q_delete_dup]

theorem loneElements_sublist (val : Nat → List Nat) :
    ∀ (l : List Nat) (p : Option Nat), (loneElements val p l).Sublist l
  | [], _ => by simp [loneElements]
  | x :: rest, p => by
    rw [loneElements]
    split
    · exact (loneElements_sublist val rest (some x)).cons₂ x
    · exact (loneElements_sublist val rest (some x)).cons x

/-! ## The order of strcmp -/

theorem strcmp_total : ∀ a b : List Nat, strcmp a b ≤ 0 ∨ strcmp b a ≤ 0
  | [], [] => by simp [strcmp]
  | [], b :: bs => by simp [strcmp]
  | a :: as, [] => by simp [strcmp]
  | a :: as, b :: bs => by
    by_cases hab : a = b
    · subst hab
      by_cases h : a = 0
      · simp [strcmp, h]
      · simpa [strcmp, h] using strcmp_total as bs
    · have hba : b ≠ a := fun e => hab e.symm
      simp only [strcmp, ne_eq, hab, hba, not_false_eq_true, if_true]
      omega

theorem strcmp_trans : ∀ a b c : List Nat, strcmp a b ≤ 0 → strcmp b c ≤ 0 → strcmp a c ≤ 0
  | [], _, [] => by simp [strcmp]
  | [], _, c :: cs => by simp [strcmp]
  | a :: as, [], [] => by
    intro h1 _
    simpa [strcmp] using h1
  | a :: as, [], c :: cs => by
    intro h1 _
    have ha : a = 0 := by simpa [strcmp] using h1
    subst ha
    by_cases hc : 0 = c
    · simp [strcmp, hc.symm]
    · simp [strcmp, hc]
  | a :: as, b :: bs, [] => by
    intro h1 h2
    have hb : b = 0 := by simpa [strcmp] using h2
    subst hb
    by_cases ha : a = 0
    · simp [strcmp, ha]
    · simp only [strcmp, ne_eq, ha, not_false_eq_true, if_true] at h1
      omega
  | a :: as, b :: bs, c :: cs => by
    intro h1 h2
    by_cases hab : a = b
    · subst hab
      by_cases hac : a = c
      · subst hac
        by_cases h : a = 0
        · simp [strcmp, h]
        · simp only [strcmp, ne_eq, not_true_eq_false, if_false, h] at h1 h2 ⊢
          exact strcmp_trans as bs cs h1 h2
      · simp only [strcmp, ne_eq, hac, not_false_eq_true, if_true] at h2 ⊢
        exact h2
    · simp only [strcmp, ne_eq, hab, not_false_eq_true, if_true] at h1
      by_cases hbc : b = c
      · subst hbc
        simp only [strcmp, ne_eq, hab, not_false_eq_true, if_true]
        exact h1
      · simp only [strcmp, ne_eq, hbc, not_false_eq_true, if_true] at h2
        have hac : a ≠ c := by omega
        simp only [strcmp, ne_eq, hac, not_false_eq_true, if_true]
        omega

theorem strcmp_antisymm : ∀ a b : List Nat, strcmp a b ≤ 0 → strcmp b a ≤ 0 → strcmp a b = 0
  | [], [] => by simp [strcmp]
  | [], b :: bs => by
    intro _ h2
    simp only [strcmp] at h2 ⊢
    omega
  | a :: as, [] => by
    intro h1 _
    simp only [strcmp] at h1 ⊢
    omega
  | a :: as, b :: bs => by
    intro h1 h2
    by_cases hab : a = b
    · subst hab
      by_cases h : a = 0
      · simp [strcmp, h]
      · simp only [strcmp, ne_eq, not_true_eq_false, if_false, h] at h1 h2 ⊢
        exact strcmp_antisymm as bs h1 h2
    · have hba : b ≠ a := fun e => hab e.symm
      simp only [strcmp, ne_eq, hab, hba, not_false_eq_true, if_true] at h1 h2
      omega

theorem le_trans (val : Nat → List Nat) (a b c : Nat) :
    le val a b = true → le val b c = true → le val a c = true := by
  simp only [le, decide_eq_true_eq]
  exact strcmp_trans _ _ _

theorem le_total (val : Nat → List Nat) (a b : Nat) : (le val a b || le val b a) = true := by
  simp only [le, Bool.or_eq_true, decide_eq_true_eq]
  exact strcmp_total _ _

theorem mergeSort_split (f : Nat → Nat → Bool) (l : List Nat) (hl : 2 ≤ l.length) :
    l.mergeSort f = List.merge ((l.take ((l.length + 1) / 2)).mergeSort f)
      ((l.drop ((l.length + 1) / 2)).mergeSort f) f := by
  match l, hl with
  | a :: b :: xs, _ =>
    rw [List.mergeSort]
    simp only [List.splitInTwo_fst, List.splitInTwo_snd, List.length_cons]

/-! ## Singly-linked segments -/

theorem IsSeg.seg_frame {h h' : Heap} : ∀ {l : List Nat} {s t : Nat}, IsSeg h s l t →
    (∀ a ∈ l, h'.next a = h.next a) → IsSeg h' s l t
  | [], _, _, hs, _ => hs
  | x :: rest, _, _, hs, hf => by
    refine ⟨hs.1, ?_⟩
    rw [hf x (List.mem_cons_self _ _)]
    exact hs.2.seg_frame (fun a ha => hf a (List.mem_cons_of_mem _ ha))

theorem isSeg_append {h : Heap} : ∀ {l1 l2 : List Nat} {s t : Nat},
    IsSeg h s (l1 ++ l2) t ↔ ∃ m, IsSeg h s l1 m ∧ IsSeg h m l2 t
  | [], l2, s, t => by simp [IsSeg]
  | x :: l1, l2, s, t => by
    show (s = x ∧ IsSeg h (h.next x) (l1 ++ l2) t) ↔ _
    rw [@isSeg_append h l1 l2 (h.next x) t]
    constructor
    · rintro ⟨rfl, m, h1, h2⟩; exact ⟨m, ⟨rfl, h1⟩, h2⟩
    · rintro ⟨m, ⟨rfl, h1⟩, h2⟩; exact ⟨rfl, m, h1, h2⟩

theorem IsSeg.start_eq {h : Heap} {l : List Nat} {s t : Nat} (hs : IsSeg h s l t) :
    s = l.headD t := by
  cases l with
  | nil => exact hs
  | cons x rest => exact hs.1

theorem IsSeg.seg_next_getD {h : Heap} : ∀ {l : List Nat} {s t : Nat}, IsSeg h s l t →
    ∀ {i : Nat}, i < l.length → h.next (l.getD i t) = l.getD (i + 1) t
  | [], _, _, _, i, hi => by simp at hi
  | x :: rest, _, _, hs, 0, _ => by
    have := hs.2.start_eq
    cases rest with
    | nil => simpa using this
    | cons y r => simpa using this
  | x :: rest, _, _, hs, i + 1, hi => by
    have := hs.2.seg_next_getD (i := i) (by simpa using hi)
    simpa using this

/-- The last link of a segment redirected. -/
theorem IsSeg.set_last {h : Heap} {l : List Nat} {s t z : Nat} (hs : IsSeg h s (l ++ [z]) t)
    (hz : z ∉ l) (v : Nat) : IsSeg (h.setNext z v) s (l ++ [z]) v := by
  obtain ⟨m, h1, h2⟩ := isSeg_append.1 hs
  refine isSeg_append.2 ⟨m, h1.seg_frame ?_, ?_⟩
  · intro a ha
    have : a ≠ z := fun e => hz (e ▸ ha)
    simp [this]
  · exact ⟨h2.1, by simp [IsSeg]⟩

/-! ## merge -/

@[simp] theorem storeTail_prev (h : Heap) (hv : Nat) (tail : Option Nat) (v : Nat) :
    (storeTail h hv tail v).1.prev = h.prev := by
  cases tail <;> rfl
@[simp] theorem storeTail_value (h : Heap) (hv : Nat) (tail : Option Nat) (v : Nat) :
    (storeTail h hv tail v).1.value = h.value := by
  cases tail <;> rfl
@[simp] theorem storeTail_freed (h : Heap) (hv : Nat) (tail : Option Nat) (v : Nat) :
    (storeTail h hv tail v).1.freed = h.freed := by
  cases tail <;> rfl

theorem TailInv.init (h : Heap) (hv : Nat) : TailInv h hv none [] :=
  ⟨fun _ => rfl, fun _ _ _ => rfl⟩

theorem TailInv.step {h : Heap} {hv : Nat} {tail : Option Nat} {out : List Nat}
    (ti : TailInv h hv tail out) {x : Nat} (hx : x ∉ out) :
    TailInv (storeTail h hv tail x).1 (storeTail h hv tail x).2 (some x) (out ++ [x]) := by
  constructor
  · intro v
    show IsSeg ((storeTail h hv tail x).1.setNext x v) (storeTail h hv tail x).2 (out ++ [x]) v
    refine isSeg_append.2 ⟨x, (ti.seg x).seg_frame ?_, ⟨rfl, by simp [IsSeg]⟩⟩
    intro a ha
    have : a ≠ x := fun e => hx (e ▸ ha)
    simp [this]
  · intro v a ha
    have : a ≠ x := fun e => ha (by simp [e])
    show ((storeTail h hv tail x).1.setNext x v).next a = (storeTail h hv tail x).1.next a
    simp [this]

theorem merge_loop_unfold_le {h : Heap} {hv : Nat} {tail : Option Nat} {x y fuel : Nat}
    (hs : strcmp (h.value x) (h.value y) ≤ 0) :
    merge_loop (fuel + 1) h hv tail x y =
      if (storeTail h hv tail x).1.next x = 0 then
        some (storeTail (storeTail h hv tail x).1 (storeTail h hv tail x).2 (some x) y)
      else merge_loop fuel (storeTail h hv tail x).1 (storeTail h hv tail x).2 (some x)
        ((storeTail h hv tail x).1.next x) y := by
  rw [merge_loop]
  simp only [hs, if_true]

theorem merge_loop_unfold_gt {h : Heap} {hv : Nat} {tail : Option Nat} {x y fuel : Nat}
    (hs : ¬ strcmp (h.value x) (h.value y) ≤ 0) :
    merge_loop (fuel + 1) h hv tail x y =
      if (storeTail h hv tail y).1.next y = 0 then
        some (storeTail (storeTail h hv tail y).1 (storeTail h hv tail y).2 (some y) x)
      else merge_loop fuel (storeTail h hv tail y).1 (storeTail h hv tail y).2 (some y) x
        ((storeTail h hv tail y).1.next y) := by
  rw [merge_loop]
  simp only [hs, if_false]

theorem merge_nodup_facts {out la lb : List Nat} {x y : Nat}
    (hnd : (out ++ ((x :: la) ++ (y :: lb))).Nodup) :
    x ∉ out ∧ y ∉ out ∧ (∀ a ∈ la, a ∉ out) ∧ (∀ a ∈ lb, a ∉ out) ∧ x ≠ y ∧ x ∉ la ∧
      y ∉ lb ∧ x ∉ lb ∧ y ∉ la := by
  have hd := List.disjoint_of_nodup_append hnd
  have h2 := (List.nodup_append.1 hnd).2.1
  have hd2 := List.disjoint_of_nodup_append h2
  have hx := (List.nodup_cons.1 (List.nodup_append.1 h2).1).1
  have hy := (List.nodup_cons.1 (List.nodup_append.1 h2).2.1).1
  refine ⟨fun e => hd e (by simp), fun e => hd e (by simp), fun a ha e => hd e (by simp [ha]),
    fun a ha e => hd e (by simp [ha]), ?_, hx, hy, ?_, ?_⟩
  · intro e
    exact hd2 (List.mem_cons_self _ _) (by simp [e])
  · intro e
    exact hd2 (List.mem_cons_self _ _) (List.mem_cons_of_mem _ e)
  · intro e
    exact hd2 (List.mem_cons_of_mem _ e) (List.mem_cons_self _ _)

theorem merge_loop_spec {val : Nat → List Nat} : ∀ (n : Nat) (la lb out : List Nat) (x y : Nat)
    (h : Heap) (hv : Nat) (tail : Option Nat) (fuel : Nat),
    la.length + lb.length = n → IsSeg h x (x :: la) 0 → IsSeg h y (y :: lb) 0 →
    0 ∉ x :: la → 0 ∉ y :: lb → (out ++ ((x :: la) ++ (y :: lb))).Nodup → h.value = val →
    TailInv h hv tail out → n < fuel →
    ∃ h' r, merge_loop fuel h hv tail x y = some (h', r) ∧
      IsSeg h' r (out ++ List.merge (x :: la) (y :: lb) (le val)) 0 ∧
      (∀ a, a ∉ out ++ ((x :: la) ++ (y :: lb)) → h'.next a = h.next a) ∧
      h'.prev = h.prev ∧ h'.value = h.value ∧ h'.freed = h.freed := by
  intro n
  induction n using Nat.strong_induction_on with
  | _ n ih =>
    intro la lb out x y h hv tail fuel hn hx hy h0x h0y hnd hval ti hf
    obtain ⟨f, rfl⟩ := Nat.exists_eq_succ_of_ne_zero (Nat.ne_of_gt (Nat.zero_lt_of_lt hf))
    obtain ⟨hxo, hyo, hlao, hlbo, hxy, hxla, hylb, hxlb, hyla⟩ := merge_nodup_facts hnd
    by_cases hs : strcmp (h.value x) (h.value y) ≤ 0
    · have hle : le val x y = true := by simp [le, ← hval, hs]
      have hchy : IsSeg (storeTail h hv tail x).1 y (y :: lb) 0 := by
        refine hy.seg_frame ?_
        intro a ha
        refine ti.next x a ?_
        rcases List.mem_cons.1 ha with rfl | ha
        · exact hyo
        · exact hlbo a ha
      cases la with
      | nil =>
        have hnx : h.next x = 0 := hx.2
        refine ⟨(storeTail h hv tail x).1.setNext x y, (storeTail h hv tail x).2, ?_, ?_, ?_, ?_,
          ?_, ?_⟩
        · rw [merge_loop_unfold_le hs, ti.next x x hxo, hnx, if_pos rfl]
          rfl
        · rw [List.cons_merge_cons_pos _ _ _ hle, List.nil_merge]
          have := (ti.step hxo).seg y
          have e : out ++ x :: y :: lb = (out ++ [x]) ++ y :: lb := by simp
          rw [e]
          refine isSeg_append.2 ⟨y, this, ?_⟩
          refine hchy.seg_frame ?_
          intro a ha
          have hax : a ≠ x := by
            rintro rfl
            rcases List.mem_cons.1 ha with e | ha
            · exact hxy e
            · exact hxlb ha
          show (((storeTail h hv tail x).1.setNext x y).next a) = _
          simp only [setNext_next, if_neg hax]
        · intro a ha
          have hax : a ≠ x := fun e => ha (by simp [e])
          have hao : a ∉ out := fun e => ha (by simp [e])
          show (((storeTail h hv tail x).1.setNext x y).next a) = h.next a
          simp only [setNext_next, if_neg hax, ti.next x a hao]
        · show ((storeTail h hv tail x).1.setNext x y).prev = h.prev
          simp
        · show ((storeTail h hv tail x).1.setNext x y).value = h.value
          simp
        · show ((storeTail h hv tail x).1.setNext x y).freed = h.freed
          simp
      | cons x' la' =>
        have hnx : h.next x = x' := hx.2.1
        have hx'0 : x' ≠ 0 := fun e => h0x (by simp [e])
        have hchx : IsSeg (storeTail h hv tail x).1 x' (x' :: la') 0 := by
          refine IsSeg.seg_frame (h := h) ⟨rfl, hnx ▸ hx.2.2⟩ ?_
          intro a ha
          exact ti.next x a (hlao a ha)
        obtain ⟨h', r, e, hseg, hnext, hprev, hvalue, hfreed⟩ :=
          ih (la'.length + lb.length) (by simp at hn; omega) la' lb (out ++ [x]) x' y
            (storeTail h hv tail x).1 (storeTail h hv tail x).2 (some x) f rfl hchx hchy
            (fun e => h0x (List.mem_cons_of_mem _ e)) h0y
            (by simpa using hnd) (by simpa using hval) (ti.step hxo) (by simp at hn; omega)
        refine ⟨h', r, ?_, ?_, ?_, ?_, ?_, ?_⟩
        · rw [merge_loop_unfold_le hs, ti.next x x hxo, hnx, if_neg hx'0]
          exact e
        · rw [List.cons_merge_cons_pos _ _ _ hle]
          simpa using hseg
        · intro a ha
          have hao : a ∉ out := fun e => ha (by simp [e])
          rw [hnext a (by simpa using ha), ti.next x a hao]
        · rw [hprev]; simp
        · rw [hvalue]; simp
        · rw [hfreed]; simp
    · have hle : ¬ le val x y = true := by simp [le, ← hval, hs]
      have hchx : IsSeg (storeTail h hv tail y).1 x (x :: la) 0 := by
        refine hx.seg_frame ?_
        intro a ha
        refine ti.next y a ?_
        rcases List.mem_cons.1 ha with rfl | ha
        · exact hxo
        · exact hlao a ha
      cases lb with
      | nil =>
        have hny : h.next y = 0 := hy.2
        refine ⟨(storeTail h hv tail y).1.setNext y x, (storeTail h hv tail y).2, ?_, ?_, ?_, ?_,
          ?_, ?_⟩
        · rw [merge_loop_unfold_gt hs, ti.next y y hyo, hny, if_pos rfl]
          rfl
        · rw [List.cons_merge_cons_neg _ _ _ hle, List.merge_right]
          have := (ti.step hyo).seg x
          have e : out ++ y :: x :: la = (out ++ [y]) ++ x :: la := by simp
          rw [e]
          refine isSeg_append.2 ⟨x, this, ?_⟩
          refine hchx.seg_frame ?_
          intro a ha
          have hay : a ≠ y := by
            rintro rfl
            rcases List.mem_cons.1 ha with e | ha
            · exact hxy e.symm
            · exact hyla ha
          show (((storeTail h hv tail y).1.setNext y x).next a) = _
          simp only [setNext_next, if_neg hay]
        · intro a ha
          have hay : a ≠ y := fun e => ha (by simp [e])
          have hao : a ∉ out := fun e => ha (by simp [e])
          show (((storeTail h hv tail y).1.setNext y x).next a) = h.next a
          simp only [setNext_next, if_neg hay, ti.next y a hao]
        · show ((storeTail h hv tail y).1.setNext y x).prev = h.prev
          simp
        · show ((storeTail h hv tail y).1.setNext y x).value = h.value
          simp
        · show ((storeTail h hv tail y).1.setNext y x).freed = h.freed
          simp
      | cons y' lb' =>
        have hny : h.next y = y' := hy.2.1
        have hy'0 : y' ≠ 0 := fun e => h0y (by simp [e])
        have hchy : IsSeg (storeTail h hv tail y).1 y' (y' :: lb') 0 := by
          refine IsSeg.seg_frame (h := h) ⟨rfl, hny ▸ hy.2.2⟩ ?_
          intro a ha
          exact ti.next y a (hlbo a ha)
        have hperm : (out ++ ((x :: la) ++ (y :: y' :: lb'))).Perm
            ((out ++ [y]) ++ ((x :: la) ++ (y' :: lb'))) := by
          have e1 : out ++ ((x :: la) ++ (y :: y' :: lb'))
              = (out ++ (x :: la)) ++ y :: (y' :: lb') := by simp
          have e2 : (out ++ [y]) ++ ((x :: la) ++ (y' :: lb'))
              = out ++ y :: ((x :: la) ++ (y' :: lb')) := by simp
          rw [e1, e2]
          refine List.perm_middle.trans (List.Perm.trans ?_ List.perm_middle.symm)
          simp
        obtain ⟨h', r, e, hseg, hnext, hprev, hvalue, hfreed⟩ :=
          ih (la.length + lb'.length) (by simp at hn; omega) la lb' (out ++ [y]) x y'
            (storeTail h hv tail y).1 (storeTail h hv tail y).2 (some y) f rfl hchx hchy h0x
            (fun e => h0y (List.mem_cons_of_mem _ e))
            (hperm.nodup_iff.1 hnd) (by simpa using hval) (ti.step hyo) (by simp at hn; omega)
        refine ⟨h', r, ?_, ?_, ?_, ?_, ?_, ?_⟩
        · rw [merge_loop_unfold_gt hs, ti.next y y hyo, hny, if_neg hy'0]
          exact e
        · rw [List.cons_merge_cons_neg _ _ _ hle]
          simpa using hseg
        · intro a ha
          have hao : a ∉ out := fun e => ha (by simp [e])
          have ha' : a ∉ (out ++ [y]) ++ ((x :: la) ++ (y' :: lb')) :=
            fun e => ha (hperm.mem_iff.2 e)
          rw [hnext a ha', ti.next y a hao]
        · rw [hprev]; simp
        · rw [hvalue]; simp
        · rw [hfreed]; simp

/-! ## merge_sort -/

theorem getD_ne_zero {l : List Nat} (h0 : 0 ∉ l) {i : Nat} (hi : i < l.length) :
    l.getD i 0 ≠ 0 := by
  have : l.getD i 0 = l[i] := by
    rw [List.getD_eq_getElem?_getD, List.getElem?_eq_getElem hi]; rfl
  rw [this]
  intro e
  exact h0 (e ▸ List.getElem_mem hi)

theorem getD_eq_zero {l : List Nat} {i : Nat} (hi : l.length ≤ i) : l.getD i 0 = 0 := by
  rw [List.getD_eq_getElem?_getD, List.getElem?_eq_none hi]; rfl

theorem merge_sort_split_spec {h : Heap} {head : Nat} {l : List Nat} (hs : IsSeg h head l 0)
    (h0 : 0 ∉ l) : ∀ (d k fuel : Nat), 2 * k + 1 ≤ l.length → (l.length - 1) / 2 - k = d →
      d < fuel →
      merge_sort_split fuel h (l.getD k 0) (l.getD (2 * k + 1) 0)
        = some (l.getD ((l.length - 1) / 2) 0) := by
  intro d
  induction d with
  | zero =>
    intro k fuel hk hd hf
    obtain ⟨f, rfl⟩ := Nat.exists_eq_succ_of_ne_zero (Nat.ne_of_gt hf)
    have hk2 : l.length ≤ 2 * k + 2 := by omega
    have hkk : (l.length - 1) / 2 = k := by omega
    rw [merge_sort_split, hkk]
    by_cases h1 : 2 * k + 1 < l.length
    · have e := hs.seg_next_getD h1
      rw [getD_eq_zero (l := l) (i := 2 * k + 1 + 1) (by omega)] at e
      have n1 := getD_ne_zero h0 h1
      simp only [ne_eq, n1, not_false_eq_true, decide_True, e, not_true_eq_false, decide_False,
        Bool.and_false, Bool.false_eq_true, if_false]
    · have e := getD_eq_zero (l := l) (i := 2 * k + 1) (by omega)
      simp only [ne_eq, e, not_true_eq_false, decide_False, Bool.false_and, Bool.false_eq_true,
        if_false]
  | succ d ih =>
    intro k fuel hk hd hf
    obtain ⟨f, rfl⟩ := Nat.exists_eq_succ_of_ne_zero (Nat.ne_of_gt (Nat.zero_lt_of_lt hf))
    have hk2 : 2 * k + 2 < l.length := by omega
    have e1 := hs.seg_next_getD (i := 2 * k + 1) (by omega)
    have e2 := hs.seg_next_getD (i := 2 * k + 2) (by omega)
    have e3 := hs.seg_next_getD (i := k) (by omega)
    have n1 := getD_ne_zero h0 (i := 2 * k + 1) (by omega)
    have n2 := getD_ne_zero h0 (i := 2 * k + 2) (by omega)
    have := ih (k + 1) f (by omega) (by omega) (by omega)
    rw [merge_sort_split, e1, e2, e3]
    simp only [ne_eq, n1, not_false_eq_true, decide_True, n2, Bool.and_self, if_true]
    exact this

theorem split_chain {h : Heap} {A B : List Nat} {z head : Nat}
    (hs : IsSeg h head (A ++ z :: B) 0) (hnd : (A ++ z :: B).Nodup) :
    IsSeg (h.setNext z 0) head (A ++ [z]) 0 ∧ IsSeg (h.setNext z 0) (h.next z) B 0 := by
  have hzA : z ∉ A := fun e => (List.disjoint_of_nodup_append hnd) e (List.mem_cons_self _ _)
  have hzB : z ∉ B := (List.nodup_cons.1 (List.nodup_append.1 hnd).2.1).1
  have e : A ++ z :: B = (A ++ [z]) ++ B := by simp
  rw [e] at hs
  obtain ⟨m, h1, h2⟩ := isSeg_append.1 hs
  refine ⟨h1.set_last hzA 0, ?_⟩
  obtain ⟨m', h3, h4⟩ := isSeg_append.1 h1
  have hm : m = h.next z := h4.2.symm
  rw [← hm]
  refine h2.seg_frame ?_
  intro a ha
  have : a ≠ z := fun e => hzB (e ▸ ha)
  simp [this]

theorem merge_sort_spec {val : Nat → List Nat} : ∀ (fuel : Nat) (l : List Nat) (h : Heap)
    (head : Nat), IsSeg h head l 0 → 0 ∉ l → l.Nodup → h.value = val → l.length < fuel →
    ∃ h' r, merge_sort fuel h head = some (h', r) ∧ IsSeg h' r (l.mergeSort (le val)) 0 ∧
      (∀ a, a ∉ l → h'.next a = h.next a) ∧ h'.prev = h.prev ∧ h'.value = h.value ∧
      h'.freed = h.freed := by
  intro fuel
  induction fuel with
  | zero => intro l h head _ _ _ _ hf; omega
  | succ f ih =>
    intro l h head hs h0 hnd hval hf
    by_cases hl : l.length < 2
    · refine ⟨h, head, ?_, ?_, fun _ _ => rfl, rfl, rfl, rfl⟩
      · match l, hs, hl with
        | [], hs, _ =>
          have : head = 0 := hs
          simp [merge_sort, this]
        | [x], hs, _ =>
          have e1 : head = x := hs.1
          have e2 : h.next x = 0 := hs.2
          simp [merge_sort, e1, e2]
      · match l, hs, hl with
        | [], hs, _ => simpa using hs
        | [x], hs, _ => simpa using hs
    · have hn2 : 2 ≤ l.length := by omega
      have hhead : head = l.getD 0 0 := by
        rw [hs.start_eq]; cases l <;> simp
      have hhead0 : head ≠ 0 := hhead ▸ getD_ne_zero h0 (by omega)
      have hnext : h.next head = l.getD 1 0 := by
        rw [hhead]; exact hs.seg_next_getD (by omega)
      have hnext0 : h.next head ≠ 0 := hnext ▸ getD_ne_zero h0 (by omega)
      have hsplit := merge_sort_split_spec hs h0 ((l.length - 1) / 2) 0 f (by omega) rfl
        (by omega)
      have hm : (l.length - 1) / 2 < l.length := by omega
      have hsp := split_at_index l 0 hm
      have hm1 : (l.length - 1) / 2 + 1 = (l.length + 1) / 2 := by omega
      have htake : l.take ((l.length + 1) / 2)
          = l.take ((l.length - 1) / 2) ++ [l.getD ((l.length - 1) / 2) 0] := by
        rw [← hm1, List.take_succ, List.getD_eq_getElem?_getD, List.getElem?_eq_getElem hm]
        rfl
      rw [hm1] at hsp
      have hs' := hs
      have hnd' := hnd
      rw [hsp] at hs' hnd'
      obtain ⟨c1, c2⟩ := split_chain hs' hnd'
      rw [← htake] at c1
      have hdis := List.disjoint_of_nodup_append (by rw [List.take_append_drop]; exact hnd :
        (l.take ((l.length + 1) / 2) ++ l.drop ((l.length + 1) / 2)).Nodup)
      have hlen1 : (l.take ((l.length + 1) / 2)).length = (l.length + 1) / 2 := by
        rw [List.length_take]; omega
      have hlen2 : (l.drop ((l.length + 1) / 2)).length = l.length / 2 := by
        rw [List.length_drop]; omega
      obtain ⟨h2, r1, e1, s1, f1, p1, v1, fr1⟩ := ih (l.take ((l.length + 1) / 2)) _ head c1
        (fun e => h0 (List.mem_of_mem_take e)) (hnd.sublist (List.take_sublist _ _))
        (by simpa using hval) (by omega)
      have c2' : IsSeg h2 (h.next (l.getD ((l.length - 1) / 2) 0))
          (l.drop ((l.length + 1) / 2)) 0 := by
        refine c2.seg_frame ?_
        intro a ha
        exact f1 a (fun e => hdis e ha)
      obtain ⟨h3, r2, e2, s2, f2, p2, v2, fr2⟩ := ih (l.drop ((l.length + 1) / 2)) h2 _ c2'
        (fun e => h0 (List.mem_of_mem_drop e)) (hnd.sublist (List.drop_sublist _ _))
        (by rw [v1]; simpa using hval) (by omega)
      have perm1 := List.mergeSort_perm (l.take ((l.length + 1) / 2)) (le val)
      have perm2 := List.mergeSort_perm (l.drop ((l.length + 1) / 2)) (le val)
      have s1' : IsSeg h3 r1 ((l.take ((l.length + 1) / 2)).mergeSort (le val)) 0 := by
        refine s1.seg_frame ?_
        intro a ha
        exact f2 a (fun e => hdis (perm1.mem_iff.1 ha) e)
      obtain ⟨x, la, hxla⟩ : ∃ x la, (l.take ((l.length + 1) / 2)).mergeSort (le val)
          = x :: la := by
        cases hc : (l.take ((l.length + 1) / 2)).mergeSort (le val) with
        | nil =>
          have := perm1.length_eq
          rw [hc, hlen1] at this
          simp at this
          omega
        | cons x la => exact ⟨x, la, rfl⟩
      obtain ⟨y, lb, hylb⟩ : ∃ y lb, (l.drop ((l.length + 1) / 2)).mergeSort (le val)
          = y :: lb := by
        cases hc : (l.drop ((l.length + 1) / 2)).mergeSort (le val) with
        | nil =>
          have := perm2.length_eq
          rw [hc, hlen2] at this
          simp at this
          omega
        | cons y lb => exact ⟨y, lb, rfl⟩
      rw [hxla] at s1' perm1
      rw [hylb] at s2 perm2
      have hr1 : r1 = x := s1'.1
      have hr2 : r2 = y := s2.1
      subst hr1 hr2
      have hpermall : ((r1 :: la) ++ (r2 :: lb)).Perm l := by
        have := List.Perm.append perm1 perm2
        rwa [List.take_append_drop] at this
      have hlenall : la.length + lb.length + 2 = l.length := by
        have := hpermall.length_eq
        simp at this
        omega
      obtain ⟨h4, r, e4, s4, f4, p4, v4, fr4⟩ := @merge_loop_spec val
        (la.length + lb.length) la lb [] r1 r2 h3 0 none f rfl s1' s2
        (fun e => h0 (hpermall.mem_iff.1 (List.mem_append_left _ e)))
        (fun e => h0 (hpermall.mem_iff.1 (List.mem_append_right _ e)))
        (by simpa using hpermall.nodup_iff.2 hnd)
        (by rw [v2, v1]; simpa using hval) (TailInv.init _ _) (by omega)
      refine ⟨h4, r, ?_, ?_, ?_, ?_, ?_, ?_⟩
      · rw [merge_sort]
        simp only [hhead0, hnext0, decide_False, Bool.or_self, Bool.false_eq_true, if_false]
        rw [hnext, hhead, hsplit]
        simp only []
        rw [← hhead, e1]
        simp only []
        rw [e2]
        exact e4
      · rw [mergeSort_split _ l hn2, hxla, hylb]
        simpa using s4
      · intro a ha
        have ha1 : a ∉ [] ++ ((r1 :: la) ++ (r2 :: lb)) := by
          simpa using fun e => ha (hpermall.mem_iff.1 e)
        have ha2 : a ∉ l.drop ((l.length + 1) / 2) := fun e => ha (List.mem_of_mem_drop e)
        have ha3 : a ∉ l.take ((l.length + 1) / 2) := fun e => ha (List.mem_of_mem_take e)
        have ha4 : a ≠ l.getD ((l.length - 1) / 2) 0 := by
          rintro rfl
          apply ha3
          rw [htake]
          simp
        rw [f4 a ha1, f2 a ha2, f1 a ha3]
        simp only [setNext_next, if_neg ha4]
      · rw [p4, p2, p1]; rfl
      · rw [v4, v2, v1]; rfl
      · rw [fr4, fr2, fr1]; rfl

/-! ## q_sort -/

theorem chain_to_seg {h : Heap} {t : Nat} : ∀ {l : List Nat}, (l ++ [t]).Chain' (Link h) →
    IsSeg h (l.headD t) l t
  | [], _ => rfl
  | [x], hc => by
    have := (List.chain'_pair.1 hc).1
    exact ⟨rfl, this⟩
  | x :: y :: rest, hc => by
    have h1 := (List.chain'_cons.1 hc).1.1
    have h2 := chain_to_seg (l := y :: rest) (List.chain'_cons.1 hc).2
    exact ⟨rfl, by rw [h1]; exact h2⟩

theorem q_sort_relink_spec {head : Nat} : ∀ (rest done : List Nat) (temp : Nat) (h : Heap)
    (fuel : Nat), (head :: (done ++ [temp])).Chain' (Link h) → IsSeg h temp (temp :: rest) 0 →
    (head :: (done ++ temp :: rest)).Nodup → 0 ∉ head :: (done ++ temp :: rest) →
    rest.length < fuel →
    ∃ h', q_sort_relink fuel h head temp = some h' ∧ IsQueue h' head (done ++ temp :: rest) ∧
      h'.value = h.value ∧ h'.freed = h.freed
  | [], done, temp, h, fuel, hc, hs, hnd, h0, hf => by
    obtain ⟨f, rfl⟩ := Nat.exists_eq_succ_of_ne_zero (Nat.ne_of_gt hf)
    have hnx : h.next temp = 0 := hs.2
    have hth : temp ≠ head := by
      rintro rfl
      simp at hnd
    refine ⟨(h.setPrev head temp).setNext temp head, ?_, ?_, rfl, rfl⟩
    · simp [q_sort_relink, hnx]
    · refine ⟨(linked_iff_chain' _ _).2 ?_, hnd, h0⟩
      have e : head :: (done ++ [temp] ++ [head]) = (head :: (done ++ [temp])) ++ [head] := by
        simp
      rw [e, List.chain'_append]
      refine ⟨chain_frame hc ?_ ?_, List.chain'_singleton _, ?_⟩
      · intro a ha
        rw [← List.cons_append, List.dropLast_concat] at ha
        have : a ≠ temp := by
          rintro rfl
          rw [← List.cons_append] at hnd
          exact (List.disjoint_of_nodup_append hnd) ha (List.mem_cons_self _ _)
        simp [this]
      · intro a ha
        have : a ≠ head := by
          rintro rfl
          exact (List.nodup_cons.1 hnd).1 (by simpa using ha)
        simp [this]
      · intro a ha b hb
        rw [← List.cons_append, List.getLast?_concat] at ha
        simp only [Option.mem_def, Option.some.injEq, List.head?_cons] at ha hb
        subst ha hb
        constructor <;> simp [hth.symm]
  | y :: rest, done, temp, h, fuel, hc, hs, hnd, h0, hf => by
    obtain ⟨f, rfl⟩ := Nat.exists_eq_succ_of_ne_zero (Nat.ne_of_gt (Nat.zero_lt_of_lt hf))
    have hnx : h.next temp = y := hs.2.1
    have hy0 : y ≠ 0 := fun e => h0 (by simp [e])
    have hnd2 : (head :: (done ++ [temp])).Nodup := by
      refine hnd.sublist ?_
      refine List.Sublist.cons₂ _ ?_
      exact List.Sublist.append_left (List.Sublist.cons₂ _ (List.nil_sublist _)) _
    have hynot : y ∉ head :: (done ++ [temp]) := by
      intro e
      have e' : head :: (done ++ temp :: y :: rest) = (head :: (done ++ [temp])) ++ y :: rest := by
        simp
      rw [e'] at hnd
      exact (List.disjoint_of_nodup_append hnd) e (List.mem_cons_self _ _)
    have hc' : (head :: ((done ++ [temp]) ++ [y])).Chain' (Link (h.setPrev y temp)) := by
      have e : head :: ((done ++ [temp]) ++ [y]) = (head :: (done ++ [temp])) ++ [y] := by simp
      rw [e, List.chain'_append]
      refine ⟨chain_frame hc (fun _ _ => rfl) ?_, List.chain'_singleton _, ?_⟩
      · intro a ha
        have : a ≠ y := fun e => hynot (e ▸ List.mem_of_mem_tail ha)
        simp [this]
      · intro a ha b hb
        rw [← List.cons_append, List.getLast?_concat] at ha
        simp only [Option.mem_def, Option.some.injEq, List.head?_cons] at ha hb
        subst ha hb
        exact ⟨hnx, by simp⟩
    have hs' : IsSeg (h.setPrev y temp) y (y :: rest) 0 := by
      refine IsSeg.seg_frame (h := h) ⟨rfl, hs.2.2⟩ (fun _ _ => rfl)
    obtain ⟨h', e, q, hv, hfr⟩ := q_sort_relink_spec rest (done ++ [temp]) y _ f hc' hs'
      (by simpa using hnd) (by simpa using h0) (by simpa using hf)
    refine ⟨h', ?_, by simpa using q, by simpa using hv, by simpa using hfr⟩
    rw [q_sort_relink, hnx]
    simp only [ne_eq, hy0, not_false_eq_true, if_true]
    exact e

@[simp] theorem INIT_LIST_HEAD_next (h : Heap) (x a : Nat) :
    (INIT_LIST_HEAD h x).next a = if a = x then x else h.next a := rfl
@[simp] theorem INIT_LIST_HEAD_prev (h : Heap) (x a : Nat) :
    (INIT_LIST_HEAD h x).prev a = if a = x then x else h.prev a := rfl

theorem q_sort_spec {h : Heap} {head : Nat} {l : List Nat} (q : IsQueue h head l)
    {fuel : Nat} (hf : l.length < fuel) :
    ∃ h', q_sort fuel h head = some h' ∧ IsQueue h' head (l.mergeSort (le h.value)) ∧
      h'.value = h.value ∧ h'.freed = h.freed := by
  have hh0 := q.head_ne_zero
  match l, q, hf with
  | [], q, _ =>
    refine ⟨h, ?_, by simpa using q, rfl, rfl⟩
    simp [q_sort, q.list_empty_eq]
  | [x], q, _ =>
    refine ⟨h, ?_, by simpa using q, rfl, rfl⟩
    have e1 : h.next head = x := by simpa using q.next_head
    have e2 : h.prev head = x := by simpa using q.prev_head
    simp [q_sort, q.list_empty_eq, list_is_singular, e1, e2]
  | x :: y :: rest, q, hf =>
    obtain ⟨mid, z, hmz⟩ : ∃ mid z, y :: rest = mid ++ [z] := by
      rcases eq_nil_or_snoc (y :: rest) with e | ⟨m, z, e⟩
      · simp at e
      · exact ⟨m, z, e⟩
    have hl : x :: y :: rest = (x :: mid) ++ [z] := by rw [hmz]; simp
    have hnd := q.nodup
    have h0 := q.nonnull
    have hnl : (x :: y :: rest).Nodup := (List.nodup_cons.1 hnd).2
    have h0l : 0 ∉ x :: y :: rest := fun e => h0 (List.mem_cons_of_mem _ e)
    have hhl : head ∉ x :: y :: rest := (List.nodup_cons.1 hnd).1
    have hzx : z ∉ x :: mid := by
      rw [hl] at hnl
      exact fun e => (List.disjoint_of_nodup_append hnl) e (List.mem_singleton_self _)
    have hxz : z ≠ x := fun e => hzx (by simp [e])
    have enx : h.next head = x := by simpa using q.next_head
    have epv : h.prev head = z := by
      rw [q.prev_head, hl, List.getLastD_concat]
    have hxh : x ≠ head := fun e => hhl (by simp [e])
    have hseg : IsSeg h x (x :: y :: rest) head := by
      have := chain_to_seg (l := x :: y :: rest) (List.chain'_cons'.1 q.chain).2
      simpa using this
    have hseg1 : IsSeg (INIT_LIST_HEAD ((h.setNext z 0).setPrev x 0) head) x
        (x :: y :: rest) 0 := by
      rw [hl] at hseg ⊢
      refine (hseg.set_last hzx 0).seg_frame ?_
      intro a ha
      have : a ≠ head := by
        rintro rfl
        rw [← hl] at ha
        exact hhl ha
      simp [this]
    obtain ⟨h2, r, e, s, fnext, p, v, fr⟩ := @merge_sort_spec h.value fuel
      (x :: y :: rest) _ x hseg1 h0l hnl rfl hf
    have perm := List.mergeSort_perm (x :: y :: rest) (le h.value)
    obtain ⟨r', rest', hr⟩ : ∃ r' rest', (x :: y :: rest).mergeSort (le h.value)
        = r' :: rest' := by
      cases hc : (x :: y :: rest).mergeSort (le h.value) with
      | nil =>
        have := perm.length_eq
        rw [hc] at this
        simp at this
      | cons a b => exact ⟨a, b, rfl⟩
    rw [hr] at s perm ⊢
    have hrr : r = r' := s.1
    subst hrr
    have hhl' : head ∉ r :: rest' := fun e => hhl (perm.mem_iff.1 e)
    have hrh : r ≠ head := fun e => hhl' (by simp [e])
    have hlen : (r :: rest').length = (x :: y :: rest).length := perm.length_eq
    obtain ⟨h', e', q', hv', hfr'⟩ := @q_sort_relink_spec head rest' [] r
      ((h2.setNext head r).setPrev r head) fuel
      (by
        simp only [List.nil_append, List.chain'_cons, List.chain'_singleton, and_true, Link,
          setPrev_next, setNext_next, if_true, setPrev_prev])
      (by
        refine s.seg_frame ?_
        intro a ha
        have : a ≠ head := fun e => hhl' (e ▸ ha)
        simp [this])
      (by
        simp only [List.nil_append]
        exact List.nodup_cons.2 ⟨hhl', perm.nodup_iff.2 hnl⟩)
      (by
        simp only [List.nil_append, List.mem_cons, not_or]
        refine ⟨fun e => hh0 e.symm, ?_⟩
        have := fun e => h0l (perm.mem_iff.1 e)
        simpa using this)
      (by simp at hlen hf ⊢; omega)
    refine ⟨h', ?_, by simpa using q', ?_, ?_⟩
    · rw [q_sort]
      have hsing : list_is_singular h head = false := by
        simp [list_is_singular, enx, epv, hxz]
      simp only [hh0, q.list_empty_eq, hsing, decide_False, Bool.or_self, Bool.false_eq_true,
        if_false, enx, epv]
      rw [e]
      simp only [setNext_next, setPrev_next, if_true, reduceCtorEq, decide_False, Bool.or_self,
        Bool.false_eq_true, if_false]
      exact e'
    · rw [hv']
      simp only [setPrev_value, setNext_value, v]
      rfl
    · rw [hfr']
      simp only [setPrev_freed, setNext_freed, fr]
      rfl

/-! ## Lone elements of a sorted sequence -/

theorem differs_false_iff (val : Nat → List Nat) (a b : Nat) :
    differs val a b = false ↔ le val a b = true ∧ le val b a = true := by
  rw [← strcmp_eq_zero_iff_differs]
  simp only [le, decide_eq_true_eq]
  constructor
  · intro e
    have e' : strcmp (val b) (val a) = 0 :=
      (strcmp_eq_zero_iff _ _).2 ((strcmp_eq_zero_iff _ _).1 e).symm
    omega
  · rintro ⟨h1, h2⟩
    exact strcmp_antisymm _ _ h1 h2

theorem differs_comm (val : Nat → List Nat) (a b : Nat) : differs val a b = differs val b a := by
  simp only [differs, bne, Bool.not_eq_not]
  by_cases h : cstr (val a) = cstr (val b)
  · simp [h]
  · have h' : ¬ cstr (val b) = cstr (val a) := fun e => h e.symm
    simp [h, h']

theorem differs_iff_payload (h : Heap) (a b : Nat) :
    differs h.value a b = true ↔ payload h a ≠ payload h b := by
  simp [differs, payload]

/-- In a sorted sequence, an element differs from all later ones as soon as it
differs from the next one. -/
theorem differs_all_of_head {val : Nat → List Nat} {a : Nat} {rest : List Nat}
    (hs : (a :: rest).Pairwise (fun x y => le val x y = true))
    (hc : rest.head?.all (fun y => differs val a y) = true) :
    ∀ y ∈ rest, differs val a y = true := by
  cases rest with
  | nil => simp
  | cons b rest' =>
    intro y hy
    have hab : differs val a b = true := by simpa using hc
    by_contra hne
    have hay : differs val a y = false := by simpa using hne
    obtain ⟨-, hya⟩ := (differs_false_iff val a y).1 hay
    have hab' : le val a b = true := (List.pairwise_cons.1 hs).1 b (List.mem_cons_self _ _)
    have hby : le val b y = true := by
      rcases List.mem_cons.1 hy with rfl | hy'
      · have := le_total val y y
        simpa using this
      · exact (List.pairwise_cons.1 (List.pairwise_cons.1 hs).2).1 y hy'
    have hba : le val b a = true := le_trans val b y a hby hya
    have := (differs_false_iff val a b).2 ⟨hab', hba⟩
    rw [this] at hab
    exact absurd hab (by simp)

theorem mem_loneElements_iff {val : Nat → List Nat} : ∀ (s : List Nat) (p : Option Nat),
    (∀ q ∈ p, ∀ y ∈ s, le val q y = true) → s.Pairwise (fun x y => le val x y = true) →
    s.Nodup → ∀ x, x ∈ loneElements val p s ↔
      x ∈ s ∧ (∀ q ∈ p, differs val q x = true) ∧ ∀ y ∈ s, y ≠ x → differs val x y = true
  | [], p, _, _, _, x => by simp [loneElements]
  | a :: rest, p, hp, hs, hnd, x => by
    have har : a ∉ rest := (List.nodup_cons.1 hnd).1
    have ih := mem_loneElements_iff rest (some a)
      (fun q hq y hy => by
        simp only [Option.mem_def, Option.some.injEq] at hq
        subst hq
        exact (List.pairwise_cons.1 hs).1 y hy)
      (List.pairwise_cons.1 hs).2 (List.nodup_cons.1 hnd).2 x
    rw [loneElements, List.mem_append, ih]
    by_cases hxa : x = a
    · subst hxa
      have hx1 : ∀ (P : Prop), (x ∈ rest ∧ P) ↔ False := fun P => ⟨fun e => har e.1, False.elim⟩
      rw [hx1, or_false]
      constructor
      · intro hm
        split at hm
        · rename_i hc
          simp only [Bool.and_eq_true] at hc
          refine ⟨List.mem_cons_self _ _, ?_, ?_⟩
          · intro q hq
            have := hc.1
            simp only [Option.mem_def] at hq
            subst hq
            simpa using this
          · intro y hy hyx
            rcases List.mem_cons.1 hy with rfl | hy'
            · exact absurd rfl hyx
            · exact differs_all_of_head hs hc.2 y hy'
        · simp at hm
      · rintro ⟨-, h1, h2⟩
        have c1 : p.all (fun q => differs val q x) = true := by
          cases p with
          | none => rfl
          | some q => simpa using h1 q rfl
        have c2 : rest.head?.all (fun y => differs val x y) = true := by
          cases rest with
          | nil => rfl
          | cons b r =>
            have hb : b ≠ x := fun e => har (by simp [e])
            simpa using h2 b (by simp) hb
        simp [c1, c2]
    · have hx1 : x ∉ (if (p.all (fun q => differs val q a) &&
          rest.head?.all (fun y => differs val a y)) = true then [a] else []) := by
        split <;> simp [hxa]
      constructor
      · rintro (hm | ⟨hxr, h1, h2⟩)
        · exact absurd hm hx1
        · have hax : differs val a x = true := h1 a rfl
          refine ⟨List.mem_cons_of_mem _ hxr, ?_, ?_⟩
          · intro q hq
            by_contra hne
            have hqx : differs val q x = false := by simpa using hne
            obtain ⟨-, hxq⟩ := (differs_false_iff val q x).1 hqx
            have hqa : le val q a = true := hp q hq a (List.mem_cons_self _ _)
            have hxa' : le val x a = true := le_trans val x q a hxq hqa
            have hax' : le val a x = true := (List.pairwise_cons.1 hs).1 x hxr
            have := (differs_false_iff val a x).2 ⟨hax', hxa'⟩
            rw [this] at hax
            exact absurd hax (by simp)
          · intro y hy hyx
            rcases List.mem_cons.1 hy with rfl | hy'
            · rw [differs_comm]; exact hax
            · exact h2 y hy' hyx
      · rintro ⟨hxm, h1, h2⟩
        right
        have hxr : x ∈ rest := by
          rcases List.mem_cons.1 hxm with e | e
          · exact absurd e hxa
          · exact e
        refine ⟨hxr, ?_, ?_⟩
        · intro q hq
          simp only [Option.mem_def, Option.some.injEq] at hq
          subst hq
          rw [differs_comm]
          exact h2 a (List.mem_cons_self _ _) (fun e => hxa e.symm)
        · intro y hy hyx
          exact h2 y (List.mem_cons_of_mem _ hy) hyx

/-! ## The bounded copy of q_remove_head and q_remove_tail -/

/-- The mask expression `a ^ ((a ^ b) & -(cond))` selects `b` when `cond` holds
and `a` otherwise. -/
theorem mask_select {a b : Nat} (ha : a < 2 ^ 64) (hb : b < 2 ^ 64) (cond : Bool) :
    a ^^^ ((a ^^^ b) &&& negMask 64 cond) = if cond then b else a := by
  cases cond
  · simp [negMask]
  · simp only [negMask, if_true]
    rw [Nat.and_pow_two_sub_one_of_lt_two_pow (Nat.xor_lt_two_pow ha hb), ← Nat.xor_assoc,
      Nat.xor_self, Nat.zero_xor]

theorem bufsizeMinusOne_eq {bufsize : Nat} (h1 : 1 ≤ bufsize) (h2 : bufsize < 2 ^ 64) :
    bufsizeMinusOne bufsize = bufsize - 1 := by
  unfold bufsizeMinusOne
  omega

/-- The length computed for the copy is `min(strlen(value), bufsize - 1)`. -/
theorem copyLen_eq_min {bufsize : Nat} (h1 : 1 ≤ bufsize) (h2 : bufsize < 2 ^ 64)
    (value : List Nat) : copyLen bufsize value = min (strlen value) (bufsize - 1) := by
  have hs : strlen value < 2 ^ 64 := Nat.mod_lt _ (by norm_num)
  unfold copyLen
  rw [bufsizeMinusOne_eq h1 h2, mask_select (by omega) hs]
  by_cases h : strlen value < bufsize - 1
  · simp [h]; omega
  · simp [h]; omega

theorem toSizeT_small {i : Nat} (hi : i < 2 ^ 31) : toSizeT i = i := by
  unfold toSizeT
  rw [if_pos hi]

theorem toInt_small {i : Nat} (hi : i < 2 ^ 31) : toInt i = (i : Int) := by
  unfold toInt
  rw [if_pos hi]

/-- The index written by pass `i` of the copy loop. -/
theorem writeIndex_small {i len : Nat} (hi : i < 2 ^ 31) (hl : len < 2 ^ 64) :
    toSizeT i ^^^ ((toSizeT i ^^^ len) &&& negMask 64 (decide (toSizeT i > len)))
      = min i len := by
  rw [toSizeT_small hi, mask_select (by omega) hl]
  by_cases h : i > len
  · simp [h]; omega
  · simp [h]; omega

/-- The offset read by pass `i` of the copy loop. -/
theorem readIndex_small {i len : Nat} (hi : i < 2 ^ 31) :
    i &&& negMask 32 (decide (toSizeT i < len)) = if i < len then i else 0 := by
  rw [toSizeT_small hi]
  by_cases h : i < len
  · simp only [h, decide_True, negMask, if_true]
    exact Nat.and_pow_two_sub_one_of_lt_two_pow (by omega)
  · simp [h, negMask]

theorem readByte_natCast (psp : List Nat) (k : Nat) : readByte psp (k : Int) = psp.getD k 0 := by
  simp [readByte]

theorem copyLoop_step {fuel i bufsize len : Nat} {psp : List Nat} {sp : Nat → Nat}
    (hi : i < 2 ^ 31) (hl : len < 2 ^ 64) (hc : i < bufsizeMinusOne bufsize) :
    copyLoop (fuel + 1) i bufsize len psp sp =
      copyLoop fuel (i + 1) bufsize len psp
        (fun x => if x = min i len then psp.getD (if i < len then i else 0) 0 else sp x) := by
  have hr : (if i < len then i else 0) < 2 ^ 31 := by split <;> omega
  rw [copyLoop, writeIndex_small hi hl, readIndex_small hi, toSizeT_small hi, if_pos hc]
  simp only []
  rw [toInt_small hr, Nat.mod_eq_of_lt (by omega), readByte_natCast]

theorem copyLoop_exit {fuel i bufsize len : Nat} {psp : List Nat} {sp : Nat → Nat}
    (hc : ¬ toSizeT i < bufsizeMinusOne bufsize) :
    copyLoop (fuel + 1) i bufsize len psp sp = some sp := by
  rw [copyLoop, if_neg hc]

/-- The copy loop run from counter `i` up to `stop`, the counter value at which
its condition fails (`bufsize - 1`, or `2 ^ 31` where the `int` counter wraps
to a negative value, whichever comes first).  It returns; it has stored byte
`j` of the string at index `j` for every `j` from `i` on below both `stop` and
`len`; and an index that no pass writes keeps its byte. -/
theorem copyLoop_run {bufsize len stop : Nat} {psp : List Nat} (hl : len < 2 ^ 64)
    (hs1 : stop ≤ 2 ^ 31) (hs2 : stop ≤ bufsizeMinusOne bufsize)
    (hs3 : ¬ toSizeT stop < bufsizeMinusOne bufsize) :
    ∀ (d i : Nat) (sp : Nat → Nat) (fuel : Nat), i + d = stop → d < fuel →
      ∃ sp', copyLoop fuel i bufsize len psp sp = some sp' ∧
        (∀ j, i ≤ j → j < stop → j < len → sp' j = psp.getD j 0) ∧
        (∀ x, (∀ j, i ≤ j → j < stop → min j len ≠ x) → sp' x = sp x) := by
  intro d
  induction d with
  | zero =>
    intro i sp fuel hid hf
    obtain ⟨f, rfl⟩ := Nat.exists_eq_succ_of_ne_zero (Nat.ne_of_gt hf)
    have : i = stop := by omega
    subst this
    exact ⟨sp, copyLoop_exit hs3, fun j h1 h2 => by omega, fun _ _ => rfl⟩
  | succ d ih =>
    intro i sp fuel hid hf
    obtain ⟨f, rfl⟩ := Nat.exists_eq_succ_of_ne_zero (Nat.ne_of_gt (Nat.zero_lt_of_lt hf))
    have hi : i < 2 ^ 31 := by omega
    have hc : i < bufsizeMinusOne bufsize := by omega
    obtain ⟨sp', e, p1, p2⟩ := ih (i + 1)
      (fun x => if x = min i len then psp.getD (if i < len then i else 0) 0 else sp x) f
      (by omega) (by omega)
    refine ⟨sp', by rw [copyLoop_step hi hl hc]; exact e, ?_, ?_⟩
    · intro j h1 h2 h3
      by_cases hji : j = i
      · subst hji
        rw [p2 j (fun k hk1 hk2 => by omega)]
        have : j = min j len := by omega
        simp only [← this, if_true, h3]
      · exact p1 j (by omega) h2 h3
    · intro x hx
      rw [p2 x (fun j h1 h2 => hx j (by omega) h2)]
      have := hx i (Nat.le_refl _) (by omega)
      simp only [if_neg (Ne.symm this)]

theorem getD_cstr (s : List Nat) {j : Nat} (hj : j < (cstr s).length) :
    (cstr s).getD j 0 = s.getD j 0 := by
  induction s generalizing j with
  | nil => simp [cstr] at hj
  | cons a s ih =>
    rw [cstr_cons] at hj ⊢
    by_cases ha : a = 0
    · simp [ha] at hj
    · simp only [ha, if_false, List.length_cons] at hj ⊢
      cases j with
      | zero => simp
      | succ j => simpa using ih (by omega)

/-- The block `if (sp != NULL) { ... }` for a capacity within the range of the
`int` loop counter: the buffer receives the first `min(strlen, bufsize - 1)`
bytes of the string and a `0` after them, and keeps every byte behind that. -/
theorem copyOut_spec {bufsize fuel : Nat} (value : List Nat) (buf : Nat → Nat)
    (h1 : 1 ≤ bufsize) (h2 : bufsize ≤ 2 ^ 31) (hlen : (cstr value).length < 2 ^ 64)
    (hf : bufsize ≤ fuel) :
    ∃ buf', copyOut fuel value (some buf) bufsize = some (some buf') ∧
      (∀ j, j < min (cstr value).length (bufsize - 1) → buf' j = (cstr value).getD j 0) ∧
      buf' (min (cstr value).length (bufsize - 1)) = 0 ∧
      ∀ x, min (cstr value).length (bufsize - 1) < x → buf' x = buf x := by
  have hb : bufsizeMinusOne bufsize = bufsize - 1 := bufsizeMinusOne_eq h1 (by omega)
  have hsl : strlen value = (cstr value).length := Nat.mod_eq_of_lt hlen
  have hL : copyLen bufsize value = min (cstr value).length (bufsize - 1) := by
    rw [copyLen_eq_min h1 (by omega), hsl]
  obtain ⟨sp', e, p1, p2⟩ := @copyLoop_run bufsize
    (min (cstr value).length (bufsize - 1)) (bufsize - 1) value
    (by omega) (by omega) (by omega)
    (by rw [hb, toSizeT_small (by omega)]; omega) (bufsize - 1) 0 buf fuel (by omega) (by omega)
  refine ⟨fun x => if x = min (cstr value).length (bufsize - 1) then 0 else sp' x, ?_, ?_, ?_,
    ?_⟩
  · simp only [copyOut, hL, e]
  · intro j hj
    have hne : j ≠ min (cstr value).length (bufsize - 1) := by omega
    simp only [if_neg hne]
    rw [p1 j (Nat.zero_le _) (by omega) hj, getD_cstr value (by omega)]
  · simp
  · intro x hx
    have hne : x ≠ min (cstr value).length (bufsize - 1) := by omega
    simp only [if_neg hne]
    exact p2 x (fun j _ _ => by omega)

/-! ## q_remove_head and q_remove_tail -/

theorem q_remove_head_spec {h : Heap} {head x : Nat} {rest : List Nat}
    (q : IsQueue h head (x :: rest)) (fuel : Nat) (sp : Option (Nat → Nat)) (bufsize : Nat) :
    q_remove_head fuel h head sp bufsize =
        (copyOut fuel (h.value x) sp bufsize).map (fun sp' => (list_del_init h x, x, sp')) ∧
      IsQueue (list_del_init h x) head rest := by
  have enx : h.next head = x := by simpa using q.next_head
  constructor
  · simp only [q_remove_head, q.head_ne_zero, q.list_empty_eq, reduceCtorEq, decide_False,
      Bool.or_self, Bool.false_eq_true, if_false, enx, list_del_init_value]
    cases copyOut fuel (h.value x) sp bufsize <;> rfl
  · exact @IsQueue.list_del_init h head x [] rest q

theorem q_remove_tail_spec {h : Heap} {head z : Nat} {init : List Nat}
    (q : IsQueue h head (init ++ [z])) (fuel : Nat) (sp : Option (Nat → Nat)) (bufsize : Nat) :
    q_remove_tail fuel h head sp bufsize =
        (copyOut fuel (h.value z) sp bufsize).map (fun sp' => (list_del_init h z, z, sp')) ∧
      IsQueue (list_del_init h z) head init := by
  have epv : h.prev head = z := by simpa using q.prev_head
  constructor
  · simp only [q_remove_tail, q.head_ne_zero, q.list_empty_eq, List.append_eq_nil,
      List.cons_ne_self, and_false, decide_False, Bool.or_self, Bool.false_eq_true, if_false,
      epv, list_del_init_value]
    cases copyOut fuel (h.value z) sp bufsize <;> rfl
  · simpa using @IsQueue.list_del_init h head z init [] q

theorem q_remove_head_null (h : Heap) (fuel : Nat) (sp : Option (Nat → Nat)) (bufsize : Nat) :
    q_remove_head fuel h 0 sp bufsize = some (h, 0, sp) := by
  simp [q_remove_head]

theorem q_remove_tail_null (h : Heap) (fuel : Nat) (sp : Option (Nat → Nat)) (bufsize : Nat) :
    q_remove_tail fuel h 0 sp bufsize = some (h, 0, sp) := by
  simp [q_remove_tail]

theorem q_remove_head_empty {h : Heap} {head : Nat} (q : IsQueue h head []) (fuel : Nat)
    (sp : Option (Nat → Nat)) (bufsize : Nat) :
    q_remove_head fuel h head sp bufsize = some (h, 0, sp) := by
  simp [q_remove_head, q.list_empty_eq]

theorem q_remove_tail_empty {h : Heap} {head : Nat} (q : IsQueue h head []) (fuel : Nat)
    (sp : Option (Nat → Nat)) (bufsize : Nat) :
    q_remove_tail fuel h head sp bufsize = some (h, 0, sp) := by
  simp [q_remove_tail, q.list_empty_eq]

/-- Both remove functions with a capacity `bufsize` from `1` to `2 ^ 31`, where
the `int` counter of the copy loop stays in range: the first element (the last
one for `q_remove_tail`) is returned with its payload unchanged, and the buffer
holds the first `L = min(strlen(payload), bufsize - 1)` bytes of that payload
followed by a `0` at index `L`. -/
theorem q_remove_copies_in_range (h : Heap) (head : Nat) (l : List Nat) (buf : Nat → Nat)
    (bufsize fuel : Nat) (q : IsQueue h head l) (hl : l ≠ []) (h1 : 1 ≤ bufsize)
    (h2 : bufsize ≤ 2 ^ 31) (hlen : ∀ x ∈ l, (payload h x).length < 2 ^ 64)
    (hf : bufsize ≤ fuel) :
    (∃ h' buf', q_remove_head fuel h head (some buf) bufsize
          = some (h', l.headD head, some buf') ∧
        h'.value = h.value ∧
        (∀ j, j < min (payload h (l.headD head)).length (bufsize - 1) →
          buf' j = (payload h (l.headD head)).getD j 0) ∧
        buf' (min (payload h (l.headD head)).length (bufsize - 1)) = 0) ∧
      ∃ h' buf', q_remove_tail fuel h head (some buf) bufsize
          = some (h', l.getLastD head, some buf') ∧
        h'.value = h.value ∧
        (∀ j, j < min (payload h (l.getLastD head)).length (bufsize - 1) →
          buf' j = (payload h (l.getLastD head)).getD j 0) ∧
        buf' (min (payload h (l.getLastD head)).length (bufsize - 1)) = 0 := by
  constructor
  · obtain ⟨x, rest, rfl⟩ := List.exists_cons_of_ne_nil hl
    obtain ⟨buf', e, p1, p2, -⟩ := copyOut_spec (h.value x) buf h1 h2
      (hlen x (List.mem_cons_self _ _)) hf
    refine ⟨list_del_init h x, buf', ?_, rfl, p1, p2⟩
    rw [(q_remove_head_spec q fuel (some buf) bufsize).1, e]
    rfl
  · rcases eq_nil_or_snoc l with rfl | ⟨init, z, rfl⟩
    · exact absurd rfl hl
    · obtain ⟨buf', e, p1, p2, -⟩ := copyOut_spec (h.value z) buf h1 h2
        (hlen z (by simp)) hf
      refine ⟨list_del_init h z, buf', ?_, rfl, ?_, ?_⟩
      · rw [(q_remove_tail_spec q fuel (some buf) bufsize).1, e, List.getLastD_concat]
        rfl
      · rw [List.getLastD_concat]; exact p1
      · rw [List.getLastD_concat]; exact p2

theorem q_remove_copies_in_range_witness :
    IsQueue helloQueue 1 [2] ∧ payload helloQueue 2 = [104, 101, 108, 108, 111] ∧
      ∃ h' buf', q_remove_head 3 helloQueue 1 (some (fun _ => 7)) 3 = some (h', 2, some buf') ∧
        h'.value = helloQueue.value ∧
        (∀ j, j < min (payload helloQueue 2).length (3 - 1) →
          buf' j = (payload helloQueue 2).getD j 0) ∧
        buf' (min (payload helloQueue 2).length (3 - 1)) = 0 :=
  ⟨by decide, by decide,
    (q_remove_copies_in_range helloQueue 1 [2] (fun _ => 7) 3 3 (by decide) (by decide)
      (by decide) (by decide) (by decide) (by decide)).1⟩

/-! ## The claims -/

/-- Claim C1. On a well-formed queue `q_sort` returns, and in the queue it
leaves every element is followed by one whose payload is not smaller under
`strcmp`. -/
theorem q_sort_ascending (h : Heap) (head : Nat) (l : List Nat) (fuel : Nat)
    (q : IsQueue h head l) (hf : l.length < fuel) :
    ∃ h' l', q_sort fuel h head = some h' ∧ IsQueue h' head l' ∧
      l'.Chain' (fun a b => strcmp (h'.value a) (h'.value b) ≤ 0) := by
  obtain ⟨h', e, q', hv, -⟩ := q_sort_spec q hf
  refine ⟨h', _, e, q', ?_⟩
  have := @List.sorted_mergeSort Nat (le h.value) (le_trans h.value) (le_total h.value) l
  rw [hv]
  refine (List.Pairwise.chain' this).imp ?_
  intro a b hab
  simpa [le] using hab

theorem q_sort_ascending_witness :
    IsQueue sampleQueue 1 [2, 3, 4, 5] ∧
      ∃ h' l', q_sort 5 sampleQueue 1 = some h' ∧ IsQueue h' 1 l' ∧
        l'.Chain' (fun a b => strcmp (h'.value a) (h'.value b) ≤ 0) :=
  ⟨by decide, q_sort_ascending sampleQueue 1 [2, 3, 4, 5] 5 (by decide) (by decide)⟩

/-- Claim C2. `q_sort` is a stable permutation: the queue it leaves holds the
same elements (a permutation of the sequence before, hence of the same length,
with unchanged payloads, nothing released), and two elements of equal payload
keep their relative order. -/
theorem q_sort_stable_perm (h : Heap) (head : Nat) (l : List Nat) (fuel : Nat)
    (q : IsQueue h head l) (hf : l.length < fuel) :
    ∃ h' l', q_sort fuel h head = some h' ∧ IsQueue h' head l' ∧ h'.value = h.value ∧
      h'.freed = h.freed ∧ l'.Perm l ∧ l'.length = l.length ∧
      ∀ a b, payload h a = payload h b → [a, b].Sublist l → [a, b].Sublist l' := by
  obtain ⟨h', e, q', hv, hfr⟩ := q_sort_spec q hf
  have perm := List.mergeSort_perm l (le h.value)
  refine ⟨h', _, e, q', hv, hfr, perm, perm.length_eq, ?_⟩
  intro a b hab hsub
  refine List.pair_sublist_mergeSort (le_trans h.value) (le_total h.value) ?_ hsub
  have : strcmp (h.value a) (h.value b) = 0 := (strcmp_eq_zero_iff _ _).2 hab
  simp [le, this]

theorem q_sort_stable_perm_witness :
    IsQueue sampleQueue 1 [2, 3, 4, 5] ∧
      ∃ h' l', q_sort 5 sampleQueue 1 = some h' ∧ IsQueue h' 1 l' ∧
        h'.value = sampleQueue.value ∧ h'.freed = sampleQueue.freed ∧ l'.Perm [2, 3, 4, 5] ∧
        l'.length = [2, 3, 4, 5].length ∧
        ∀ a b, payload sampleQueue a = payload sampleQueue b → [a, b].Sublist [2, 3, 4, 5] →
          [a, b].Sublist l' :=
  ⟨by decide, q_sort_stable_perm sampleQueue 1 [2, 3, 4, 5] 5 (by decide) (by decide)⟩

/-- Claim C3. `q_sort` is idempotent: it leaves the element order of a queue
whose payloads are already ascending unchanged, and on any queue a second
`q_sort` leaves the order the first one produced. -/
theorem q_sort_idempotent (h : Heap) (head : Nat) (l : List Nat) (fuel : Nat)
    (q : IsQueue h head l) (hf : l.length < fuel) :
    (l.Chain' (fun a b => strcmp (h.value a) (h.value b) ≤ 0) →
        ∃ h', q_sort fuel h head = some h' ∧ IsQueue h' head l) ∧
      ∃ h1 h2 l1, q_sort fuel h head = some h1 ∧ IsQueue h1 head l1 ∧
        q_sort fuel h1 head = some h2 ∧ IsQueue h2 head l1 := by
  have key : ∀ (h : Heap) (l : List Nat), IsQueue h head l → l.length < fuel →
      l.Pairwise (fun a b => le h.value a b = true) →
      ∃ h', q_sort fuel h head = some h' ∧ IsQueue h' head l := by
    intro h l q hf hs
    obtain ⟨h', e, q', -, -⟩ := q_sort_spec q hf
    rw [List.mergeSort_of_sorted hs] at q'
    exact ⟨h', e, q'⟩
  constructor
  · intro hs
    refine key h l q hf ?_
    haveI : IsTrans Nat (fun a b => le h.value a b = true) := ⟨le_trans h.value⟩
    refine List.chain'_iff_pairwise.1 (hs.imp ?_)
    intro a b hab
    simpa [le] using hab
  · obtain ⟨h1, e1, q1, hv, -⟩ := q_sort_spec q hf
    have perm := List.mergeSort_perm l (le h.value)
    have hs := @List.sorted_mergeSort Nat (le h.value) (le_trans h.value) (le_total h.value) l
    obtain ⟨h2, e2, q2⟩ := key h1 _ q1 (by rw [perm.length_eq]; exact hf) (by rw [hv]; exact hs)
    exact ⟨h1, h2, _, e1, q1, e2, q2⟩

theorem q_sort_idempotent_witness :
    IsQueue sortedQueue 1 [2, 3, 4] ∧
      List.Chain' (fun a b => strcmp (sortedQueue.value a) (sortedQueue.value b) ≤ 0)
        [2, 3, 4] ∧
      (∃ h', q_sort 4 sortedQueue 1 = some h' ∧ IsQueue h' 1 [2, 3, 4]) ∧
      ∃ h1 h2 l1, q_sort 4 sortedQueue 1 = some h1 ∧ IsQueue h1 1 l1 ∧
        q_sort 4 h1 1 = some h2 ∧ IsQueue h2 1 l1 :=
  have hs : List.Chain' (fun a b => strcmp (sortedQueue.value a) (sortedQueue.value b) ≤ 0)
      [2, 3, 4] :=
    List.Chain'.cons (by decide) (List.Chain'.cons (by decide) (List.chain'_singleton _))
  ⟨by decide, hs,
    (q_sort_idempotent sortedQueue 1 [2, 3, 4] 4 (by decide) (by decide)).1 hs,
    (q_sort_idempotent sortedQueue 1 [2, 3, 4] 4 (by decide) (by decide)).2⟩

/-- Claim C4. On a well-formed queue (sorted or not) `q_delete_dup` returns
true and leaves, in their original order, exactly the elements whose payload
differs from the payload of both neighbours: every element of a run of two or
more equal payloads is deleted, every other one survives. -/
theorem q_delete_dup_lone (h : Heap) (head : Nat) (l : List Nat) (fuel : Nat)
    (q : IsQueue h head l) (hf : l.length < fuel) :
    ∃ h', q_delete_dup fuel h head = some (h', true) ∧
      IsQueue h' head (loneElements h.value none l) ∧ h'.value = h.value ∧
      (loneElements h.value none l).Sublist l := by
  obtain ⟨h', e, q', hv⟩ := q_delete_dup_spec q hf
  exact ⟨h', e, q', hv, loneElements_sublist _ _ _⟩

theorem q_delete_dup_lone_witness :
    IsQueue sortedQueue 1 [2, 3, 4] ∧ loneElements sortedQueue.value none [2, 3, 4] = [4] ∧
      ∃ h', q_delete_dup 4 sortedQueue 1 = some (h', true) ∧
        IsQueue h' 1 (loneElements sortedQueue.value none [2, 3, 4]) ∧
        h'.value = sortedQueue.value ∧
        (loneElements sortedQueue.value none [2, 3, 4]).Sublist [2, 3, 4] :=
  ⟨by decide, by decide,
    q_delete_dup_lone sortedQueue 1 [2, 3, 4] 4 (by decide) (by decide)⟩

/-- Claim C5. `q_sort` followed by `q_delete_dup` leaves exactly the elements
whose payload no other element of the queue shares, each once, in strictly
ascending order of payload. -/
theorem q_sort_delete_dup_unique (h : Heap) (head : Nat) (l : List Nat) (fuel : Nat)
    (q : IsQueue h head l) (hf : l.length < fuel) :
    ∃ h1 h2 r, q_sort fuel h head = some h1 ∧ q_delete_dup fuel h1 head = some (h2, true) ∧
      IsQueue h2 head r ∧ h2.value = h.value ∧
      (∀ x, x ∈ r ↔ x ∈ l ∧ ∀ y ∈ l, payload h y = payload h x → y = x) ∧
      r.Pairwise (fun a b => strcmp (h.value a) (h.value b) < 0) := by
  obtain ⟨h1, e1, q1, hv1, -⟩ := q_sort_spec q hf
  have perm := List.mergeSort_perm l (le h.value)
  have hs := @List.sorted_mergeSort Nat (le h.value) (le_trans h.value) (le_total h.value) l
  obtain ⟨h2, e2, q2, hv2⟩ := q_delete_dup_spec q1 (by rw [perm.length_eq]; exact hf)
  rw [hv1] at q2
  have hnd : (l.mergeSort (le h.value)).Nodup := (List.nodup_cons.1 q1.nodup).2
  have hmem := @mem_loneElements_iff h.value (l.mergeSort (le h.value)) none
    (fun q hq => by simp at hq) hs hnd
  refine ⟨h1, h2, _, e1, e2, q2, by rw [hv2, hv1], ?_, ?_⟩
  · intro x
    rw [hmem x, perm.mem_iff]
    constructor
    · rintro ⟨hx, -, hall⟩
      refine ⟨hx, ?_⟩
      intro y hy hyx
      by_contra hne
      have := hall y (perm.mem_iff.2 hy) hne
      rw [differs_iff_payload] at this
      exact this hyx.symm
    · rintro ⟨hx, hall⟩
      refine ⟨hx, fun q hq => by simp at hq, ?_⟩
      intro y hy hne
      rw [differs_iff_payload]
      intro hxy
      exact hne (hall y (perm.mem_iff.1 hy) hxy.symm)
  · have hsub := loneElements_sublist h.value (l.mergeSort (le h.value)) none
    have hnd' := hnd.sublist hsub
    have hp : (loneElements h.value none (l.mergeSort (le h.value))).Pairwise
        (fun a b => le h.value a b = true ∧ a ≠ b) :=
      (hs.sublist hsub).and hnd'
    refine (List.Pairwise.and_mem.1 hp).imp ?_
    rintro a b ⟨ha, hb, hle, hab⟩
    have hd := ((hmem a).1 ha).2.2 b (hsub.subset hb) (fun e => hab e.symm)
    have hne : strcmp (h.value a) (h.value b) ≠ 0 := by
      intro e
      rw [strcmp_eq_zero_iff_differs] at e
      rw [e] at hd
      exact absurd hd (by simp)
    have hle' : strcmp (h.value a) (h.value b) ≤ 0 := by simpa [le] using hle
    omega

theorem q_sort_delete_dup_unique_witness :
    IsQueue sampleQueue 1 [2, 3, 4, 5] ∧
      ∃ h1 h2 r, q_sort 5 sampleQueue 1 = some h1 ∧
        q_delete_dup 5 h1 1 = some (h2, true) ∧ IsQueue h2 1 r ∧
        h2.value = sampleQueue.value ∧
        (∀ x, x ∈ r ↔ x ∈ [2, 3, 4, 5] ∧
          ∀ y ∈ [2, 3, 4, 5], payload sampleQueue y = payload sampleQueue x → y = x) ∧
        r.Pairwise (fun a b => strcmp (sampleQueue.value a) (sampleQueue.value b) < 0) :=
  ⟨by decide, q_sort_delete_dup_unique sampleQueue 1 [2, 3, 4, 5] 5 (by decide) (by decide)⟩

/-- Claim C6. On a queue of `n >= 1` elements `q_delete_mid` returns true and
removes exactly the element at index `n / 2`, the others keeping their order
(and their payloads); on an empty or a null queue it returns false and changes
nothing. -/
theorem q_delete_mid_middle (h : Heap) (head : Nat) (l : List Nat) (fuel : Nat)
    (q : IsQueue h head l) (hf : l.length < fuel) :
    (l ≠ [] → ∃ h', q_delete_mid fuel h head = some (h', true) ∧
        IsQueue h' head (l.eraseIdx (l.length / 2)) ∧ h'.value = h.value ∧
        h'.freed = l.getD (l.length / 2) head :: h.freed) ∧
      (l = [] → q_delete_mid fuel h head = some (h, false)) ∧
      q_delete_mid fuel h 0 = some (h, false) := by
  refine ⟨fun hl => q_delete_mid_spec q hl hf, ?_, q_delete_mid_null h fuel⟩
  intro hl
  subst hl
  exact q_delete_mid_empty q fuel

theorem q_delete_mid_middle_witness :
    IsQueue sixQueue 1 [2, 3, 4, 5, 6, 7] ∧
      ∃ h', q_delete_mid 7 sixQueue 1 = some (h', true) ∧ IsQueue h' 1 [2, 3, 4, 6, 7] ∧
        h'.value = sixQueue.value ∧ h'.freed = 5 :: sixQueue.freed :=
  ⟨by decide,
    (q_delete_mid_middle sixQueue 1 [2, 3, 4, 5, 6, 7] 7 (by decide) (by decide)).1
      (by decide)⟩

/-- Claim C7. On a well-formed queue `q_reverse` leaves the exact reverse of
the sequence before the call: the same elements, the one at index `i` now at
index `n - 1 - i`, no payload changed, nothing released; on a null or an empty
queue it changes nothing. -/
theorem q_reverse_reverses (h : Heap) (head : Nat) (l : List Nat) (fuel : Nat)
    (q : IsQueue h head l) (hf : l.length < fuel) :
    (∃ h', q_reverse fuel h head = some h' ∧ IsQueue h' head l.reverse ∧
        h'.value = h.value ∧ h'.freed = h.freed ∧
        ∀ i, i < l.length → l.reverse[l.length - 1 - i]? = l[i]?) ∧
      (l = [] → q_reverse fuel h head = some h) ∧ q_reverse fuel h 0 = some h := by
  obtain ⟨h', e, q', hv, hfr⟩ := q_reverse_spec q hf
  refine ⟨⟨h', e, q', hv, hfr, ?_⟩, ?_, by simp [q_reverse]⟩
  · intro i hi
    rw [List.getElem?_reverse (by omega)]
    congr 1
    omega
  · intro hl
    subst hl
    simp [q_reverse, q.list_empty_eq]

theorem q_reverse_reverses_witness :
    IsQueue sampleQueue 1 [2, 3, 4, 5] ∧
      ∃ h', q_reverse 5 sampleQueue 1 = some h' ∧ IsQueue h' 1 [5, 4, 3, 2] ∧
        h'.value = sampleQueue.value ∧ h'.freed = sampleQueue.freed ∧
        ∀ i, i < 4 → [5, 4, 3, 2][4 - 1 - i]? = [2, 3, 4, 5][i]? :=
  ⟨by decide, (q_reverse_reverses sampleQueue 1 [2, 3, 4, 5] 5 (by decide) (by decide)).1⟩

/-- Claim C8. `q_reverse` is an involution: applied twice to a well-formed
queue of any size it restores the original element order. -/
theorem q_reverse_involution (h : Heap) (head : Nat) (l : List Nat) (fuel : Nat)
    (q : IsQueue h head l) (hf : l.length < fuel) :
    ∃ h1 h2, q_reverse fuel h head = some h1 ∧ q_reverse fuel h1 head = some h2 ∧
      IsQueue h2 head l ∧ h2.value = h.value := by
  obtain ⟨h1, e1, q1, hv1, -⟩ := q_reverse_spec q hf
  obtain ⟨h2, e2, q2, hv2, -⟩ := q_reverse_spec q1 (by simpa using hf)
  exact ⟨h1, h2, e1, e2, by simpa using q2, by rw [hv2, hv1]⟩

theorem q_reverse_involution_witness :
    IsQueue sampleQueue 1 [2, 3, 4, 5] ∧
      ∃ h1 h2, q_reverse 5 sampleQueue 1 = some h1 ∧ q_reverse 5 h1 1 = some h2 ∧
        IsQueue h2 1 [2, 3, 4, 5] ∧ h2.value = sampleQueue.value :=
  ⟨by decide, q_reverse_involution sampleQueue 1 [2, 3, 4, 5] 5 (by decide) (by decide)⟩

/-- Claim C9. On a well-formed queue of `n` elements `q_swap` exchanges the
elements at positions `2k` and `2k + 1` for every `k` with `2k + 1 < n` and
leaves an unpaired last element in place; the queue holds the same elements
as before. -/
theorem q_swap_pairs (h : Heap) (head : Nat) (l : List Nat) (fuel : Nat)
    (q : IsQueue h head l) (hf : l.length < fuel) :
    ∃ h', q_swap fuel h head = some h' ∧ IsQueue h' head (swapPairs l) ∧
      h'.value = h.value ∧ h'.freed = h.freed ∧ (swapPairs l).length = l.length ∧
      (swapPairs l).Perm l ∧
      (∀ k, 2 * k + 1 < l.length →
        (swapPairs l)[2 * k]? = l[2 * k + 1]? ∧ (swapPairs l)[2 * k + 1]? = l[2 * k]?) ∧
      (l.length % 2 = 1 → (swapPairs l)[l.length - 1]? = l[l.length - 1]?) := by
  obtain ⟨h', e, q', hv, hfr⟩ := q_swap_spec q hf
  exact ⟨h', e, q', hv, hfr, swapPairs_length l, swapPairs_perm l, swapPairs_pair l,
    swapPairs_last l⟩

theorem q_swap_pairs_witness :
    IsQueue fiveQueue 1 [2, 3, 4, 5, 6] ∧
      ∃ h', q_swap 6 fiveQueue 1 = some h' ∧ IsQueue h' 1 [3, 2, 5, 4, 6] ∧
        h'.value = fiveQueue.value ∧ h'.freed = fiveQueue.freed :=
  ⟨by decide,
    match q_swap_pairs fiveQueue 1 [2, 3, 4, 5, 6] 6 (by decide) (by decide) with
    | ⟨h', e, q', hv, hfr, _⟩ => ⟨h', e, q', hv, hfr⟩⟩

/-! ## A payload longer than the `int` loop counter can count -/

theorem longPayload_length : longPayload.length = 2 ^ 31 + 1 := List.length_replicate _ _

theorem cstr_longPayload (tail : List Nat) : cstr (longPayload ++ 0 :: tail) = longPayload := by
  unfold cstr
  rw [List.takeWhile_append_of_pos]
  · simp
  · intro b hb
    rw [longPayload, List.mem_replicate] at hb
    simp [hb.2]

theorem cstr_longPayload_self : cstr longPayload = longPayload := by
  unfold cstr
  rw [List.takeWhile_eq_self_iff]
  intro b hb
  rw [longPayload, List.mem_replicate] at hb
  simp [hb.2]

theorem buildQueue_single_value (s : List Nat) :
    (buildQueue 1 [(2, s)]).value 2 = copyString s := rfl

theorem buildQueue_single_isQueue (s : List Nat) : IsQueue (buildQueue 1 [(2, s)]) 1 [2] := by
  have q : IsQueue (buildQueue 1 [(2, [])]) 1 [2] := by decide
  exact q.frame (fun _ _ => rfl) (fun _ _ => rfl)

theorem take_longPayload : longPayload.take (2 ^ 31 + 1) = longPayload :=
  List.take_of_length_le (Nat.le_of_eq longPayload_length)

theorem strlen_eq (s : List Nat) : strlen s = (cstr s).length % 2 ^ 64 := rfl

theorem copyString_eq (s : List Nat) : copyString s = s.take (strlen s) ++ [0] := rfl

theorem strlen_longPayload : strlen longPayload = 2 ^ 31 + 1 := by
  have hmod : (2 ^ 31 + 1) % 2 ^ 64 = 2 ^ 31 + 1 := Nat.mod_eq_of_lt (by norm_num)
  rw [strlen_eq, cstr_longPayload_self, longPayload_length, hmod]

theorem longQueue_value : longQueue.value 2 = longPayload ++ [0] := by
  rw [longQueue, buildQueue_single_value, copyString_eq, strlen_longPayload, take_longPayload]

theorem payload_longQueue : payload longQueue 2 = longPayload := by
  rw [payload, longQueue_value, cstr_longPayload]

theorem copyOut_some (fuel : Nat) (value : List Nat) (buf : Nat → Nat) (bufsize : Nat) :
    copyOut fuel value (some buf) bufsize =
      (copyLoop fuel 0 bufsize (copyLen bufsize value) value buf).map
        (fun b => some (fun x => if x = copyLen bufsize value then 0 else b x)) := by
  show (match copyLoop fuel 0 bufsize (copyLen bufsize value) value buf with
    | none => none
    | some b => some (some (fun x => if x = copyLen bufsize value then 0 else b x))) = _
  cases copyLoop fuel 0 bufsize (copyLen bufsize value) value buf <;> rfl

/-- The failing input of claim C10.  With a payload of `2 ^ 31 + 1` bytes and a
capacity of `2 ^ 31 + 2`, `q_remove_head` returns the element, yet the byte at
index `2 ^ 31` of the output buffer (below `L = 2 ^ 31 + 1`) is not the byte of
the payload: the `int` counter of the copy loop wraps to a negative value
after `2 ^ 31` passes, which ends the loop before that index is written. -/
theorem q_remove_head_long_payload :
    IsQueue longQueue 1 [2] ∧
      ∃ h' buf', q_remove_head (2 ^ 31 + 1) longQueue 1 (some (fun _ => 0)) (2 ^ 31 + 2)
          = some (h', 2, some buf') ∧
        2 ^ 31 < min (payload longQueue 2).length (2 ^ 31 + 2 - 1) ∧
        (payload longQueue 2).getD (2 ^ 31) 0 = 97 ∧ buf' (2 ^ 31) = 0 := by
  have q : IsQueue longQueue 1 [2] := buildQueue_single_isQueue longPayload
  refine ⟨q, ?_⟩
  have hb : bufsizeMinusOne (2 ^ 31 + 2) = 2 ^ 31 + 1 := by
    rw [bufsizeMinusOne_eq (by norm_num) (by norm_num)]
    norm_num
  have hlen : copyLen (2 ^ 31 + 2) (longQueue.value 2) = 2 ^ 31 + 1 := by
    rw [copyLen_eq_min (by norm_num) (by norm_num), strlen, ← payload, payload_longQueue,
      longPayload_length]
    norm_num
  have hts : ¬ toSizeT (2 ^ 31) < bufsizeMinusOne (2 ^ 31 + 2) := by
    rw [hb]
    unfold toSizeT
    norm_num
  obtain ⟨sp', e, -, p2⟩ := @copyLoop_run (2 ^ 31 + 2) (2 ^ 31 + 1)
    (2 ^ 31) (longQueue.value 2) (by norm_num) (Nat.le_refl _)
    (by rw [hb]; norm_num) hts (2 ^ 31) 0 (fun _ => 0) (2 ^ 31 + 1) (by norm_num)
    (by norm_num)
  have hsp : sp' (2 ^ 31) = 0 := p2 (2 ^ 31) (fun j _ hj => by omega)
  refine ⟨list_del_init longQueue 2, fun x => if x = 2 ^ 31 + 1 then 0 else sp' x, ?_, ?_, ?_,
    ?_⟩
  · rw [(q_remove_head_spec q _ _ _).1, copyOut_some, hlen, e]
    rfl
  · rw [payload_longQueue, longPayload_length]
    norm_num
  · rw [payload_longQueue, longPayload, List.getD_eq_getElem?_getD, List.getElem?_replicate,
      if_pos (by norm_num)]
    rfl
  · show (if 2 ^ 31 = 2 ^ 31 + 1 then 0 else sp' (2 ^ 31)) = 0
    rw [hsp]
    split <;> rfl

/-! ## The copy block returns while the counter stays in range -/

theorem bufsizeMinusOne_lt (bufsize : Nat) : bufsizeMinusOne bufsize < 2 ^ 64 :=
  Nat.mod_lt _ (by norm_num)

theorem copyLen_lt (bufsize : Nat) (value : List Nat) : copyLen bufsize value < 2 ^ 64 := by
  have hb := bufsizeMinusOne_lt bufsize
  have hs : strlen value < 2 ^ 64 := Nat.mod_lt _ (by norm_num)
  unfold copyLen
  rw [mask_select hb hs]
  split
  · exact hs
  · exact hb

/-- With no buffer, or with a capacity from `1` to `2 ^ 31`, where the `int`
counter of the loop never passes `INT_MAX`, the copy block returns. -/
theorem copyOut_returns (value : List Nat) (sp : Option (Nat → Nat)) {bufsize fuel : Nat}
    (hsp : sp = none ∨ (1 ≤ bufsize ∧ bufsize ≤ 2 ^ 31)) (hf : bufsize ≤ fuel) :
    ∃ sp', copyOut fuel value sp bufsize = some sp' := by
  cases sp with
  | none => exact ⟨none, rfl⟩
  | some buf =>
    rcases hsp with hsp | ⟨h1, h2⟩
    · exact absurd hsp (by simp)
    · have hb : bufsizeMinusOne bufsize = bufsize - 1 := bufsizeMinusOne_eq h1 (by omega)
      obtain ⟨sp', e, -⟩ := @copyLoop_run bufsize (copyLen bufsize value) (bufsize - 1) value
        (copyLen_lt bufsize value) (by omega) (by omega)
        (by rw [toSizeT_small (by omega), hb]; omega) (bufsize - 1) 0 buf fuel (by omega)
        (by omega)
      rw [copyOut_some, e]
      exact ⟨_, rfl⟩

theorem copyOut_none (fuel : Nat) (value : List Nat) (bufsize : Nat) :
    copyOut fuel value none bufsize = some none := rfl

/-! ## q_insert_head and q_insert_tail -/

@[simp] theorem setValue_next (h : Heap) (a : Nat) (s : List Nat) :
    (h.setValue a s).next = h.next := rfl
@[simp] theorem setValue_prev (h : Heap) (a : Nat) (s : List Nat) :
    (h.setValue a s).prev = h.prev := rfl
@[simp] theorem setValue_freed (h : Heap) (a : Nat) (s : List Nat) :
    (h.setValue a s).freed = h.freed := rfl
@[simp] theorem setValue_value (h : Heap) (a x : Nat) (s : List Nat) :
    (h.setValue a s).value x = if x = a then s else h.value x := rfl

theorem IsQueue.setValue {h : Heap} {head : Nat} {l : List Nat} (q : IsQueue h head l)
    (a : Nat) (s : List Nat) : IsQueue (h.setValue a s) head l :=
  q.frame (fun _ _ => rfl) (fun _ _ => rfl)

theorem take_cstr_length (s : List Nat) : s.take (cstr s).length = cstr s := by
  induction s with
  | nil => rfl
  | cons a s ih =>
    rw [cstr_cons]
    by_cases ha : a = 0
    · simp [ha]
    · simp [ha, ih]

theorem cstr_append_zero (s tail : List Nat) : cstr (cstr s ++ 0 :: tail) = cstr s := by
  induction s with
  | nil => simp [cstr]
  | cons a s ih =>
    rw [cstr_cons]
    by_cases ha : a = 0
    · simp [ha, cstr]
    · simp only [ha, if_false, List.cons_append]
      rw [cstr_cons, if_neg ha, ih]

/-- The buffer an insert function fills: the bytes of the string and a `0`. -/
theorem copyString_eq_cstr {s : List Nat} (hs : (cstr s).length < 2 ^ 64) :
    copyString s = cstr s ++ [0] := by
  rw [copyString_eq, strlen_eq, Nat.mod_eq_of_lt hs, take_cstr_length]

theorem cstr_copyString {s : List Nat} (hs : (cstr s).length < 2 ^ 64) :
    cstr (copyString s) = cstr s := by
  rw [copyString_eq_cstr hs, cstr_append_zero]

theorem q_insert_head_true {h : Heap} {head elem : Nat} {s : List Nat} {buf : Bool}
    (hs : (q_insert_head h head s elem buf).2 = true) :
    head ≠ 0 ∧ elem ≠ 0 ∧ buf = true ∧
      q_insert_head h head s elem buf
        = (list_add (h.setValue elem (copyString s)) elem head, true) := by
  unfold q_insert_head at hs ⊢
  by_cases h1 : head = 0
  · simp [h1] at hs
  · by_cases h2 : elem = 0
    · simp [h1, h2] at hs
    · cases buf
      · simp [h1, h2] at hs
      · simp [h1, h2]

theorem q_insert_tail_true {h : Heap} {head elem : Nat} {s : List Nat} {buf : Bool}
    (hs : (q_insert_tail h head s elem buf).2 = true) :
    head ≠ 0 ∧ elem ≠ 0 ∧ buf = true ∧
      q_insert_tail h head s elem buf
        = (list_add_tail (h.setValue elem (copyString s)) elem head, true) := by
  unfold q_insert_tail at hs ⊢
  by_cases h1 : head = 0
  · simp [h1] at hs
  · by_cases h2 : elem = 0
    · simp [h1, h2] at hs
    · cases buf
      · simp [h1, h2] at hs
      · simp [h1, h2]

theorem q_insert_head_spec {h : Heap} {head elem : Nat} {l : List Nat} (q : IsQueue h head l)
    (s : List Nat) (he : elem ∉ head :: l) (he0 : elem ≠ 0) :
    IsQueue (list_add (h.setValue elem (copyString s)) elem head) head (elem :: l) := by
  have := @IsQueue.list_add (h.setValue elem (copyString s)) head elem [] l
    (by simpa using q.setValue elem (copyString s)) (by simpa using he) he0
  simpa using this

theorem q_insert_tail_spec {h : Heap} {head elem : Nat} {l : List Nat} (q : IsQueue h head l)
    (s : List Nat) (he : elem ∉ head :: l) (he0 : elem ≠ 0) :
    IsQueue (list_add_tail (h.setValue elem (copyString s)) elem head) head (l ++ [elem]) := by
  have := @IsQueue.list_add_tail (h.setValue elem (copyString s)) head elem l []
    (by simpa using q.setValue elem (copyString s)) (by simpa using he) he0
  simpa using this

theorem q_insert_head_null (h : Heap) (s : List Nat) (elem : Nat) (buf : Bool) :
    q_insert_head h 0 s elem buf = (h, false) := by
  simp [q_insert_head]

theorem q_insert_tail_null (h : Heap) (s : List Nat) (elem : Nat) (buf : Bool) :
    q_insert_tail h 0 s elem buf = (h, false) := by
  simp [q_insert_tail]

/-! ## q_remove_head and q_remove_tail return while the counter stays in range -/

theorem q_remove_head_returns {h : Heap} {head x : Nat} {rest : List Nat}
    (q : IsQueue h head (x :: rest)) (sp : Option (Nat → Nat)) {bufsize fuel : Nat}
    (hsp : sp = none ∨ (1 ≤ bufsize ∧ bufsize ≤ 2 ^ 31)) (hf : bufsize ≤ fuel) :
    ∃ sp', q_remove_head fuel h head sp bufsize = some (list_del_init h x, x, sp') ∧
      IsQueue (list_del_init h x) head rest := by
  obtain ⟨sp', e⟩ := copyOut_returns (h.value x) sp hsp hf
  obtain ⟨e1, q1⟩ := q_remove_head_spec q fuel sp bufsize
  exact ⟨sp', by rw [e1, e]; rfl, q1⟩

theorem q_remove_tail_returns {h : Heap} {head z : Nat} {init : List Nat}
    (q : IsQueue h head (init ++ [z])) (sp : Option (Nat → Nat)) {bufsize fuel : Nat}
    (hsp : sp = none ∨ (1 ≤ bufsize ∧ bufsize ≤ 2 ^ 31)) (hf : bufsize ≤ fuel) :
    ∃ sp', q_remove_tail fuel h head sp bufsize = some (list_del_init h z, z, sp') ∧
      IsQueue (list_del_init h z) head init := by
  obtain ⟨sp', e⟩ := copyOut_returns (h.value z) sp hsp hf
  obtain ⟨e1, q1⟩ := q_remove_tail_spec q fuel sp bufsize
  exact ⟨sp', by rw [e1, e]; rfl, q1⟩

/-! ## q_size -/

theorem q_size_loop_spec {h : Heap} {head : Nat} : ∀ (l2 l1 : List Nat) (size fuel : Nat),
    IsQueue h head (l1 ++ l2) → size < 2 ^ 32 → l2.length < fuel →
    q_size_loop fuel h head (l2.headD head) size = some ((size + l2.length) % 2 ^ 32)
  | [], l1, size, fuel, q, hs, hf => by
    obtain ⟨f, rfl⟩ := Nat.exists_eq_succ_of_ne_zero (Nat.ne_of_gt hf)
    have hm : (size + 0) % 2 ^ 32 = size := Nat.mod_eq_of_lt hs
    simp only [q_size_loop, List.headD_nil, ne_eq, not_true_eq_false, if_false,
      List.length_nil, hm]
  | x :: rest, l1, size, fuel, q, hs, hf => by
    obtain ⟨f, rfl⟩ := Nat.exists_eq_succ_of_ne_zero (Nat.ne_of_gt (Nat.zero_lt_of_lt hf))
    have hxh : x ≠ head := q.ne_head_of_mem (by simp)
    have q' : IsQueue h head ((l1 ++ [x]) ++ rest) := by simpa using q
    have ih := q_size_loop_spec rest (l1 ++ [x]) ((size + 1) % 2 ^ 32) f q'
      (Nat.mod_lt _ (by norm_num)) (by simpa using hf)
    simp only [q_size_loop, List.headD_cons, ne_eq, hxh, not_false_eq_true, if_true, q.next_mid]
    rw [ih]
    congr 1
    simp only [List.length_cons]
    omega

/-- The count `q_size` returns: the number of elements as the `int` it fits in. -/
theorem q_size_spec {h : Heap} {head : Nat} {l : List Nat} (q : IsQueue h head l) {fuel : Nat}
    (hf : l.length < fuel) : q_size fuel h head = some (toInt (l.length % 2 ^ 32)) := by
  cases l with
  | nil =>
    simp [q_size, q.list_empty_eq, toInt]
  | cons x rest =>
    have := q_size_loop_spec (x :: rest) [] 0 fuel (by simpa using q) (by norm_num) hf
    have enx : h.next head = x := by simpa using q.next_head
    simp only [List.headD_cons] at this
    simp only [q_size, q.head_ne_zero, q.list_empty_eq, reduceCtorEq, decide_False, Bool.or_self,
      Bool.false_eq_true, if_false, enx, this, Option.map_some', Nat.zero_add]

theorem q_size_small {h : Heap} {head : Nat} {l : List Nat} (q : IsQueue h head l) {fuel : Nat}
    (hf : l.length < fuel) (hl : l.length < 2 ^ 31) :
    q_size fuel h head = some (l.length : Int) := by
  rw [q_size_spec q hf, Nat.mod_eq_of_lt (by omega), toInt_small hl]

theorem q_size_null (h : Heap) (fuel : Nat) : q_size fuel h 0 = some 0 := by
  simp [q_size]

/-! ## Sequences of inserts -/

theorem IsQueue.init_empty (h : Heap) {head : Nat} (h0 : head ≠ 0) :
    IsQueue (INIT_LIST_HEAD h head) head [] := by
  refine ⟨?_, by simp, by simpa using fun e => h0 e.symm⟩
  simp [Linked, Link]

theorem q_insert_spec {h : Heap} {head : Nat} {l : List Nat} (q : IsQueue h head l)
    {c : InsertCall} (hs : (q_insert h head c).2 = true) (he : c.elem ∉ head :: l) :
    ∃ l', IsQueue (q_insert h head c).1 head l' ∧ l'.length = l.length + 1 ∧
      ∀ x, x ∈ l' ↔ x = c.elem ∨ x ∈ l := by
  unfold q_insert at hs ⊢
  by_cases hc : c.atHead = true
  · simp only [hc, if_true] at hs ⊢
    obtain ⟨-, h2, -, e⟩ := q_insert_head_true hs
    rw [e]
    exact ⟨_, q_insert_head_spec q c.s he h2, by simp, by simp⟩
  · simp only [hc, Bool.false_eq_true, if_false] at hs ⊢
    obtain ⟨-, h2, -, e⟩ := q_insert_tail_true hs
    rw [e]
    exact ⟨_, q_insert_tail_spec q c.s he h2, by simp, fun x => by simp [or_comm]⟩

theorem insertAll_spec {head : Nat} : ∀ (cs : List InsertCall) (h h' : Heap) (l : List Nat),
    IsQueue h head l → insertAll head h cs = some h' → (cs.map InsertCall.elem).Nodup →
    (∀ c ∈ cs, c.elem ∉ head :: l) →
    ∃ l', IsQueue h' head l' ∧ l'.length = l.length + cs.length
  | [], h, h', l, q, hi, _, _ => by
    simp only [insertAll, Option.some.injEq] at hi
    subst hi
    exact ⟨l, q, by simp⟩
  | c :: cs, h, h', l, q, hi, hnd, hfr => by
    rw [insertAll] at hi
    by_cases hs : (q_insert h head c).2 = true
    · rw [if_pos hs] at hi
      obtain ⟨l1, q1, hl1, hm1⟩ := q_insert_spec q hs (hfr c (List.mem_cons_self _ _))
      have hnd' : c.elem ∉ cs.map InsertCall.elem ∧ (cs.map InsertCall.elem).Nodup :=
        List.nodup_cons.1 hnd
      obtain ⟨l', q', hl'⟩ := insertAll_spec cs _ h' l1 q1 hi hnd'.2 (by
        intro c' hc' hm
        rcases List.mem_cons.1 hm with e | hm
        · exact hfr c' (List.mem_cons_of_mem _ hc') (e ▸ List.mem_cons_self _ _)
        · rcases (hm1 _).1 hm with e | hm
          · exact hnd'.1 (e ▸ List.mem_map_of_mem _ hc')
          · exact hfr c' (List.mem_cons_of_mem _ hc') (List.mem_cons_of_mem _ hm))
      exact ⟨l', q', by rw [hl', hl1]; simp; omega⟩
    · rw [if_neg hs] at hi
      exact absurd hi (by simp)

theorem q_insert_succeeds (h : Heap) {head : Nat} (h0 : head ≠ 0) {c : InsertCall}
    (he : c.elem ≠ 0) (hb : c.buf = true) : (q_insert h head c).2 = true := by
  unfold q_insert q_insert_head q_insert_tail
  by_cases hc : c.atHead = true <;> simp [hc, h0, he, hb]

theorem insertAll_succeeds {head : Nat} (h0 : head ≠ 0) : ∀ (cs : List InsertCall) (h : Heap),
    (∀ c ∈ cs, c.elem ≠ 0 ∧ c.buf = true) → ∃ h', insertAll head h cs = some h'
  | [], h, _ => ⟨h, rfl⟩
  | c :: cs, h, hc => by
    have hs := q_insert_succeeds h h0 (hc c (List.mem_cons_self _ _)).1
      (hc c (List.mem_cons_self _ _)).2
    obtain ⟨h', e⟩ := insertAll_succeeds h0 cs (q_insert h head c).1
      (fun c' hc' => hc c' (List.mem_cons_of_mem _ hc'))
    exact ⟨h', by rw [insertAll, if_pos hs]; exact e⟩

theorem insertAll_null : ∀ (cs : List InsertCall) (h h' : Heap),
    insertAll 0 h cs = some h' → cs = [] ∧ h' = h
  | [], h, h', hi => by
    simp only [insertAll, Option.some.injEq] at hi
    exact ⟨rfl, hi.symm⟩
  | c :: cs, h, h', hi => by
    rw [insertAll] at hi
    have : (q_insert h 0 c).2 = false := by
      unfold q_insert
      by_cases hc : c.atHead = true <;> simp [hc, q_insert_head_null, q_insert_tail_null]
    rw [this] at hi
    exact absurd hi (by simp)

/-! ## The claims on insertion, removal and size -/

/-- Claim C11. Round trip: after a successful `q_insert_head` of the string `s`
on a well-formed queue, `q_remove_head` (called with no buffer, or with a
capacity from `1` to `2 ^ 31`, where the `int` counter of its copy loop stays in
range) returns the element just inserted, its payload equal to `s`, and leaves
the queue with the element sequence and payloads it had before the insert. -/
theorem insert_head_remove_head_round_trip (h : Heap) (head : Nat) (l s : List Nat)
    (elem : Nat) (buf : Bool) (sp : Option (Nat → Nat)) (bufsize fuel : Nat)
    (q : IsQueue h head l) (hs : (q_insert_head h head s elem buf).2 = true)
    (he : elem ∉ head :: l) (hlen : (cstr s).length < 2 ^ 64)
    (hsp : sp = none ∨ (1 ≤ bufsize ∧ bufsize ≤ 2 ^ 31)) (hf : bufsize ≤ fuel) :
    ∃ h2 sp', q_remove_head fuel (q_insert_head h head s elem buf).1 head sp bufsize
        = some (h2, elem, sp') ∧
      payload h2 elem = cstr s ∧ IsQueue h2 head l ∧ ∀ x ∈ l, h2.value x = h.value x := by
  obtain ⟨-, he0, -, e⟩ := q_insert_head_true hs
  rw [e]
  have q1 := q_insert_head_spec q s he he0
  obtain ⟨sp', e2, q2⟩ := q_remove_head_returns q1 sp hsp hf
  refine ⟨_, sp', e2, ?_, q2, ?_⟩
  · simp [payload, cstr_copyString hlen]
  · intro x hx
    have : x ≠ elem := fun e => he (e ▸ List.mem_cons_of_mem _ hx)
    simp [this]

theorem insert_head_remove_head_round_trip_witness :
    IsQueue sampleQueue 1 [2, 3, 4, 5] ∧
      ∃ h2 sp', q_remove_head 3 (q_insert_head sampleQueue 1 [120, 121] 9 true).1 1
          (some (fun _ => 7)) 3 = some (h2, 9, sp') ∧
        payload h2 9 = cstr [120, 121] ∧ IsQueue h2 1 [2, 3, 4, 5] ∧
        ∀ x ∈ [2, 3, 4, 5], h2.value x = sampleQueue.value x :=
  ⟨by decide,
    insert_head_remove_head_round_trip sampleQueue 1 [2, 3, 4, 5] [120, 121] 9 true
      (some (fun _ => 7)) 3 3 (by decide) (by decide) (by decide) (by decide)
      (Or.inr ⟨by decide, by decide⟩) (by decide)⟩

/-- Claim C12, amended. After `N` successful inserts (any mix of `q_insert_head`
and `q_insert_tail`, any strings, every element at a fresh address) on a newly
created queue, `q_size` returns `N` as long as `N` is at most `INT_MAX`; it
returns `0` for a null and for an empty queue. -/
theorem q_size_counts_inserts (h0 h : Heap) (head : Nat) (cs : List InsertCall) (fuel : Nat)
    (hi : insertAll head (q_new h0 head).1 cs = some h)
    (hnd : (cs.map InsertCall.elem).Nodup) (hfr : ∀ c ∈ cs, c.elem ≠ head)
    (hN : cs.length < 2 ^ 31) (hf : cs.length < fuel) :
    q_size fuel h head = some (cs.length : Int) ∧ q_size fuel h0 0 = some 0 ∧
      ∀ g, IsQueue g head [] → q_size fuel g head = some 0 := by
  refine ⟨?_, q_size_null h0 fuel, ?_⟩
  · by_cases hh : head = 0
    · subst hh
      obtain ⟨rfl, rfl⟩ := insertAll_null cs _ h hi
      simpa using q_size_null _ fuel
    · have q0 : IsQueue (q_new h0 head).1 head [] := by
        simp only [q_new, ne_eq, hh, not_false_eq_true, if_true]
        exact IsQueue.init_empty h0 hh
      obtain ⟨l', q', hl'⟩ := insertAll_spec cs _ h [] q0 hi hnd
        (fun c hc => by simpa using hfr c hc)
      have hl : l'.length = cs.length := by simpa using hl'
      rw [q_size_small q' (by omega) (by omega), hl]
  · intro g qg
    have := q_size_small qg (Nat.zero_lt_of_lt hf) (by norm_num)
    simpa using this

theorem q_size_counts_inserts_witness :
    insertAll 1 (q_new emptyHeap 1).1 threeCalls = some threeInserted ∧
      (q_size 4 threeInserted 1 = some ((3 : Nat) : Int) ∧ q_size 4 emptyHeap 0 = some 0 ∧
        ∀ g, IsQueue g 1 [] → q_size 4 g 1 = some 0) :=
  ⟨rfl, q_size_counts_inserts emptyHeap threeInserted 1 threeCalls 4 rfl
    (by decide) (by decide) (by decide) (by decide)⟩

/-- Claim C12, the claim as stated fails. After the `2 ^ 31` successful inserts of
`bigCalls` on a new queue, the `int` counter of `q_size` has wrapped: the
function returns `-2 ^ 31`, not the number of inserts. -/
theorem q_size_wraps_past_int_max :
    ∃ h, insertAll 1 (q_new emptyHeap 1).1 bigCalls = some h ∧ bigCalls.length = 2 ^ 31 ∧
      ∀ fuel, 2 ^ 31 < fuel → q_size fuel h 1 = some (-(2 ^ 31 : Int)) := by
  have hlen : bigCalls.length = 2 ^ 31 := by
    rw [bigCalls, List.length_map, List.length_range]
  have hall : ∀ c ∈ bigCalls, c.elem ≠ 0 ∧ c.buf = true ∧ c.elem ≠ 1 := by
    intro c hc
    rw [bigCalls, List.mem_map] at hc
    obtain ⟨i, -, rfl⟩ := hc
    exact ⟨by simp, rfl, by simp⟩
  have hnd : (bigCalls.map InsertCall.elem).Nodup := by
    rw [bigCalls, List.map_map]
    exact (List.nodup_range _).map (fun a b e => by simpa using e)
  obtain ⟨h, hi⟩ := insertAll_succeeds (by decide : (1 : Nat) ≠ 0) bigCalls (q_new emptyHeap 1).1
    (fun c hc => ⟨(hall c hc).1, (hall c hc).2.1⟩)
  have q0 : IsQueue (q_new emptyHeap 1).1 1 [] := IsQueue.init_empty emptyHeap (by decide)
  obtain ⟨l', q', hl'⟩ := insertAll_spec bigCalls _ h [] q0 hi hnd
    (fun c hc => by simpa using (hall c hc).2.2)
  have hl : l'.length = 2 ^ 31 := by rw [hl', hlen]; rfl
  refine ⟨h, hi, hlen, fun fuel hf => ?_⟩
  rw [q_size_spec q' (by omega), hl]
  norm_num [toInt]

/-- Claim C13. On a null or an empty queue `q_remove_head` and `q_remove_tail`
return null and leave heap and buffer unchanged; otherwise, called with no
buffer or with a capacity from `1` to `2 ^ 31` (where the `int` counter of the
copy loop stays in range), `q_remove_head` returns the first element and
`q_remove_tail` the last one, the queue afterwards is the remaining elements in
their original order (one element fewer), and no payload is touched or
released. -/
theorem q_remove_ends (h : Heap) (head : Nat) (l : List Nat) (sp : Option (Nat → Nat))
    (bufsize fuel : Nat) (q : IsQueue h head l)
    (hsp : sp = none ∨ (1 ≤ bufsize ∧ bufsize ≤ 2 ^ 31)) (hf : bufsize ≤ fuel) :
    (q_remove_head fuel h 0 sp bufsize = some (h, 0, sp) ∧
      q_remove_tail fuel h 0 sp bufsize = some (h, 0, sp)) ∧
    (l = [] → q_remove_head fuel h head sp bufsize = some (h, 0, sp) ∧
      q_remove_tail fuel h head sp bufsize = some (h, 0, sp)) ∧
    (∀ x rest, l = x :: rest → ∃ h1 sp1,
      q_remove_head fuel h head sp bufsize = some (h1, x, sp1) ∧ IsQueue h1 head rest ∧
        rest.length + 1 = l.length ∧ h1.value = h.value ∧ h1.freed = h.freed) ∧
    (∀ init z, l = init ++ [z] → ∃ h1 sp1,
      q_remove_tail fuel h head sp bufsize = some (h1, z, sp1) ∧ IsQueue h1 head init ∧
        init.length + 1 = l.length ∧ h1.value = h.value ∧ h1.freed = h.freed) := by
  refine ⟨⟨q_remove_head_null h fuel sp bufsize, q_remove_tail_null h fuel sp bufsize⟩, ?_, ?_, ?_⟩
  · rintro rfl
    exact ⟨q_remove_head_empty q fuel sp bufsize, q_remove_tail_empty q fuel sp bufsize⟩
  · rintro x rest rfl
    obtain ⟨sp1, e, q1⟩ := q_remove_head_returns q sp hsp hf
    exact ⟨_, sp1, e, q1, rfl, rfl, rfl⟩
  · rintro init z rfl
    obtain ⟨sp1, e, q1⟩ := q_remove_tail_returns q sp hsp hf
    exact ⟨_, sp1, e, q1, by simp, rfl, rfl⟩

theorem q_remove_ends_witness :
    IsQueue sampleQueue 1 [2, 3, 4, 5] ∧
    (∀ x rest, [2, 3, 4, 5] = x :: rest → ∃ h1 sp1,
      q_remove_head 3 sampleQueue 1 (some (fun _ => 7)) 3 = some (h1, x, sp1) ∧
        IsQueue h1 1 rest ∧
        rest.length + 1 = [2, 3, 4, 5].length ∧ h1.value = sampleQueue.value ∧
        h1.freed = sampleQueue.freed) ∧
    (∀ init z, [2, 3, 4, 5] = init ++ [z] → ∃ h1 sp1,
      q_remove_tail 3 sampleQueue 1 (some (fun _ => 7)) 3 = some (h1, z, sp1) ∧
        IsQueue h1 1 init ∧
        init.length + 1 = [2, 3, 4, 5].length ∧ h1.value = sampleQueue.value ∧
        h1.freed = sampleQueue.freed) :=
  ⟨by decide,
    (q_remove_ends sampleQueue 1 [2, 3, 4, 5] (some (fun _ => 7)) 3 3 (by decide)
      (Or.inr ⟨by decide, by decide⟩) (by decide)).2.2⟩

/-- Claim C14. On a well-formed queue with element sequence `l`, a successful
`q_insert_head` (both allocations succeed, `elem` being the fresh element)
yields the sequence `elem :: l` and a successful `q_insert_tail` yields
`l ++ [elem]`; the new element owns a buffer holding exactly the bytes of the
string `s` followed by the terminating `0`, the other payloads are untouched;
with a null queue both return false and change nothing. -/
theorem q_insert_places_element (h : Heap) (head : Nat) (l s : List Nat) (elem : Nat)
    (q : IsQueue h head l) (he : elem ∉ head :: l) (he0 : elem ≠ 0)
    (hlen : (cstr s).length < 2 ^ 64) :
    (∃ h1, q_insert_head h head s elem true = (h1, true) ∧ IsQueue h1 head (elem :: l) ∧
      h1.value elem = cstr s ++ [0] ∧ payload h1 elem = cstr s ∧
      (h1.value elem).length = strlen s + 1 ∧ ∀ x, x ≠ elem → h1.value x = h.value x) ∧
    (∃ h1, q_insert_tail h head s elem true = (h1, true) ∧ IsQueue h1 head (l ++ [elem]) ∧
      h1.value elem = cstr s ++ [0] ∧ payload h1 elem = cstr s ∧
      (h1.value elem).length = strlen s + 1 ∧ ∀ x, x ≠ elem → h1.value x = h.value x) ∧
    ∀ buf, q_insert_head h 0 s elem buf = (h, false) ∧
      q_insert_tail h 0 s elem buf = (h, false) := by
  have hsl : strlen s = (cstr s).length := Nat.mod_eq_of_lt hlen
  refine ⟨⟨_, ?_, q_insert_head_spec q s he he0, ?_, ?_, ?_, ?_⟩,
    ⟨_, ?_, q_insert_tail_spec q s he he0, ?_, ?_, ?_, ?_⟩,
    fun buf => ⟨q_insert_head_null h s elem buf, q_insert_tail_null h s elem buf⟩⟩
  · simp [q_insert_head, q.head_ne_zero, he0]
  · simp [copyString_eq_cstr hlen]
  · simp [payload, cstr_copyString hlen]
  · simp [copyString_eq_cstr hlen, hsl]
  · intro x hx
    simp [hx]
  · simp [q_insert_tail, q.head_ne_zero, he0]
  · simp [copyString_eq_cstr hlen]
  · simp [payload, cstr_copyString hlen]
  · simp [copyString_eq_cstr hlen, hsl]
  · intro x hx
    simp [hx]

theorem q_insert_places_element_witness :
    IsQueue sampleQueue 1 [2, 3, 4, 5] ∧
    (∃ h1, q_insert_head sampleQueue 1 [120, 121] 9 true = (h1, true) ∧
      IsQueue h1 1 (9 :: [2, 3, 4, 5]) ∧
      h1.value 9 = cstr [120, 121] ++ [0] ∧ payload h1 9 = cstr [120, 121] ∧
      (h1.value 9).length = strlen [120, 121] + 1 ∧
      ∀ x, x ≠ 9 → h1.value x = sampleQueue.value x) :=
  ⟨by decide,
    (q_insert_places_element sampleQueue 1 [2, 3, 4, 5] [120, 121] 9 (by decide) (by decide)
      (by decide) (by decide)).1⟩

/-! ## The branchless bounded copy -/

theorem copyLoopAccesses_run {bufsize len : Nat} (h1 : 1 ≤ bufsize) (h2 : bufsize ≤ 2 ^ 31)
    (hl : len < 2 ^ 64) :
    ∀ (d i fuel : Nat), i + d = bufsize - 1 → d < fuel →
      ∃ acc, copyLoopAccesses fuel i bufsize len = some acc ∧ acc.length = d ∧
        ∀ a ∈ acc, a.1 ≤ len ∧ a.1 < bufsize - 1 ∧ 0 ≤ a.2 ∧ a.2 ≤ (len : Int) := by
  have hb : bufsizeMinusOne bufsize = bufsize - 1 := bufsizeMinusOne_eq h1 (by omega)
  intro d
  induction d with
  | zero =>
    intro i fuel hid hf
    obtain ⟨f, rfl⟩ := Nat.exists_eq_succ_of_ne_zero (Nat.ne_of_gt hf)
    have hi : i < 2 ^ 31 := by omega
    refine ⟨[], ?_, rfl, by simp⟩
    rw [copyLoopAccesses, toSizeT_small hi, hb, if_neg (by omega)]
  | succ d ih =>
    intro i fuel hid hf
    obtain ⟨f, rfl⟩ := Nat.exists_eq_succ_of_ne_zero (Nat.ne_of_gt (Nat.zero_lt_of_lt hf))
    have hi : i < 2 ^ 31 := by omega
    have hr : (if i < len then i else 0) < 2 ^ 31 := by split <;> omega
    obtain ⟨acc, e, hlen, hacc⟩ := ih (i + 1) f (by omega) (by omega)
    refine ⟨(min i len, ((if i < len then i else 0 : Nat) : Int)) :: acc, ?_, by simp [hlen], ?_⟩
    · rw [copyLoopAccesses, writeIndex_small hi hl, readIndex_small hi, toSizeT_small hi, hb,
        if_pos (by omega)]
      simp only []
      rw [toInt_small hr, Nat.mod_eq_of_lt (by omega), e]
      rfl
    · intro a ha
      rcases List.mem_cons.1 ha with rfl | ha
      · refine ⟨Nat.min_le_right _ _, ?_, Int.natCast_nonneg _, ?_⟩
        · exact lt_of_le_of_lt (Nat.min_le_left _ _) (by omega)
        · split
          · exact Int.ofNat_le.2 (by omega)
          · exact Int.ofNat_le.2 (Nat.zero_le _)
      · exact hacc a ha

/-! ## The claims on the bounded copy -/

/-- Claim C18. For all word-sized unsigned values `c` and `n`, the mask expression
`c ^ ((c ^ n) & -(n < c))` equals `min(n, c)`; hence the copy length computed by
`q_remove_head` and `q_remove_tail` is `min(strlen(payload), bufsize - 1)`, the
subtraction taken in `size_t` arithmetic. -/
theorem mask_expression_is_min (c n : Nat) (hc : c < 2 ^ 64) (hn : n < 2 ^ 64) :
    c ^^^ ((c ^^^ n) &&& negMask 64 (decide (n < c))) = min n c ∧
      ∀ bufsize value,
        copyLen bufsize value = min (strlen value) (bufsizeMinusOne bufsize) := by
  have key : ∀ a b : Nat, a < 2 ^ 64 → b < 2 ^ 64 →
      a ^^^ ((a ^^^ b) &&& negMask 64 (decide (b < a))) = min b a := by
    intro a b ha hb
    rw [mask_select ha hb]
    by_cases h : b < a
    · simp [h]; omega
    · simp [h]; omega
  refine ⟨key c n hc hn, fun bufsize value => ?_⟩
  unfold copyLen
  exact key _ _ (Nat.mod_lt _ (by norm_num)) (Nat.mod_lt _ (by norm_num))

theorem mask_expression_is_min_witness :
    (5 : Nat) < 2 ^ 64 ∧ (3 : Nat) < 2 ^ 64 ∧
      (5 ^^^ ((5 ^^^ 3) &&& negMask 64 (decide (3 < 5))) = min 3 5 ∧
        ∀ bufsize value,
          copyLen bufsize value = min (strlen value) (bufsizeMinusOne bufsize)) :=
  ⟨by decide, by decide, mask_expression_is_min 5 3 (by decide) (by decide)⟩

/-- Claim C19. In the copy loop of `q_remove_head` and `q_remove_tail`, for every
`bufsize` from `1` on with `bufsize - 1` in `int` range and every payload, with
`L = min(strlen(payload), bufsize - 1)`: the loop makes `bufsize - 1` passes,
every index it writes is at most `L`, `L` is at most `bufsize - 1`, every offset
it reads is between `0` and `strlen(payload)`; and after the whole block every
byte of the output buffer at an index greater than `L` is unchanged. -/
theorem copy_loop_accesses_in_bounds (value : List Nat) (buf : Nat → Nat) (bufsize fuel : Nat)
    (h1 : 1 ≤ bufsize) (h2 : bufsize ≤ 2 ^ 31) (hlen : (cstr value).length < 2 ^ 64)
    (hf : bufsize ≤ fuel) :
    copyLen bufsize value = min (strlen value) (bufsize - 1) ∧
    copyLen bufsize value ≤ bufsize - 1 ∧
    (∃ acc, copyLoopAccesses fuel 0 bufsize (copyLen bufsize value) = some acc ∧
      acc.length = bufsize - 1 ∧
      ∀ a ∈ acc, a.1 ≤ copyLen bufsize value ∧ 0 ≤ a.2 ∧ a.2 ≤ (strlen value : Int)) ∧
    ∃ buf', copyOut fuel value (some buf) bufsize = some (some buf') ∧
      ∀ x, copyLen bufsize value < x → buf' x = buf x := by
  have hL := copyLen_eq_min h1 (by omega : bufsize < 2 ^ 64) value
  have hsl : strlen value = (cstr value).length := Nat.mod_eq_of_lt hlen
  have hL1 : copyLen bufsize value ≤ bufsize - 1 := by rw [hL]; exact Nat.min_le_right _ _
  have hL2 : copyLen bufsize value ≤ strlen value := by rw [hL]; exact Nat.min_le_left _ _
  refine ⟨hL, hL1, ?_, ?_⟩
  · obtain ⟨acc, e, hn, hacc⟩ := copyLoopAccesses_run h1 h2
      (by omega : copyLen bufsize value < 2 ^ 64) (bufsize - 1) 0 fuel (by omega) (by omega)
    refine ⟨acc, e, hn, fun a ha => ?_⟩
    obtain ⟨a1, -, a2, a3⟩ := hacc a ha
    exact ⟨a1, a2, Int.le_trans a3 (Int.ofNat_le.2 hL2)⟩
  · obtain ⟨buf', e, -, -, hrest⟩ := copyOut_spec value buf h1 h2 hlen hf
    refine ⟨buf', e, fun x hx => hrest x ?_⟩
    rw [← hsl, ← hL]
    exact hx

theorem copy_loop_accesses_in_bounds_witness :
    copyLen 3 [104, 101, 108, 108, 111, 0] = min (strlen [104, 101, 108, 108, 111, 0]) (3 - 1) ∧
    copyLen 3 [104, 101, 108, 108, 111, 0] ≤ 3 - 1 ∧
    (∃ acc, copyLoopAccesses 3 0 3 (copyLen 3 [104, 101, 108, 108, 111, 0]) = some acc ∧
      acc.length = 3 - 1 ∧
      ∀ a ∈ acc, a.1 ≤ copyLen 3 [104, 101, 108, 108, 111, 0] ∧ 0 ≤ a.2 ∧
        a.2 ≤ (strlen [104, 101, 108, 108, 111, 0] : Int)) ∧
    ∃ buf', copyOut 3 [104, 101, 108, 108, 111, 0] (some (fun _ => 7)) 3 = some (some buf') ∧
      ∀ x, copyLen 3 [104, 101, 108, 108, 111, 0] < x → buf' x = (fun _ => 7) x :=
  copy_loop_accesses_in_bounds [104, 101, 108, 108, 111, 0] (fun _ => 7) 3 3 (by decide)
    (by decide) (by decide) (by decide)

/-! ## Null-terminated chains -/

/-- A null-terminated chain is determined by its first link. -/
theorem IsSeg.seg_unique {h : Heap} : ∀ {l1 l2 : List Nat} {s : Nat}, IsSeg h s l1 0 →
    IsSeg h s l2 0 → 0 ∉ l1 → 0 ∉ l2 → l1 = l2
  | [], [], _, _, _, _, _ => rfl
  | [], y :: l2, s, h1, h2, _, n2 => by
    have e1 : s = 0 := h1
    have e2 : s = y := h2.1
    exact absurd (e2 ▸ e1 : y = 0) (fun e => n2 (by simp [e]))
  | x :: l1, [], s, h1, h2, n1, _ => by
    have e1 : s = 0 := h2
    have e2 : s = x := h1.1
    exact absurd (e2 ▸ e1 : x = 0) (fun e => n1 (by simp [e]))
  | x :: l1, y :: l2, s, h1, h2, n1, n2 => by
    have e : x = y := h1.1.symm.trans h2.1
    subst e
    rw [IsSeg.seg_unique h1.2 h2.2 (fun e => n1 (List.mem_cons_of_mem _ e))
      (fun e => n2 (List.mem_cons_of_mem _ e))]

/-- The links of a null-terminated chain are pairwise distinct. -/
theorem IsSeg.seg_nodup {h : Heap} : ∀ {l : List Nat} {s : Nat}, IsSeg h s l 0 → 0 ∉ l → l.Nodup
  | [], _, _, _ => List.nodup_nil
  | x :: rest, s, hs, h0 => by
    have h0r : 0 ∉ rest := fun e => h0 (List.mem_cons_of_mem _ e)
    refine List.nodup_cons.2 ⟨?_, IsSeg.seg_nodup hs.2 h0r⟩
    intro hx
    obtain ⟨A, B, e⟩ := List.append_of_mem hx
    have hs2 := hs.2
    rw [e] at hs2
    obtain ⟨m, -, h2⟩ := isSeg_append.1 hs2
    have hB : IsSeg h (h.next x) B 0 := h2.2
    have hAB := IsSeg.seg_unique hs.2 hB h0r (fun e2 => h0r (by rw [e]; simp [e2]))
    have := congrArg List.length hAB
    rw [e] at this
    simp at this
    omega

/-- The slow/fast walk of `merge_sort` on a chain of at least two links stops at
the link of index `(n - 1) / 2`; cutting the chain behind it leaves the first
`(n + 1) / 2` links and the other `n / 2` links as two chains. -/
theorem merge_sort_split_parts {h : Heap} {head : Nat} {l : List Nat} (hs : IsSeg h head l 0)
    (h0 : 0 ∉ l) (hn2 : 2 ≤ l.length) {fuel : Nat} (hf : (l.length - 1) / 2 < fuel) :
    ∃ left, merge_sort_split fuel h head (h.next head) = some left ∧
      IsSeg (h.setNext left 0) head (l.take ((l.length + 1) / 2)) 0 ∧
      IsSeg (h.setNext left 0) (h.next left) (l.drop ((l.length + 1) / 2)) 0 := by
  have hnd := hs.seg_nodup h0
  have hhead : head = l.getD 0 0 := by
    rw [hs.start_eq]; cases l <;> simp
  have hnext : h.next head = l.getD 1 0 := by
    rw [hhead]; exact hs.seg_next_getD (by omega)
  have hsplit := merge_sort_split_spec hs h0 ((l.length - 1) / 2) 0 fuel (by omega) rfl hf
  have hm : (l.length - 1) / 2 < l.length := by omega
  have hsp := split_at_index l 0 hm
  have hm1 : (l.length - 1) / 2 + 1 = (l.length + 1) / 2 := by omega
  have htake : l.take ((l.length + 1) / 2)
      = l.take ((l.length - 1) / 2) ++ [l.getD ((l.length - 1) / 2) 0] := by
    rw [← hm1, List.take_succ, List.getD_eq_getElem?_getD, List.getElem?_eq_getElem hm]
    rfl
  rw [hm1] at hsp
  have hs' := hs
  have hnd' := hnd
  rw [hsp] at hs' hnd'
  obtain ⟨c1, c2⟩ := split_chain hs' hnd'
  rw [← htake] at c1
  refine ⟨l.getD ((l.length - 1) / 2) 0, ?_, c1, c2⟩
  rw [hnext, hhead]
  exact hsplit

/-! ## The claim on termination of the sort -/

/-- Claim C20. On every finite null-terminated chain `merge_sort` returns, with the
same links in a null-terminated chain; for a chain of `n ≥ 2` links the
slow/fast split returns and produces a left part of `ceil(n/2)` links and a
right part of `floor(n/2)` links, both non-empty and strictly shorter than `n`;
and `merge` returns on every two non-empty null-terminated chains that share no
link, its result a null-terminated chain whose length is the sum of the two. -/
theorem merge_sort_terminates (h : Heap) (head : Nat) (l : List Nat) (fuel : Nat)
    (hs : IsSeg h head l 0) (h0 : 0 ∉ l) (hf : l.length < fuel) :
    (∃ h1 r l1, merge_sort fuel h head = some (h1, r) ∧ IsSeg h1 r l1 0 ∧ l1.Perm l) ∧
    (2 ≤ l.length → ∃ left, merge_sort_split fuel h head (h.next head) = some left ∧
      IsSeg (h.setNext left 0) head (l.take ((l.length + 1) / 2)) 0 ∧
      IsSeg (h.setNext left 0) (h.next left) (l.drop ((l.length + 1) / 2)) 0 ∧
      (l.take ((l.length + 1) / 2)).length = (l.length + 1) / 2 ∧
      (l.drop ((l.length + 1) / 2)).length = l.length / 2 ∧
      0 < l.length / 2 ∧ (l.length + 1) / 2 < l.length) ∧
    (∀ b lb, IsSeg h b lb 0 → 0 ∉ lb → l ≠ [] → lb ≠ [] → l.Disjoint lb →
      l.length + lb.length ≤ fuel →
      ∃ h1 r l1, merge fuel h head b = some (h1, r) ∧ IsSeg h1 r l1 0 ∧
        l1.length = l.length + lb.length) := by
  have hnd := hs.seg_nodup h0
  refine ⟨?_, ?_, ?_⟩
  · obtain ⟨h1, r, e, s1, -⟩ := @merge_sort_spec h.value fuel l h head hs h0 hnd rfl hf
    exact ⟨h1, r, _, e, s1, List.mergeSort_perm l _⟩
  · intro hn2
    obtain ⟨left, e, c1, c2⟩ := merge_sort_split_parts hs h0 hn2 (by omega : _ < fuel)
    refine ⟨left, e, c1, c2, ?_, ?_, by omega, by omega⟩
    · rw [List.length_take]; omega
    · rw [List.length_drop]; omega
  · intro b lb hb h0b hl hlb hdis hfb
    have hndb := hb.seg_nodup h0b
    obtain ⟨x, la, rfl⟩ := List.exists_cons_of_ne_nil hl
    obtain ⟨y, lb', rfl⟩ := List.exists_cons_of_ne_nil hlb
    have ex : head = x := hs.1
    have ey : b = y := hb.1
    subst ex ey
    simp only [List.length_cons] at hfb hf
    obtain ⟨h1, r, e, s1, -⟩ := @merge_loop_spec h.value (la.length + lb'.length) la lb' []
      head b h 0 none fuel rfl hs hb h0 h0b
      (by simpa using List.nodup_append.2 ⟨hnd, hndb, hdis⟩) rfl (TailInv.init _ _) (by omega)
    refine ⟨h1, r, _, e, s1, ?_⟩
    simp [List.length_merge]

theorem merge_sort_terminates_witness :
    IsSeg (sampleQueue.setNext 5 0) 2 [2, 3, 4, 5] 0 ∧
    (∃ h1 r l1, merge_sort 5 (sampleQueue.setNext 5 0) 2 = some (h1, r) ∧ IsSeg h1 r l1 0 ∧
      l1.Perm [2, 3, 4, 5]) ∧
    (2 ≤ [2, 3, 4, 5].length →
      ∃ left, merge_sort_split 5 (sampleQueue.setNext 5 0) 2 ((sampleQueue.setNext 5 0).next 2)
          = some left ∧
      IsSeg ((sampleQueue.setNext 5 0).setNext left 0) 2
        ([2, 3, 4, 5].take (([2, 3, 4, 5].length + 1) / 2)) 0 ∧
      IsSeg ((sampleQueue.setNext 5 0).setNext left 0) ((sampleQueue.setNext 5 0).next left)
        ([2, 3, 4, 5].drop (([2, 3, 4, 5].length + 1) / 2)) 0 ∧
      ([2, 3, 4, 5].take (([2, 3, 4, 5].length + 1) / 2)).length
        = ([2, 3, 4, 5].length + 1) / 2 ∧
      ([2, 3, 4, 5].drop (([2, 3, 4, 5].length + 1) / 2)).length = [2, 3, 4, 5].length / 2 ∧
      0 < [2, 3, 4, 5].length / 2 ∧ ([2, 3, 4, 5].length + 1) / 2 < [2, 3, 4, 5].length) :=
  ⟨by decide,
    (merge_sort_terminates (sampleQueue.setNext 5 0) 2 [2, 3, 4, 5] 5 (by decide) (by decide)
      (by decide)).1,
    (merge_sort_terminates (sampleQueue.setNext 5 0) 2 [2, 3, 4, 5] 5 (by decide) (by decide)
      (by decide)).2.1⟩

/-! ## q_shuffle -/

theorem set_length_mid (A B : List Nat) (x t : Nat) :
    (A ++ x :: B).set A.length t = A ++ t :: B := by
  induction A with
  | nil => rfl
  | cons a A ih => simp [ih]

theorem getD_length_mid (A B : List Nat) (x d : Nat) : (A ++ x :: B).getD A.length d = x := by
  induction A with
  | nil => rfl
  | cons a A ih => simpa using ih

theorem exists_split_at {l : List Nat} {i : Nat} (hi : i < l.length) :
    ∃ A x B, l = A ++ x :: B ∧ A.length = i :=
  ⟨l.take i, l.getD i 0, l.drop (i + 1), split_at_index l 0 hi, by
    rw [List.length_take]; omega⟩

theorem shuffleStep_cases (U : List Nat) (d : Nat) {roll : Nat} (hr : roll < U.length) :
    (∃ A t, U = A ++ [t] ∧ roll = A.length ∧ shuffleStep U roll = A ∧ U.getD roll d = t) ∨
    (∃ A x B t, U = A ++ x :: (B ++ [t]) ∧ roll = A.length ∧
      shuffleStep U roll = A ++ t :: B ∧ U.getD roll d = x) := by
  rcases eq_nil_or_snoc U with rfl | ⟨V, t, rfl⟩
  · simp at hr
  · by_cases hv : roll = V.length
    · left
      subst hv
      refine ⟨V, t, rfl, rfl, ?_, getD_length_mid V [] t d⟩
      rw [shuffleStep, List.getLastD_concat, set_length_mid V [] t t, List.dropLast_concat]
    · right
      have hlt : roll < V.length := by
        simp at hr
        omega
      obtain ⟨A, x, B, rfl, rfl⟩ := exists_split_at hlt
      have e2 : A ++ x :: B ++ [t] = A ++ x :: (B ++ [t]) := by simp
      refine ⟨A, x, B, t, e2, rfl, ?_, ?_⟩
      · rw [shuffleStep, List.getLastD_concat, e2, set_length_mid]
        have e3 : A ++ t :: (B ++ [t]) = (A ++ t :: B) ++ [t] := by simp
        rw [e3, List.dropLast_concat]
      · rw [e2, getD_length_mid]

theorem shuffleStep_perm (U S : List Nat) {roll : Nat} (hr : roll < U.length) :
    (shuffleStep U roll ++ U.getD roll 0 :: S).Perm (U ++ S) := by
  rcases shuffleStep_cases U 0 hr with ⟨A, t, rfl, -, e1, e2⟩ | ⟨A, x, B, t, rfl, -, e1, e2⟩
  · rw [e1, e2]
    simp
  · rw [e1, e2]
    have e3 : A ++ t :: B ++ x :: S = A ++ (t :: (B ++ x :: S)) := by simp
    have e4 : A ++ x :: (B ++ [t]) ++ S = A ++ (x :: (B ++ t :: S)) := by simp
    rw [e3, e4]
    refine List.Perm.append_left A ?_
    have p1 : (t :: (B ++ x :: S)).Perm (t :: x :: (B ++ S)) :=
      List.Perm.cons t List.perm_middle
    have p2 : (x :: (B ++ t :: S)).Perm (x :: t :: (B ++ S)) :=
      List.Perm.cons x List.perm_middle
    exact p1.trans ((List.Perm.swap x t _).trans p2.symm)

theorem shuffleStep_length (U : List Nat) (roll : Nat) :
    (shuffleStep U roll).length = U.length - 1 := by
  simp [shuffleStep]

theorem shuffleList_perm : ∀ (rands : List Nat) (size : Nat) (U S l' : List Nat),
    shuffleList rands size U S = some l' → size ≤ U.length → l'.Perm (U ++ S)
  | _, 0, U, S, l', e, _ => by
    rw [shuffleList] at e
    · rw [← Option.some.inj e]
  | [], _ + 1, _, _, _, e, _ => by simp [shuffleList] at e
  | r :: rands, size + 1, U, S, l', e, hs => by
    rw [shuffleList] at e
    have hr : r % (size + 1) < U.length := lt_of_lt_of_le (Nat.mod_lt _ (by omega)) hs
    have := shuffleList_perm rands size _ _ l' e (by rw [shuffleStep_length]; omega)
    exact this.trans (shuffleStep_perm U S hr)

theorem q_shuffle_walk_getD {h : Heap} {head : Nat} {l : List Nat} (q : IsQueue h head l) :
    ∀ (roll i : Nat), i + roll < l.length →
      q_shuffle_walk h roll (l.getD i head) = l.getD (i + roll) head
  | 0, _, _ => rfl
  | roll + 1, i, hi => by
    rw [q_shuffle_walk, q.next_getD (by omega), q_shuffle_walk_getD q roll (i + 1) (by omega)]
    congr 1
    omega

@[simp] theorem list_move_tail_value (h : Heap) (x y : Nat) :
    (list_move_tail h x y).value = h.value := rfl
@[simp] theorem list_move_tail_freed (h : Heap) (x y : Nat) :
    (list_move_tail h x y).freed = h.freed := rfl

/-- A pass of the loop of `q_shuffle` whose roll picks a link `x` before the last
link `t` not yet settled: the two exchange their places. -/
theorem IsQueue.shuffle_pass {h : Heap} {head x t : Nat} {A B S : List Nat}
    (q : IsQueue h head (A ++ x :: (B ++ t :: S))) :
    IsQueue (list_move_tail (list_move_tail h t x) x (S.headD head)) head
      (A ++ t :: (B ++ x :: S)) := by
  have h0 := q.nonnull
  have q1 : IsQueue h head ((A ++ x :: B) ++ t :: S) := by simpa using q
  have ht : t ∉ head :: (A ++ x :: (B ++ S)) := by
    simpa using not_mem_of_nodup_mid q1.nodup
  have ht0 : t ≠ 0 := fun e => h0 (by simp [e])
  have hx0 : x ≠ 0 := fun e => h0 (by simp [e])
  have q2 : IsQueue (Queue.list_del h t) head (A ++ x :: (B ++ S)) := by simpa using q1.list_del
  have q3 := q2.list_add_tail ht ht0
  have q3' : IsQueue (list_move_tail h t x) head ((A ++ [t]) ++ x :: (B ++ S)) := by
    simpa [list_move_tail] using q3
  have hx : x ∉ head :: (A ++ t :: B ++ S) := by
    simpa using not_mem_of_nodup_mid q3'.nodup
  have q4 : IsQueue (Queue.list_del (list_move_tail h t x) x) head ((A ++ t :: B) ++ S) := by
    simpa using q3'.list_del
  have q5 := q4.list_add_tail hx hx0
  simpa [list_move_tail] using q5

/-- Moving a link `t` before itself and then before its successor `e` restores
every `next` and `prev` field. -/
theorem list_move_tail_self {h : Heap} {t e p : Nat} (hn : h.next t = e) (hp : h.prev t = p)
    (hpn : h.next p = t) (hep : h.prev e = t) (hte : t ≠ e) (htp : t ≠ p) (a : Nat) :
    (list_move_tail (list_move_tail h t t) t e).next a = h.next a ∧
      (list_move_tail (list_move_tail h t t) t e).prev a = h.prev a := by
  have hte' : e ≠ t := Ne.symm hte
  have htp' : p ≠ t := Ne.symm htp
  constructor
  · by_cases h1 : a = t
    · subst h1
      simp [list_move_tail, list_del, list_add_tail, hn, hp, hte, htp, hte', htp']
    · by_cases h2 : a = p
      · subst h2
        simp [list_move_tail, list_del, list_add_tail, hn, hp, hpn, hte, htp, hte', htp']
      · simp [list_move_tail, list_del, list_add_tail, hn, hp, hte, htp, hte', htp', h1, h2]
  · by_cases h1 : a = t
    · subst h1
      simp [list_move_tail, list_del, list_add_tail, hn, hp, hte, htp, hte', htp']
    · by_cases h2 : a = e
      · subst h2
        simp [list_move_tail, list_del, list_add_tail, hn, hp, hep, hte, htp, hte', htp']
      · simp [list_move_tail, list_del, list_add_tail, hn, hp, hte, htp, hte', htp', h1, h2]

/-- A pass of the loop of `q_shuffle` whose roll picks the last link `t` not yet
settled: the two moves undo each other. -/
theorem IsQueue.shuffle_pass_last {h : Heap} {head t : Nat} {A S : List Nat}
    (q : IsQueue h head (A ++ t :: S)) :
    IsQueue (list_move_tail (list_move_tail h t t) t (S.headD head)) head (A ++ t :: S) := by
  have hn : h.next t = S.headD head := q.next_mid
  have hp : h.prev t = A.getLastD head := q.prev_mid
  have hpn : h.next (A.getLastD head) = t := by simpa using q.next_getLastD
  have hep : h.prev (S.headD head) = t := by
    have q' : IsQueue h head ((A ++ [t]) ++ S) := by simpa using q
    simpa using q'.prev_headD
  have hnd := not_mem_of_nodup_mid q.nodup
  have hte : t ≠ S.headD head := by
    intro e
    apply hnd
    rw [e]
    have := headD_mem_concat head S
    simp only [List.mem_append, List.mem_singleton, List.mem_cons] at this ⊢
    tauto
  have htp : t ≠ A.getLastD head := by
    intro e
    apply hnd
    rw [e]
    have := getLastD_mem_cons head A
    simp only [List.mem_append, List.mem_cons] at this ⊢
    tauto
  exact q.frame (fun a _ => (list_move_tail_self hn hp hpn hep hte htp a).1)
    (fun a _ => (list_move_tail_self hn hp hpn hep hte htp a).2)

theorem q_shuffle_loop_spec {head : Nat} : ∀ (rands : List Nat) (size : Nat) (U S : List Nat)
    (h : Heap), IsQueue h head (U ++ S) → size ≤ U.length → size ≤ rands.length →
    ∃ h' l', q_shuffle_loop head rands h size (S.headD head) = some h' ∧
      shuffleList rands size U S = some l' ∧ IsQueue h' head l' ∧ h'.value = h.value ∧
      h'.freed = h.freed
  | [], size, U, S, h, q, _, hr => by
    have : size = 0 := by simpa using hr
    subst this
    exact ⟨h, U ++ S, by simp [q_shuffle_loop], by simp [shuffleList], q, rfl, rfl⟩
  | r :: rands, 0, U, S, h, q, _, _ =>
    ⟨h, U ++ S, by simp [q_shuffle_loop], by simp [shuffleList], q, rfl, rfl⟩
  | r :: rands, size + 1, U, S, h, q, hs, hr => by
    have hroll : r % (size + 1) < U.length := lt_of_lt_of_le (Nat.mod_lt _ (by omega)) hs
    have hnode : q_shuffle_walk h (r % (size + 1)) (h.next head)
        = U.getD (r % (size + 1)) 0 := by
      have e0 : h.next head = (U ++ S).getD 0 head := by
        rw [q.next_head]; cases U ++ S <;> rfl
      rw [e0, q_shuffle_walk_getD q _ 0 (by simp; omega), Nat.zero_add]
      rw [List.getD_append _ _ _ _ hroll]
      rw [List.getD_eq_getElem _ _ hroll, List.getD_eq_getElem _ _ hroll]
    have hlast : h.prev (S.headD head) = U.getLastD head := q.prev_headD
    have key : IsQueue (list_move_tail (list_move_tail h (h.prev (S.headD head))
        (U.getD (r % (size + 1)) 0)) (U.getD (r % (size + 1)) 0) (S.headD head)) head
        (shuffleStep U (r % (size + 1)) ++ U.getD (r % (size + 1)) 0 :: S) := by
      rw [hlast]
      rcases shuffleStep_cases U 0 hroll with ⟨A, t, rfl, -, e1, e2⟩ | ⟨A, x, B, t, rfl, -, e1, e2⟩
      · rw [e1, e2, List.getLastD_concat]
        exact IsQueue.shuffle_pass_last (by simpa using q)
      · rw [e1, e2]
        have e3 : (A ++ x :: (B ++ [t])).getLastD head = t := by
          have : A ++ x :: (B ++ [t]) = (A ++ x :: B) ++ [t] := by simp
          rw [this, List.getLastD_concat]
        rw [e3]
        have := IsQueue.shuffle_pass (by simpa using q : IsQueue h head (A ++ x :: (B ++ t :: S)))
        simpa using this
    have hend : (list_move_tail (list_move_tail h (h.prev (S.headD head))
        (U.getD (r % (size + 1)) 0)) (U.getD (r % (size + 1)) 0) (S.headD head)).prev
          (S.headD head) = U.getD (r % (size + 1)) 0 := by
      have q' := key
      rw [show shuffleStep U (r % (size + 1)) ++ U.getD (r % (size + 1)) 0 :: S
        = (shuffleStep U (r % (size + 1)) ++ [U.getD (r % (size + 1)) 0]) ++ S by simp] at q'
      simpa using q'.prev_headD
    obtain ⟨h', l', e1, e2, q', hv, hfr⟩ := q_shuffle_loop_spec rands size
      (shuffleStep U (r % (size + 1))) (U.getD (r % (size + 1)) 0 :: S) _ key
      (by rw [shuffleStep_length]; omega) (by simpa using hr)
    refine ⟨h', l', ?_, ?_, q', by rw [hv]; rfl, by rw [hfr]; rfl⟩
    · rw [q_shuffle_loop, if_pos (Nat.succ_pos _)]
      simp only []
      rw [hnode, hend, Nat.add_sub_cancel]
      exact e1
    · rw [shuffleList]
      exact e2

theorem q_shuffle_loop_zero (head : Nat) (rands : List Nat) (h : Heap) (e : Nat) :
    q_shuffle_loop head rands h 0 e = some h := by
  cases rands <;> simp [q_shuffle_loop]

theorem toInt_toNat_le (i : Nat) : (toInt i).toNat ≤ i := by
  unfold toInt
  split <;> omega

theorem q_shuffle_spec {h : Heap} {head : Nat} {l : List Nat} (q : IsQueue h head l)
    {fuel : Nat} (hf : l.length < fuel) (rands : List Nat) (hr : l.length ≤ rands.length) :
    ∃ h' l', q_shuffle fuel rands h head = some h' ∧
      shuffleList rands (toInt (l.length % 2 ^ 32)).toNat l [] = some l' ∧
      IsQueue h' head l' ∧ h'.value = h.value ∧ h'.freed = h.freed := by
  have hsz : (toInt (l.length % 2 ^ 32)).toNat ≤ l.length :=
    Nat.le_trans (toInt_toNat_le _) (Nat.mod_le _ _)
  obtain ⟨h', l', e1, e2, q', hv, hfr⟩ := q_shuffle_loop_spec rands
    (toInt (l.length % 2 ^ 32)).toNat l [] h (by simpa using q) hsz (by omega)
  refine ⟨h', l', ?_, e2, q', hv, hfr⟩
  rw [q_shuffle, q_size_spec q hf]
  exact e1

theorem q_shuffle_null (fuel : Nat) (rands : List Nat) (h : Heap) :
    q_shuffle fuel rands h 0 = some h := by
  rw [q_shuffle, q_size_null]
  exact q_shuffle_loop_zero 0 rands h 0

/-- The order of a queue is determined by the heap. -/
theorem IsSeg.seg_unique_to {h : Heap} {t : Nat} : ∀ {l1 l2 : List Nat} {s : Nat},
    IsSeg h s l1 t → IsSeg h s l2 t → t ∉ l1 → t ∉ l2 → l1 = l2
  | [], [], _, _, _, _, _ => rfl
  | [], y :: l2, s, h1, h2, _, n2 => by
    have e1 : s = t := h1
    have e2 : s = y := h2.1
    exact absurd (e2 ▸ e1 : y = t) (fun e => n2 (by simp [e]))
  | x :: l1, [], s, h1, h2, n1, _ => by
    have e1 : s = t := h2
    have e2 : s = x := h1.1
    exact absurd (e2 ▸ e1 : x = t) (fun e => n1 (by simp [e]))
  | x :: l1, y :: l2, s, h1, h2, n1, n2 => by
    have e : x = y := h1.1.symm.trans h2.1
    subst e
    rw [IsSeg.seg_unique_to h1.2 h2.2 (fun e => n1 (List.mem_cons_of_mem _ e))
      (fun e => n2 (List.mem_cons_of_mem _ e))]

theorem IsQueue.to_seg {h : Heap} {head : Nat} {l : List Nat} (q : IsQueue h head l) :
    IsSeg h (h.next head) l head := by
  rw [q.next_head]
  exact chain_to_seg (List.chain'_cons'.1 q.chain).2

theorem IsQueue.order_unique {h : Heap} {head : Nat} {l1 l2 : List Nat}
    (q1 : IsQueue h head l1) (q2 : IsQueue h head l2) : l1 = l2 :=
  IsSeg.seg_unique_to q1.to_seg q2.to_seg (List.nodup_cons.1 q1.nodup).1
    (List.nodup_cons.1 q2.nodup).1

theorem ValidRolls.length_eq : ∀ {n : Nat} {rolls : List Nat}, ValidRolls n rolls →
    rolls.length = n
  | 0, [], _ => rfl
  | 0, _ :: _, h => h.elim
  | _ + 1, [], h => h.elim
  | n + 1, _ :: rolls, h => by
    rw [List.length_cons, ValidRolls.length_eq h.2]

theorem shuffleList_shape : ∀ (n : Nat) (rolls U S σ : List Nat),
    shuffleList rolls n U S = some σ → U.length = n → ∃ τ, σ = τ ++ S ∧ τ.length = n
  | 0, rolls, U, S, σ, e, hU => by
    rw [shuffleList] at e
    exact ⟨U, (Option.some.inj e).symm, hU⟩
  | n + 1, [], U, S, σ, e, _ => by simp [shuffleList] at e
  | n + 1, r :: rolls, U, S, σ, e, hU => by
    rw [shuffleList] at e
    obtain ⟨τ, e1, e2⟩ := shuffleList_shape n rolls _ _ σ e
      (by rw [shuffleStep_length]; omega)
    exact ⟨τ ++ [U.getD (r % (n + 1)) 0], by rw [e1]; simp, by simp [e2]⟩

theorem getD_inj_of_nodup {U : List Nat} (hn : U.Nodup) {i j : Nat} (hi : i < U.length)
    (hj : j < U.length) (e : U.getD i 0 = U.getD j 0) : i = j := by
  rw [List.getD_eq_getElem _ _ hi, List.getD_eq_getElem _ _ hj] at e
  exact (List.Nodup.getElem_inj_iff hn).1 e

theorem shuffleStep_nodup {U : List Nat} (hn : U.Nodup) {roll : Nat} (hr : roll < U.length) :
    (shuffleStep U roll).Nodup := by
  have p := shuffleStep_perm U [] hr
  rw [List.append_nil] at p
  exact (List.nodup_append.1 (p.nodup_iff.2 hn)).1

theorem shuffleList_injective : ∀ (n : Nat) (r1 r2 U S σ : List Nat), ValidRolls n r1 →
    ValidRolls n r2 → U.length = n → U.Nodup → shuffleList r1 n U S = some σ →
    shuffleList r2 n U S = some σ → r1 = r2
  | 0, [], [], _, _, _, _, _, _, _, _, _ => rfl
  | 0, [], _ :: _, _, _, _, _, v2, _, _, _, _ => v2.elim
  | 0, _ :: _, _, _, _, _, v1, _, _, _, _, _ => v1.elim
  | _ + 1, [], _, _, _, _, v1, _, _, _, _, _ => v1.elim
  | _ + 1, _ :: _, [], _, _, _, _, v2, _, _, _, _ => v2.elim
  | n + 1, a :: r1, b :: r2, U, S, σ, v1, v2, hU, hn, e1, e2 => by
    have ha : a < n + 1 := v1.1
    have hb : b < n + 1 := v2.1
    rw [shuffleList, Nat.mod_eq_of_lt ha] at e1
    rw [shuffleList, Nat.mod_eq_of_lt hb] at e2
    obtain ⟨τ1, s1, n1⟩ := shuffleList_shape n r1 _ _ σ e1 (by rw [shuffleStep_length]; omega)
    obtain ⟨τ2, s2, n2⟩ := shuffleList_shape n r2 _ _ σ e2 (by rw [shuffleStep_length]; omega)
    have hcat := List.append_inj (s1.symm.trans s2) (n1.trans n2.symm)
    have hab : a = b := getD_inj_of_nodup hn (by omega) (by omega) (List.cons.inj hcat.2).1
    subst hab
    rw [shuffleList_injective n r1 r2 _ _ σ v1.2 v2.2 (by rw [shuffleStep_length]; omega)
      (shuffleStep_nodup hn (by omega)) e1 e2]

theorem shuffleList_surjective : ∀ (n : Nat) (U S τ : List Nat), U.length = n → τ.Perm U →
    ∃ rolls, ValidRolls n rolls ∧ shuffleList rolls n U S = some (τ ++ S)
  | 0, U, S, τ, hU, p => by
    have hU0 : U = [] := List.length_eq_zero.1 hU
    subst hU0
    have : τ = [] := List.Perm.eq_nil p
    subst this
    exact ⟨[], trivial, by simp [shuffleList]⟩
  | n + 1, U, S, τ, hU, p => by
    have hτ : τ ≠ [] := by
      intro e
      have := p.length_eq
      rw [e, hU] at this
      simp at this
    rcases eq_nil_or_snoc τ with e | ⟨τ', z, rfl⟩
    · exact absurd e hτ
    · have hz : z ∈ U := p.subset (by simp)
      have hr : U.indexOf z < U.length := List.indexOf_lt_length.2 hz
      have hg : U.getD (U.indexOf z) 0 = z := by
        rw [List.getD_eq_getElem _ _ hr]
        exact List.getElem_indexOf hr
      have p1 := shuffleStep_perm U [] hr
      rw [hg, List.append_nil] at p1
      have p2 : (shuffleStep U (U.indexOf z)).Perm τ' :=
        (List.perm_append_right_iff [z]).1 (p1.trans p.symm)
      obtain ⟨rolls, v, e⟩ := shuffleList_surjective n (shuffleStep U (U.indexOf z)) (z :: S) τ'
        (by rw [shuffleStep_length]; omega) p2.symm
      refine ⟨U.indexOf z :: rolls, ⟨by omega, v⟩, ?_⟩
      rw [shuffleList, Nat.mod_eq_of_lt (by omega), hg, e]
      simp

theorem allRolls_length : ∀ n : Nat, (allRolls n).length = n.factorial
  | 0 => rfl
  | n + 1 => by
    rw [allRolls, List.length_flatMap]
    simp [Function.comp_def, allRolls_length n, Nat.factorial_succ]

theorem mem_allRolls : ∀ (n : Nat) (rolls : List Nat), rolls ∈ allRolls n ↔ ValidRolls n rolls
  | 0, [] => by simp [allRolls, ValidRolls]
  | 0, _ :: _ => by simp [allRolls, ValidRolls]
  | n + 1, [] => by simp [allRolls, ValidRolls]
  | n + 1, r :: rolls => by
    simp [allRolls, ValidRolls, mem_allRolls n rolls]

theorem bigCalls_queue :
    ∃ h l, insertAll 1 (q_new emptyHeap 1).1 bigCalls = some h ∧ IsQueue h 1 l ∧
      l.length = 2 ^ 31 := by
  have hlen : bigCalls.length = 2 ^ 31 := by
    rw [bigCalls, List.length_map, List.length_range]
  have hall : ∀ c ∈ bigCalls, c.elem ≠ 0 ∧ c.buf = true ∧ c.elem ≠ 1 := by
    intro c hc
    rw [bigCalls, List.mem_map] at hc
    obtain ⟨i, -, rfl⟩ := hc
    exact ⟨by simp, rfl, by simp⟩
  have hnd : (bigCalls.map InsertCall.elem).Nodup := by
    rw [bigCalls, List.map_map]
    exact (List.nodup_range _).map (fun a b e => by simpa using e)
  obtain ⟨h, hi⟩ := insertAll_succeeds (by decide : (1 : Nat) ≠ 0) bigCalls (q_new emptyHeap 1).1
    (fun c hc => ⟨(hall c hc).1, (hall c hc).2.1⟩)
  have q0 : IsQueue (q_new emptyHeap 1).1 1 [] := IsQueue.init_empty emptyHeap (by decide)
  obtain ⟨l', q', hl'⟩ := insertAll_spec bigCalls _ h [] q0 hi hnd
    (fun c hc => by simpa using (hall c hc).2.2)
  exact ⟨h, l', hi, q', by rw [hl', hlen]; rfl⟩

/-! ## The claims on q_shuffle -/

/-- Claim C15. For every well-formed queue and every sequence of values of the
random source (long enough for the passes of the loop), `q_shuffle` returns and
the queue afterwards holds a permutation of the original links: the same
elements, each exactly once, the size unchanged, no payload touched and nothing
released; a queue of at most one element keeps its order, and a null queue is
left alone. -/
theorem q_shuffle_permutes (h : Heap) (head : Nat) (l rands : List Nat) (fuel : Nat)
    (q : IsQueue h head l) (hf : l.length < fuel) (hr : l.length ≤ rands.length) :
    (∃ h1 l1, q_shuffle fuel rands h head = some h1 ∧ IsQueue h1 head l1 ∧ l1.Perm l ∧
      l1.length = l.length ∧ h1.value = h.value ∧ h1.freed = h.freed ∧
      (l.length ≤ 1 → l1 = l)) ∧
    q_shuffle fuel rands h 0 = some h := by
  refine ⟨?_, q_shuffle_null fuel rands h⟩
  obtain ⟨h1, l1, e, es, q1, hv, hfr⟩ := q_shuffle_spec q hf rands hr
  have p : l1.Perm l := by
    have := shuffleList_perm rands _ l [] l1 es
      (Nat.le_trans (toInt_toNat_le _) (Nat.mod_le _ _))
    simpa using this
  refine ⟨h1, l1, e, q1, p, p.length_eq, hv, hfr, fun h1 => ?_⟩
  match l, p, h1 with
  | [], p, _ => exact List.Perm.eq_nil p
  | [x], p, _ => exact List.perm_singleton.1 p

theorem q_shuffle_permutes_witness :
    IsQueue sampleQueue 1 [2, 3, 4, 5] ∧
    ∃ h1 l1, q_shuffle 5 [7, 1, 0, 5] sampleQueue 1 = some h1 ∧ IsQueue h1 1 l1 ∧
      l1.Perm [2, 3, 4, 5] ∧ l1.length = [2, 3, 4, 5].length ∧
      h1.value = sampleQueue.value ∧ h1.freed = sampleQueue.freed ∧
      ([2, 3, 4, 5].length ≤ 1 → l1 = [2, 3, 4, 5]) :=
  ⟨by decide,
    (q_shuffle_permutes sampleQueue 1 [2, 3, 4, 5] [7, 1, 0, 5] 5 (by decide) (by decide)
      (by decide)).1⟩

/-- Claim C16, amended. For a well-formed queue of `n` elements with `n` at most
`INT_MAX`, the map from the roll sequences `(r_n, ..., r_1)`, `r_k` in `[0, k)`,
to the order `q_shuffle` produces is a bijection onto the orderings of the
queue: every roll sequence yields an ordering, two roll sequences yielding the
same order are equal, every ordering is yielded by some roll sequence; and there
are `n!` roll sequences. -/
theorem q_shuffle_bijection (h : Heap) (head : Nat) (l : List Nat) (fuel : Nat)
    (q : IsQueue h head l) (hl : l.length < 2 ^ 31) (hf : l.length < fuel) :
    (∀ rolls, ValidRolls l.length rolls →
      ∃ h1 l1, q_shuffle fuel rolls h head = some h1 ∧ IsQueue h1 head l1 ∧ l1.Perm l) ∧
    (∀ r1 r2 h1 h2 l1, ValidRolls l.length r1 → ValidRolls l.length r2 →
      q_shuffle fuel r1 h head = some h1 → q_shuffle fuel r2 h head = some h2 →
      IsQueue h1 head l1 → IsQueue h2 head l1 → r1 = r2) ∧
    (∀ l1, l1.Perm l →
      ∃ rolls h1, ValidRolls l.length rolls ∧ q_shuffle fuel rolls h head = some h1 ∧
        IsQueue h1 head l1) ∧
    (allRolls l.length).length = l.length.factorial ∧
    (∀ rolls, rolls ∈ allRolls l.length ↔ ValidRolls l.length rolls) := by
  have hsz : (toInt (l.length % 2 ^ 32)).toNat = l.length := by
    rw [Nat.mod_eq_of_lt (by omega), toInt_small hl]
    rfl
  have hnd : l.Nodup := (List.nodup_cons.1 q.nodup).2
  have run : ∀ rolls, ValidRolls l.length rolls →
      ∃ h1 l1, q_shuffle fuel rolls h head = some h1 ∧
        shuffleList rolls l.length l [] = some l1 ∧ IsQueue h1 head l1 := by
    intro rolls v
    obtain ⟨h1, l1, e, es, q1, -⟩ := q_shuffle_spec q hf rolls (by rw [v.length_eq])
    rw [hsz] at es
    exact ⟨h1, l1, e, es, q1⟩
  refine ⟨?_, ?_, ?_, allRolls_length _, mem_allRolls _⟩
  · intro rolls v
    obtain ⟨h1, l1, e, es, q1⟩ := run rolls v
    refine ⟨h1, l1, e, q1, ?_⟩
    simpa using shuffleList_perm rolls _ l [] l1 es (Nat.le_refl _)
  · intro r1 r2 h1 h2 l1 v1 v2 e1 e2 q1 q2
    obtain ⟨g1, m1, f1, s1, p1⟩ := run r1 v1
    obtain ⟨g2, m2, f2, s2, p2⟩ := run r2 v2
    rw [e1] at f1
    rw [e2] at f2
    have hg1 : h1 = g1 := Option.some.inj f1
    have hg2 : h2 = g2 := Option.some.inj f2
    subst hg1 hg2
    have hm1 : m1 = l1 := p1.order_unique q1
    have hm2 : m2 = l1 := p2.order_unique q2
    subst hm1
    rw [hm2] at s2
    exact shuffleList_injective l.length r1 r2 l [] _ v1 v2 rfl hnd s1 s2
  · intro l1 p
    obtain ⟨rolls, v, es⟩ := shuffleList_surjective l.length l [] l1 rfl p
    obtain ⟨h1, m1, e, es1, q1⟩ := run rolls v
    rw [es] at es1
    have : l1 ++ [] = m1 := Option.some.inj es1
    rw [List.append_nil] at this
    subst this
    exact ⟨rolls, h1, v, e, q1⟩

theorem q_shuffle_bijection_witness :
    IsQueue sampleQueue 1 [2, 3, 4, 5] ∧
    (∀ l1, l1.Perm [2, 3, 4, 5] →
      ∃ rolls h1, ValidRolls [2, 3, 4, 5].length rolls ∧
        q_shuffle 5 rolls sampleQueue 1 = some h1 ∧ IsQueue h1 1 l1) ∧
    (allRolls [2, 3, 4, 5].length).length = [2, 3, 4, 5].length.factorial :=
  ⟨by decide,
    (q_shuffle_bijection sampleQueue 1 [2, 3, 4, 5] 5 (by decide) (by decide)
      (by decide)).2.2.1,
    (q_shuffle_bijection sampleQueue 1 [2, 3, 4, 5] 5 (by decide) (by decide)
      (by decide)).2.2.2.1⟩

/-- Claim C16, the claim as stated fails. On the queue of `2 ^ 31` distinct
elements built by the inserts of `bigCalls`, the `int` size read by `q_shuffle`
is negative, its loop makes no pass, and every roll sequence leaves the order as
it is: an ordering other than the present one is never produced. -/
theorem q_shuffle_fixed_past_int_max :
    ∃ h l l1, insertAll 1 (q_new emptyHeap 1).1 bigCalls = some h ∧ IsQueue h 1 l ∧
      l.length = 2 ^ 31 ∧ l1.Perm l ∧ l1 ≠ l ∧
      ∀ rands fuel, 2 ^ 31 < fuel → q_shuffle fuel rands h 1 = some h := by
  obtain ⟨h, l, hi, q, hl⟩ := bigCalls_queue
  match l, q, hl with
  | [], _, hl => simp at hl
  | [_], _, hl => simp at hl
  | x :: y :: rest, q, hl =>
    have hxy : x ≠ y := by
      have := (List.nodup_cons.1 (List.nodup_cons.1 q.nodup).2).1
      intro e
      exact this (by simp [e])
    refine ⟨h, x :: y :: rest, y :: x :: rest, hi, q, hl, List.Perm.swap x y rest, ?_, ?_⟩
    · intro e
      exact hxy (List.cons.inj e).1.symm
    · intro rands fuel hf
      have hs := q_size_spec q (by omega : (x :: y :: rest).length < fuel)
      rw [hl] at hs
      have hv : toInt (2 ^ 31 % 2 ^ 32) = -(2 ^ 31 : Int) := by norm_num [toInt]
      rw [q_shuffle, hs, hv]
      exact q_shuffle_loop_zero 1 rands h 1

/-! ## The circularity invariant -/

/-- In a well-formed queue `x->next->prev == x` and `x->prev->next == x` for the
sentinel and for every link. -/
theorem IsQueue.circular {h : Heap} {head : Nat} {l : List Nat} (q : IsQueue h head l) :
    ∀ x ∈ head :: l, h.prev (h.next x) = x ∧ h.next (h.prev x) = x := by
  intro x hx
  rcases List.mem_cons.1 hx with rfl | hx
  · constructor
    · rw [q.next_head]
      have := @IsQueue.prev_headD h x [] l (by simpa using q)
      simpa using this
    · rw [q.prev_head]
      have := @IsQueue.next_getLastD h x l [] (by simpa using q)
      simpa using this
  · obtain ⟨A, B, rfl⟩ := List.append_of_mem hx
    constructor
    · rw [q.next_mid]
      have q' : IsQueue h head ((A ++ [x]) ++ B) := by simpa using q
      simpa using q'.prev_headD
    · rw [q.prev_mid]
      simpa using q.next_getLastD

theorem traverseNext_seg {h : Heap} {head : Nat} : ∀ (l : List Nat) (s fuel : Nat),
    IsSeg h s l head → head ∉ l → l.length < fuel → traverseNext h head fuel s = some l
  | [], s, fuel, hs, _, hf => by
    obtain ⟨f, rfl⟩ := Nat.exists_eq_succ_of_ne_zero (Nat.ne_of_gt hf)
    have : s = head := hs
    simp [traverseNext, this]
  | x :: rest, s, fuel, hs, hn, hf => by
    obtain ⟨f, rfl⟩ := Nat.exists_eq_succ_of_ne_zero (Nat.ne_of_gt (Nat.zero_lt_of_lt hf))
    have e : s = x := hs.1
    have hx : x ≠ head := fun e => hn (by simp [e])
    rw [traverseNext, e, if_neg hx, traverseNext_seg rest (h.next x) f hs.2
      (fun e => hn (List.mem_cons_of_mem _ e)) (by simpa using hf)]
    rfl

theorem traversePrev_chain {h : Heap} {head : Nat} : ∀ (n : Nat) (l : List Nat) (e fuel : Nat),
    l.length = n → (head :: (l ++ [e])).Chain' (Link h) → head ∉ l → l.length < fuel →
    traversePrev h head fuel (h.prev e) = some l.reverse
  | 0, l, e, fuel, hl, hc, _, hf => by
    obtain ⟨f, rfl⟩ := Nat.exists_eq_succ_of_ne_zero (Nat.ne_of_gt (Nat.zero_lt_of_lt hf))
    have : l = [] := List.length_eq_zero.1 hl
    subst this
    have : h.prev e = head := (List.chain'_pair.1 hc).2
    simp [traversePrev, this]
  | n + 1, l, e, fuel, hl, hc, hn, hf => by
    obtain ⟨f, rfl⟩ := Nat.exists_eq_succ_of_ne_zero (Nat.ne_of_gt (Nat.zero_lt_of_lt hf))
    rcases eq_nil_or_snoc l with rfl | ⟨l', p, rfl⟩
    · simp at hl
    · have e1 : head :: (l' ++ [p] ++ [e]) = (head :: (l' ++ [p])) ++ [e] := by simp
      rw [e1] at hc
      have hc1 := hc.left_of_append
      have hpe : h.prev e = p := by
        have := (List.chain'_append.1 hc).2.2 p (by
          rw [← List.cons_append, List.getLast?_append]; simp) e (by simp)
        exact this.2
      have hp : p ≠ head := fun e => hn (by simp [e])
      rw [traversePrev, hpe, if_neg hp, traversePrev_chain n l' p f (by simpa using hl) hc1
        (fun e => hn (by simp [e])) (by simpa using hf)]
      simp

/-- On a well-formed queue the forward traversal from the sentinel visits the
links in order and the backward traversal visits them in reverse order; both
come back to the sentinel. -/
theorem IsQueue.traversals {h : Heap} {head : Nat} {l : List Nat} (q : IsQueue h head l)
    {fuel : Nat} (hf : l.length < fuel) :
    traverseNext h head fuel (h.next head) = some l ∧
      traversePrev h head fuel (h.prev head) = some l.reverse := by
  have hn : head ∉ l := (List.nodup_cons.1 q.nodup).1
  exact ⟨traverseNext_seg l _ fuel q.to_seg hn hf,
    traversePrev_chain l.length l head fuel rfl q.chain hn hf⟩

theorem q_insert_head_fail {h : Heap} {head elem : Nat} {s : List Nat} {buf : Bool}
    (hs : (q_insert_head h head s elem buf).2 = false) : (q_insert_head h head s elem buf).1 = h := by
  unfold q_insert_head at hs ⊢
  split_ifs at hs ⊢ <;> simp_all

theorem q_insert_tail_fail {h : Heap} {head elem : Nat} {s : List Nat} {buf : Bool}
    (hs : (q_insert_tail h head s elem buf).2 = false) : (q_insert_tail h head s elem buf).1 = h := by
  unfold q_insert_tail at hs ⊢
  split_ifs at hs ⊢ <;> simp_all

/-! ## The claim on the circularity invariant -/

/-- Claim C17. If the queue is a well-formed circular doubly-linked list before
the call, it is one again (for some sequence of links) after each of
`q_insert_head`, `q_insert_tail` (whether they succeed or not, the new element
at a fresh address), `q_remove_head`, `q_remove_tail` (called with no buffer or
with a capacity from `1` to `2 ^ 31`, where the `int` counter of the copy loop
stays in range), `q_delete_mid`, `q_delete_dup`, `q_swap`, `q_reverse`, `q_sort`
and `q_shuffle`, each of which returns; and in every well-formed queue `x->next->prev == x` and
`x->prev->next == x` for the sentinel and every link, the forward traversal from
the sentinel comes back to it, and the backward traversal visits exactly the
forward sequence in reverse and comes back to the sentinel. -/
theorem circularity_preserved (h : Heap) (head : Nat) (l s : List Nat) (elem : Nat) (buf : Bool)
    (sp : Option (Nat → Nat)) (bufsize : Nat) (rands : List Nat) (fuel : Nat)
    (q : IsQueue h head l) (he : elem ∉ head :: l) (hf : l.length < fuel)
    (hsp : sp = none ∨ (1 ≤ bufsize ∧ bufsize ≤ 2 ^ 31)) (hfb : bufsize ≤ fuel)
    (hr : l.length ≤ rands.length) :
    (∃ l1, IsQueue (q_insert_head h head s elem buf).1 head l1) ∧
    (∃ l1, IsQueue (q_insert_tail h head s elem buf).1 head l1) ∧
    (∃ h1 x sp1 l1, q_remove_head fuel h head sp bufsize = some (h1, x, sp1) ∧
      IsQueue h1 head l1) ∧
    (∃ h1 x sp1 l1, q_remove_tail fuel h head sp bufsize = some (h1, x, sp1) ∧
      IsQueue h1 head l1) ∧
    (∃ h1 b l1, q_delete_mid fuel h head = some (h1, b) ∧ IsQueue h1 head l1) ∧
    (∃ h1 b l1, q_delete_dup fuel h head = some (h1, b) ∧ IsQueue h1 head l1) ∧
    (∃ h1 l1, q_swap fuel h head = some h1 ∧ IsQueue h1 head l1) ∧
    (∃ h1 l1, q_reverse fuel h head = some h1 ∧ IsQueue h1 head l1) ∧
    (∃ h1 l1, q_sort fuel h head = some h1 ∧ IsQueue h1 head l1) ∧
    (∃ h1 l1, q_shuffle fuel rands h head = some h1 ∧ IsQueue h1 head l1) ∧
    ∀ g l1, IsQueue g head l1 →
      (∀ x ∈ head :: l1, g.prev (g.next x) = x ∧ g.next (g.prev x) = x) ∧
      traverseNext g head (l1.length + 1) (g.next head) = some l1 ∧
      traversePrev g head (l1.length + 1) (g.prev head) = some l1.reverse := by
  refine ⟨?_, ?_, ?_, ?_, ?_, ?_, ?_, ?_, ?_, ?_, ?_⟩
  · cases hs : (q_insert_head h head s elem buf).2 with
    | false => exact ⟨l, by rw [q_insert_head_fail hs]; exact q⟩
    | true =>
      obtain ⟨-, he0, -, e⟩ := q_insert_head_true hs
      exact ⟨elem :: l, by rw [e]; exact q_insert_head_spec q s he he0⟩
  · cases hs : (q_insert_tail h head s elem buf).2 with
    | false => exact ⟨l, by rw [q_insert_tail_fail hs]; exact q⟩
    | true =>
      obtain ⟨-, he0, -, e⟩ := q_insert_tail_true hs
      exact ⟨l ++ [elem], by rw [e]; exact q_insert_tail_spec q s he he0⟩
  · match l, q with
    | [], q => exact ⟨h, 0, sp, [], q_remove_head_empty q fuel sp bufsize, q⟩
    | x :: rest, q =>
      obtain ⟨sp1, e, q1⟩ := q_remove_head_returns q sp hsp hfb
      exact ⟨_, x, sp1, rest, e, q1⟩
  · rcases eq_nil_or_snoc l with rfl | ⟨init, z, rfl⟩
    · exact ⟨h, 0, sp, [], q_remove_tail_empty q fuel sp bufsize, q⟩
    · obtain ⟨sp1, e, q1⟩ := q_remove_tail_returns q sp hsp hfb
      exact ⟨_, z, sp1, init, e, q1⟩
  · by_cases hl : l = []
    · subst hl
      exact ⟨h, false, [], q_delete_mid_empty q fuel, q⟩
    · obtain ⟨h1, e, q1, -⟩ := q_delete_mid_spec q hl hf
      exact ⟨h1, true, _, e, q1⟩
  · obtain ⟨h1, e, q1, -⟩ := q_delete_dup_spec q hf
    exact ⟨h1, true, _, e, q1⟩
  · obtain ⟨h1, e, q1, -⟩ := q_swap_spec q hf
    exact ⟨h1, _, e, q1⟩
  · obtain ⟨h1, e, q1, -⟩ := q_reverse_spec q hf
    exact ⟨h1, _, e, q1⟩
  · obtain ⟨h1, e, q1, -⟩ := q_sort_spec q hf
    exact ⟨h1, _, e, q1⟩
  · obtain ⟨h1, l1, e, -, q1, -⟩ := q_shuffle_spec q hf rands hr
    exact ⟨h1, l1, e, q1⟩
  · intro g l1 qg
    exact ⟨qg.circular, qg.traversals (Nat.lt_succ_self _)⟩

theorem circularity_preserved_witness :
    IsQueue sampleQueue 1 [2, 3, 4, 5] ∧
    (∃ h1 x sp1 l1, q_remove_head 5 sampleQueue 1 (some (fun _ => 7)) 3 = some (h1, x, sp1) ∧
      IsQueue h1 1 l1) ∧
    (∃ h1 x sp1 l1, q_remove_tail 5 sampleQueue 1 (some (fun _ => 7)) 3 = some (h1, x, sp1) ∧
      IsQueue h1 1 l1) ∧
    (∃ h1 l1, q_sort 5 sampleQueue 1 = some h1 ∧ IsQueue h1 1 l1) ∧
    (∃ h1 l1, q_shuffle 5 [7, 1, 0, 5] sampleQueue 1 = some h1 ∧ IsQueue h1 1 l1) ∧
    ∀ g l1, IsQueue g 1 l1 →
      (∀ x ∈ 1 :: l1, g.prev (g.next x) = x ∧ g.next (g.prev x) = x) ∧
      traverseNext g 1 (l1.length + 1) (g.next 1) = some l1 ∧
      traversePrev g 1 (l1.length + 1) (g.prev 1) = some l1.reverse :=
  ⟨by decide,
    (circularity_preserved sampleQueue 1 [2, 3, 4, 5] [120] 9 true (some (fun _ => 7)) 3
      [7, 1, 0, 5] 5 (by decide) (by decide) (by decide) (Or.inr ⟨by decide, by decide⟩)
      (by decide) (by decide)).2.2.1,
    (circularity_preserved sampleQueue 1 [2, 3, 4, 5] [120] 9 true (some (fun _ => 7)) 3
      [7, 1, 0, 5] 5 (by decide) (by decide) (by decide) (Or.inr ⟨by decide, by decide⟩)
      (by decide) (by decide)).2.2.2.1,
    (circularity_preserved sampleQueue 1 [2, 3, 4, 5] [120] 9 true (some (fun _ => 7)) 3
      [7, 1, 0, 5] 5 (by decide) (by decide) (by decide) (Or.inr ⟨by decide, by decide⟩)
      (by decide) (by decide)).2.2.2.2.2.2.2.2.1,
    (circularity_preserved sampleQueue 1 [2, 3, 4, 5] [120] 9 true (some (fun _ => 7)) 3
      [7, 1, 0, 5] 5 (by decide) (by decide) (by decide) (Or.inr ⟨by decide, by decide⟩)
      (by decide) (by decide)).2.2.2.2.2.2.2.2.2.1,
    (circularity_preserved sampleQueue 1 [2, 3, 4, 5] [120] 9 true (some (fun _ => 7)) 3
      [7, 1, 0, 5] 5 (by decide) (by decide) (by decide) (Or.inr ⟨by decide, by decide⟩)
      (by decide) (by decide)).2.2.2.2.2.2.2.2.2.2⟩

end Queue
